import Mathlib

/-!
# chores-md: parser and scheduler

A shallow embedding of `internal/model`, `internal/parser` and
`internal/schedule`.

Conventions of the embedding:

* a Go `string` is a list of code points (`Str`); every string the program handles
  is taken to be valid UTF-8, so that the order of Go strings (byte-wise) is the
  lexicographic order of code points;
* a Go `int` is a mathematical integer kept inside 64 bits by `wrapInt`
  (the 64-bit targets of the Go toolchain);
* library functions (`strings`, `strconv`, `regexp`, `time`, `sort`) are modelled by
  what their documentation says they return; `strings.ToLower` is a parameter
  `lower` of every definition that calls it, and the `%q` verb of `fmt` is a
  parameter `quote` of the functions that render messages.
-/

namespace Chores

/-! ## Strings and integers -/

/-- A Go string, as its list of code points. -/
abbrev Str := List Char

/-- The largest Go `int` (64 bits). -/
def maxInt : Int := 9223372036854775807

/-- The smallest Go `int` (64 bits). -/
def minInt : Int := -9223372036854775808

/-- Two's-complement wrap-around of an exact integer into the range of `int`. -/
def wrapInt (x : Int) : Int := (x + 9223372036854775808) % 18446744073709551616 - 9223372036854775808

/-- The regexp class `\d`: an ASCII decimal digit. -/
def isDigit (c : Char) : Bool := decide (48 ≤ c.toNat) && decide (c.toNat ≤ 57)

/-- The regexp class `\s`: tab, newline, form feed, carriage return, space. -/
def isReSpace (c : Char) : Bool :=
  c.toNat == 9 || c.toNat == 10 || c.toNat == 12 || c.toNat == 13 || c.toNat == 32

/-- The predicate `unicode.IsSpace`, which `strings.TrimSpace` trims. -/
def isSpace (c : Char) : Bool :=
  let n := c.toNat
  (decide (9 ≤ n) && decide (n ≤ 13)) || n == 32 || n == 133 || n == 160 || n == 5760
    || (decide (8192 ≤ n) && decide (n ≤ 8202)) || n == 8232 || n == 8233 || n == 8239
    || n == 8287 || n == 12288

/-- The Go function `strings.TrimSpace`. -/
def TrimSpace (s : Str) : Str :=
  ((s.dropWhile isSpace).reverse.dropWhile isSpace).reverse

/-- The call `strings.TrimRight(line, "\r")`. -/
def TrimRightCR (s : Str) : Str :=
  (s.reverse.dropWhile (fun c => c.toNat == 13)).reverse

/-- The call `strings.Split(content, "\n")`. -/
def Split : Str → List Str
  | [] => [[]]
  | c :: cs =>
    if c.toNat = 10 then [] :: Split cs
    else
      match Split cs with
      | [] => [[c]]
      | l :: ls => (c :: l) :: ls

/-- The call `strings.Join(lines, "\n")`. -/
def Join : List Str → Str
  | [] => []
  | [l] => l
  | l :: ls => l ++ '\n' :: Join ls

/-- Value of a decimal digit. -/
def digitVal (c : Char) : Nat := c.toNat - 48

/-- Value of a run of decimal digits, most significant first. -/
def digitsVal (ds : Str) : Nat := ds.foldl (fun acc c => acc * 10 + digitVal c) 0

/-- The Go function `strconv.Atoi` on a non-empty run of decimal digits (the only
arguments it receives here are `\d+` captures): the value and `true`, or, when the
value does not fit an `int`, the largest `int` and `false` (a range error). -/
def Atoi (ds : Str) : Int × Bool :=
  if (digitsVal ds : Int) ≤ maxInt then ((digitsVal ds : Int), true) else (maxInt, false)

/-- Decimal rendering of a natural number (`%d`). -/
def natToStr (n : Nat) : Str := Nat.toDigits 10 n

/-- Decimal rendering of an integer (`%d`). -/
def Itoa (n : Int) : Str :=
  if n < 0 then '-' :: natToStr n.natAbs else natToStr n.natAbs

/-- Go string comparison `a < b`. -/
def strLess : Str → Str → Bool
  | [], [] => false
  | [], _ :: _ => true
  | _ :: _, [] => false
  | a :: as, b :: bs =>
    if a.toNat < b.toNat then true
    else if b.toNat < a.toNat then false
    else strLess as bs

/-! ## internal/model -/

namespace model

/-- The struct `model.Chore`. -/
structure Chore where
  Name : Str
  FrequencyDays : Int
  FrequencyRaw : Str
  DurationMinutes : Int
  DurationRaw : Str
  Description : Str
  Line : Nat
  deriving DecidableEq, Repr

/-- The errors of `ParseFrequency`, one constructor for each `fmt.Errorf`. -/
inductive FreqError where
  | format (s : Str)
  | number (digits : Str)
  | notPositive (n : Int)
  | unit (u : Str)
  deriving DecidableEq, Repr

/-- All three results of `ParseFrequency`. -/
structure FreqResult where
  days : Int
  raw : Str
  err : Option FreqError
  deriving DecidableEq, Repr

/-- The unit class `[dwmy]` of the frequency patterns. -/
def isFreqUnit (c : Char) : Bool :=
  c.toNat == 100 || c.toNat == 119 || c.toNat == 109 || c.toNat == 121

/-- Submatches of `model.frequencyRegex`, the pattern `^(\d+)([dwmy])$`:
the digits and the unit. -/
def frequencyRegex (s : Str) : Option (Str × Char) :=
  match s.dropWhile isDigit with
  | [u] => if s.takeWhile isDigit ≠ [] ∧ isFreqUnit u then some (s.takeWhile isDigit, u) else none
  | _ => none

/-- The function `model.ParseFrequency`. -/
def ParseFrequency (s : Str) : FreqResult :=
  match frequencyRegex s with
  | none => ⟨0, [], some (.format s)⟩
  | some (ds, unit) =>
    let (n, ok) := Atoi ds
    if !ok then ⟨0, [], some (.number ds)⟩
    else if n ≤ 0 then ⟨0, [], some (.notPositive n)⟩
    else if unit.toNat = 100 then ⟨wrapInt (n * 1), s, none⟩
    else if unit.toNat = 119 then ⟨wrapInt (n * 7), s, none⟩
    else if unit.toNat = 109 then ⟨wrapInt (n * 30), s, none⟩
    else if unit.toNat = 121 then ⟨wrapInt (n * 365), s, none⟩
    else ⟨0, [], some (.unit [unit])⟩

/-- Days of one unit of a frequency: the multipliers 1, 7, 30 and 365 of `d`, `w`, `m`
and `y` (and 0 for any other character). -/
def unitDays (u : Char) : Int :=
  if u = 'd' then 1 else if u = 'w' then 7 else if u = 'm' then 30 else if u = 'y' then 365 else 0

/-- The errors of `ParseDuration`, one constructor for each `fmt.Errorf`. -/
inductive DurError where
  | format (s : Str)
  | notPositive (total : Int)
  deriving DecidableEq, Repr

/-- All three results of `ParseDuration`. -/
structure DurResult where
  minutes : Int
  raw : Str
  err : Option DurError
  deriving DecidableEq, Repr

/-- Submatches of the pattern `^(\d+)h(\d+)m$`. -/
def durationHM (s : Str) : Option (Str × Str) :=
  match s.dropWhile isDigit with
  | c :: rest =>
    match rest.dropWhile isDigit with
    | [c2] =>
      if c = 'h' ∧ c2 = 'm' ∧ s.takeWhile isDigit ≠ [] ∧ rest.takeWhile isDigit ≠ [] then
        some (s.takeWhile isDigit, rest.takeWhile isDigit)
      else none
    | _ => none
  | [] => none

/-- Submatch of the pattern `^(\d+)h$`. -/
def durationH (s : Str) : Option Str :=
  match s.dropWhile isDigit with
  | [c] => if c = 'h' ∧ s.takeWhile isDigit ≠ [] then some (s.takeWhile isDigit) else none
  | _ => none

/-- Submatch of the pattern `^(\d+)m$`. -/
def durationM (s : Str) : Option Str :=
  match s.dropWhile isDigit with
  | [c] => if c = 'm' ∧ s.takeWhile isDigit ≠ [] then some (s.takeWhile isDigit) else none
  | _ => none

/-- The hours and minutes that a text of one of the shapes `<H>h<M>m`, `<H>h`, `<M>m`
denotes, as exact numbers. -/
def durationParts (s : Str) : Option (Nat × Nat) :=
  match durationHM s with
  | some (h, m) => some (digitsVal h, digitsVal m)
  | none =>
    match durationH s with
    | some h => some (digitsVal h, 0)
    | none =>
      match durationM s with
      | some m => some (0, digitsVal m)
      | none => none

/-- The function `model.ParseDuration`. The errors of `strconv.Atoi` are dropped
(`h, _ := strconv.Atoi(...)`), so an out-of-range number counts as the largest `int`. -/
def ParseDuration (s : Str) : DurResult :=
  if s = [] then ⟨0, [], some (.format s)⟩
  else
    let hm : Option (Int × Int) :=
      match durationHM s with
      | some (h, m) => some ((Atoi h).1, (Atoi m).1)
      | none =>
        match durationH s with
        | some h => some ((Atoi h).1, 0)
        | none =>
          match durationM s with
          | some m => some (0, (Atoi m).1)
          | none => none
    match hm with
    | none => ⟨0, [], some (.format s)⟩
    | some (hours, mins) =>
      let totalMinutes := wrapInt (wrapInt (hours * 60) + mins)
      if totalMinutes ≤ 0 then ⟨0, [], some (.notPositive totalMinutes)⟩
      else ⟨totalMinutes, s, none⟩

/-- The function `model.FormatDuration`. The quotient and the remainder of Go truncate
towards zero, and the verb `%d` renders an `int` as `Itoa` does. -/
def FormatDuration (minutes : Int) : Str :=
  if minutes ≤ 0 then "0m".toList
  else if Int.tdiv minutes 60 > 0 ∧ Int.tmod minutes 60 > 0 then
    Itoa (Int.tdiv minutes 60) ++ "h ".toList ++ Itoa (Int.tmod minutes 60) ++ "m".toList
  else if Int.tdiv minutes 60 > 0 then Itoa (Int.tdiv minutes 60) ++ "h".toList
  else Itoa (Int.tmod minutes 60) ++ "m".toList

/-- The Go type `time.Time`, as far as this program observes it: the instant, in
nanoseconds since the Unix epoch, and the offset from UTC (seconds east) that the
value's location has at that instant. -/
structure Time where
  unixNano : Int
  offset : Int
  deriving DecidableEq, Repr

/-- The method `t.After(u)`: the instant of `t` is later than that of `u`. -/
def Time.After (t u : Time) : Bool := decide (u.unixNano < t.unixNano)

/-- Number of the calendar day (days since 1970-01-01) that `t.Year()`, `t.Month()`
and `t.Day()` denote: the day of the instant in the location of `t`. -/
def Time.civilDay (t : Time) : Int := (t.unixNano / 1000000000 + t.offset) / 86400

/-- Nanoseconds in 24 hours. -/
def nanosPerDay : Int := 86400000000000

/-- Leap years of the Gregorian calendar. -/
def isLeap (year : Nat) : Bool := year % 4 == 0 && (year % 100 != 0 || year % 400 == 0)

/-- Number of days of a month, as `time.daysIn`. -/
def daysIn (month year : Nat) : Nat :=
  if month = 2 then (if isLeap year then 29 else 28)
  else if month = 4 ∨ month = 6 ∨ month = 9 ∨ month = 11 then 30
  else 31

/-- Days from 1970-01-01 to the given date of the proleptic Gregorian calendar. -/
def daysFromCivil (year month day : Nat) : Int :=
  let y : Int := if month ≤ 2 then (year : Int) - 1 else year
  let era : Int := y / 400
  let yoe : Int := y - era * 400
  let mp : Int := if month ≤ 2 then (month : Int) + 9 else (month : Int) - 3
  let doy : Int := (153 * mp + 2) / 5 + (day : Int) - 1
  let doe : Int := yoe * 365 + yoe / 4 - yoe / 100 + doy
  era * 146097 + doe - 719468

/-- The call `time.Date(year, month, day, 0, 0, 0, 0, time.UTC)` on a calendar date. -/
def Date (year month day : Nat) : Time := ⟨daysFromCivil year month day * nanosPerDay, 0⟩

/-- The year that begins with the first of March on or before the day numbered `z`
(days since 1970-01-01), and the number of the day within that year: the eras of 400
years, the centuries, the cycles of four years and the years of the cycle are cut off
one after the other. -/
def marchYear (z : Int) : Int × Int :=
  let era : Int := (z + 719468) / 146097
  let doe : Int := (z + 719468) % 146097
  let c : Int := if doe / 36524 < 4 then doe / 36524 else 3
  let q : Int := (doe - 36524 * c) / 1461
  let doq : Int := (doe - 36524 * c) % 1461
  let yq : Int := if doq / 365 < 4 then doq / 365 else 3
  (400 * era + 100 * c + 4 * q + yq, doq - 365 * yq)

/-- The date of the proleptic Gregorian calendar, as year, month and day, of the day
numbered `z`: the converse of `daysFromCivil`. -/
def civilFromDays (z : Int) : Int × Nat × Nat :=
  let y := (marchYear z).1
  let doy := (marchYear z).2
  let mp : Int := (5 * doy + 2) / 153
  if mp < 10 then (y, (mp + 3).toNat, (doy - (153 * mp + 2) / 5 + 1).toNat)
  else (y + 1, (mp - 9).toNat, (doy - (153 * mp + 2) / 5 + 1).toNat)

/-- The method `t.Year()`. -/
def Time.Year (t : Time) : Int := (civilFromDays t.civilDay).1

/-- The method `t.Month()`, as a number from 1 to 12. -/
def Time.Month (t : Time) : Nat := (civilFromDays t.civilDay).2.1

/-- The method `t.Day()`. -/
def Time.Day (t : Time) : Nat := (civilFromDays t.civilDay).2.2

/-- How the layouts of package `time` render a number: a sign if it is negative, then
its decimal digits, with zeros in front up to the width. -/
def padInt (x : Int) (width : Nat) : Str :=
  (if x < 0 then ['-'] else []) ++
    (List.replicate (width - (natToStr x.natAbs).length) '0' ++ natToStr x.natAbs)

/-- The call `t.Format("2006-01-02")`. -/
def formatDate (t : Time) : Str :=
  padInt t.Year 4 ++ '-' :: (padInt t.Month 2 ++ '-' :: padInt t.Day 2)

/-- The struct `model.Completion`. -/
structure Completion where
  Date : Time
  ChoreName : Str
  Line : Nat
  deriving DecidableEq, Repr

end model

/-! ## internal/parser -/

namespace parser

open model

/-- The entries of `ParseResult.Warnings`, one constructor for each `fmt.Sprintf`. -/
inductive Warning where
  | duplicate (line : Nat) (name : Str)
  | invalidDate (line : Nat) (date : Str)
  deriving DecidableEq, Repr

/-- The errors of `Parse`, one constructor for each `fmt.Errorf`. -/
inductive ParseError where
  | frequency (line : Nat) (e : FreqError)
  | duration (line : Nat) (e : DurError)
  | noFrequency (line : Nat) (name : Str)
  deriving DecidableEq, Repr

/-- The struct `parser.ParseResult`. -/
structure ParseResult where
  Chores : List Chore
  Completions : List Completion
  Warnings : List Warning
  deriving DecidableEq, Repr

/-- Capture 1 of `headerRegex`, the pattern `^##\s+(.+)$`, on one line (a line holds
no newline, so `.` matches each of its characters). The greedy `\s+` takes the whole
run of blanks after `##` and gives one back only when nothing else is left. -/
def headerRegex (line : Str) : Option Str :=
  match line with
  | c1 :: c2 :: rest =>
    if c1 = '#' ∧ c2 = '#' then
      match rest with
      | [] => none
      | c :: _ =>
        if isReSpace c then
          if rest.dropWhile isReSpace ≠ [] then some (rest.dropWhile isReSpace)
          else if 2 ≤ rest.length then some (rest.drop (rest.length - 1))
          else none
        else none
    else none
  | _ => none

/-- Captures 1 and 2 of `parser.frequencyRegex`, the pattern
`^>\s*(\d+[dwmy])(?:\s+(.+))?\s*$`, on one line; capture 2 is empty when the optional
group takes no part in the match. -/
def frequencyRegex (line : Str) : Option (Str × Str) :=
  match line with
  | [] => none
  | c0 :: rest =>
    if c0 = '>' then
      match (rest.dropWhile isReSpace).dropWhile isDigit with
      | [] => none
      | u :: rem =>
        if (rest.dropWhile isReSpace).takeWhile isDigit ≠ [] ∧ isFreqUnit u then
          match rem with
          | [] => some ((rest.dropWhile isReSpace).takeWhile isDigit ++ [u], [])
          | c :: _ =>
            if isReSpace c then
              if rem.dropWhile isReSpace ≠ [] then
                some ((rest.dropWhile isReSpace).takeWhile isDigit ++ [u], rem.dropWhile isReSpace)
              else if 2 ≤ rem.length then
                some ((rest.dropWhile isReSpace).takeWhile isDigit ++ [u], rem.drop (rem.length - 1))
              else some ((rest.dropWhile isReSpace).takeWhile isDigit ++ [u], [])
            else none
        else none
    else none

/-- A text matches `(?:\s*#.*)?$`: it is empty, or blanks followed by `#`. -/
def commentTail (s : Str) : Bool :=
  match s with
  | [] => true
  | _ :: _ =>
    match s.dropWhile isReSpace with
    | [] => false
    | c :: _ => c = '#'

/-- The lazy capture `(.+?)` of `completionRegex` on a non-empty text: the shortest
non-empty beginning after which `(?:\s*#.*)?$` matches. -/
def lazyName : Str → Str
  | [] => []
  | c :: cs => if commentTail cs then [c] else c :: lazyName cs

/-- A text matches `\d{4}-\d{2}-\d{2}`. -/
def isDateShape (d : Str) : Bool :=
  match d with
  | [y1, y2, y3, y4, s1, m1, m2, s2, d1, d2] =>
    isDigit y1 && isDigit y2 && isDigit y3 && isDigit y4 && s1 = '-' && isDigit m1 && isDigit m2
      && s2 = '-' && isDigit d1 && isDigit d2
  | _ => false

/-- Captures 1 and 2 of `completionRegex`, the pattern
`^(\d{4}-\d{2}-\d{2})\s+(.+?)(?:\s*#.*)?$`, on one line. -/
def completionRegex (line : Str) : Option (Str × Str) :=
  if isDateShape (line.take 10) then
    match line.drop 10 with
    | [] => none
    | c :: rem =>
      if isReSpace c then
        if (c :: rem).dropWhile isReSpace ≠ [] then
          some (line.take 10, lazyName ((c :: rem).dropWhile isReSpace))
        else if 2 ≤ (c :: rem).length then
          some (line.take 10, (c :: rem).drop ((c :: rem).length - 1))
        else none
      else none
  else none

/-- The calls `time.Parse("2006-01-02", dateStr)` and `time.Date(..., time.UTC)` on a
text of the shape `\d{4}-\d{2}-\d{2}`: midnight UTC of the date, or `none` when the
month or the day is out of range. -/
def parseDate (dateStr : Str) : Option Time :=
  let year := digitsVal (dateStr.take 4)
  let month := digitsVal ((dateStr.drop 5).take 2)
  let day := digitsVal ((dateStr.drop 8).take 2)
  if 1 ≤ month ∧ month ≤ 12 ∧ 1 ≤ day ∧ day ≤ daysIn month year then
    some (Date year month day)
  else none

/-- The local variables of the loop of `Parse`. The map `choreMap` only ever stores
`true`, so it is kept as the list of its keys. -/
structure State where
  result : ParseResult
  choreMap : List Str
  currentChore : Option Chore
  descLines : List Str
  deriving DecidableEq, Repr

/-- The state before the first line. -/
def State.init : State := ⟨⟨[], [], []⟩, [], none, []⟩

/-- The block `if currentChore != nil { ... }` that hands the open chore over to
`result.Chores`, with its description. -/
def State.flush (st : State) : ParseResult :=
  match st.currentChore with
  | none => st.result
  | some c =>
    { st.result with
      Chores := st.result.Chores ++ [{ c with Description := TrimSpace (Join st.descLines) }] }

/-- The body of `if matches := frequencyRegex.FindStringSubmatch(line); matches != nil`
for the open chore `c`. -/
def frequencyLine (lineNum : Nat) (token rest : Str) (c : Chore) : Except ParseError Chore :=
  match (ParseFrequency token).err with
  | some e => .error (.frequency lineNum e)
  | none =>
    let c1 := { c with FrequencyDays := (ParseFrequency token).days,
                       FrequencyRaw := (ParseFrequency token).raw }
    if rest ≠ [] ∧ TrimSpace rest ≠ [] then
      match (ParseDuration (TrimSpace rest)).err with
      | some e => .error (.duration lineNum e)
      | none =>
        .ok { c1 with DurationMinutes := (ParseDuration (TrimSpace rest)).minutes,
                      DurationRaw := (ParseDuration (TrimSpace rest)).raw }
    else .ok c1

/-- The last two steps of the loop body: a completion line, else a description line. -/
def completionOrDescription (lineNum : Nat) (line : Str) (st : State) : State :=
  match completionRegex line with
  | some (dateStr, name) =>
    match parseDate dateStr with
    | none =>
      { st with result := { st.result with
          Warnings := st.result.Warnings ++ [.invalidDate lineNum dateStr] } }
    | some date =>
      { st with result := { st.result with
          Completions := st.result.Completions ++ [⟨date, TrimSpace name, lineNum⟩] } }
  | none =>
    match st.currentChore with
    | some c =>
      if c.FrequencyDays > 0 ∧ TrimSpace line ≠ [] then
        { st with descLines := st.descLines ++ [line] }
      else st
    | none => st

/-- One turn of the loop of `Parse`, on a line already freed of trailing `\r`. -/
def parseLine (lower : Str → Str) (lineNum : Nat) (line : Str) (st : State) :
    Except ParseError State :=
  match headerRegex line with
  | some m1 =>
    if lower (TrimSpace m1) ∈ st.choreMap then
      .ok { result := { st.flush with
              Warnings := st.flush.Warnings ++ [.duplicate lineNum (TrimSpace m1)] },
            choreMap := st.choreMap, currentChore := none, descLines := [] }
    else
      .ok { result := st.flush, choreMap := lower (TrimSpace m1) :: st.choreMap,
            currentChore := some ⟨TrimSpace m1, 0, [], 0, [], [], lineNum⟩, descLines := [] }
  | none =>
    match st.currentChore with
    | some c =>
      if c.FrequencyDays = 0 then
        match frequencyRegex line with
        | some (token, rest) =>
          match frequencyLine lineNum token rest c with
          | .error e => .error e
          | .ok c1 => .ok { st with currentChore := some c1 }
        | none => .ok (completionOrDescription lineNum line st)
      else .ok (completionOrDescription lineNum line st)
    | none => .ok (completionOrDescription lineNum line st)

/-- The loop `for i, line := range lines`, from the line numbered `lineNum` on. -/
def parseLines (lower : Str → Str) : Nat → List Str → State → Except ParseError State
  | _, [], st => .ok st
  | lineNum, line :: rest, st =>
    match parseLine lower lineNum (TrimRightCR line) st with
    | .error e => .error e
    | .ok st1 => parseLines lower (lineNum + 1) rest st1

/-- The final loop of `Parse`: the first chore without a frequency is an error. -/
def validate (r : ParseResult) : Except ParseError ParseResult :=
  match r.Chores.find? (fun c => c.FrequencyDays == 0) with
  | some c => .error (.noFrequency c.Line c.Name)
  | none => .ok r

/-- The function `parser.Parse`. -/
def Parse (lower : Str → Str) (content : Str) : Except ParseError ParseResult :=
  match parseLines lower 1 (Split content) State.init with
  | .error e => .error e
  | .ok st => validate st.flush

/-- The function `dropCR` of package `bufio`: one trailing carriage return is dropped. -/
def dropCR (l : Str) : Str :=
  if l.getLast? = some '\r' then l.dropLast else l

/-- The pieces that a `bufio.Scanner` with the split function `ScanLines` cuts a text
into, before `dropCR`: the pieces between the newlines, where an empty piece at the
end of the text is no line. -/
def scanPieces (content : Str) : List Str :=
  if (Split content).getLast? = some [] then (Split content).dropLast else Split content

/-- The constant `bufio.MaxScanTokenSize`, the size of the buffer of a scanner. -/
def MaxScanTokenSize : Nat := 65536

/-- Number of bytes of a text in UTF-8. -/
def byteLen (s : Str) : Nat := (s.map Char.utf8Size).sum

/-- The errors of `ParseFile` on a file that can be opened and read: the error
`bufio.ErrTooLong` of the scanner, and the errors of `Parse`. -/
inductive FileError where
  | tooLong
  | parse (e : ParseError)
  deriving DecidableEq, Repr

/-- What the loop of `ParseFile` writes to its builder: every line of the scanner,
followed by a newline. -/
def scannedText (content : Str) : Str :=
  (scanPieces content).foldr (fun l acc => dropCR l ++ '\n' :: acc) []

/-- The function `parser.ParseFile`, on the content of the file. A piece of 65536
bytes or more does not fit the buffer of the scanner, which then stops with
`bufio.ErrTooLong`. -/
def ParseFile (lower : Str → Str) (content : Str) : Except FileError ParseResult :=
  if (scanPieces content).any (fun l => decide (MaxScanTokenSize ≤ byteLen l)) then
    .error .tooLong
  else
    match Parse lower (scannedText content) with
    | .error e => .error (.parse e)
    | .ok r => .ok r

/-- The trimmed name that a raw line of the input declares, when it is a header line. -/
def headerName (line : Str) : Option Str := (headerRegex (TrimRightCR line)).map TrimSpace

/-- The captures of a raw line of the input that has the shape of a frequency line. -/
def frequencyShape (line : Str) : Option (Str × Str) := frequencyRegex (TrimRightCR line)

/-- A chore bears the key `key`: its lower-cased name is `key`. -/
def hasKey (lower : Str → Str) (key : Str) (c : Chore) : Bool := decide (lower c.Name = key)

/-- A warning reports a duplicate of the key `key`. -/
def isDuplicateOf (lower : Str → Str) (key : Str) : Warning → Bool
  | .duplicate _ name => decide (lower name = key)
  | .invalidDate _ _ => false

/-- The duplicate warnings that the header lines of key `key` among `lines` deserve,
each with its line number, the first line being numbered `lineNum`. -/
def duplicateWarnings (lower : Str → Str) (key : Str) : Nat → List Str → List Warning
  | _, [] => []
  | lineNum, line :: rest =>
    match headerName line with
    | some name =>
      if lower name = key then
        Warning.duplicate lineNum name :: duplicateWarnings lower key (lineNum + 1) rest
      else duplicateWarnings lower key (lineNum + 1) rest
    | none => duplicateWarnings lower key (lineNum + 1) rest

/-- The chore named `name` in its header at line `line` is open in the state and has
no frequency yet; no chore handed over so far bears its key. -/
def OpenNoFrequency (lower : Str → Str) (name : Str) (line : Nat) (st : State) : Prop :=
  lower name ∈ st.choreMap ∧ st.result.Chores.filter (hasKey lower (lower name)) = [] ∧
    ∃ c, st.currentChore = some c ∧ c.Name = name ∧ c.Line = line ∧ c.FrequencyDays = 0

/-- The chore named `name` in its header at line `line` is the only chore of its key
that the state holds, handed over or still open, and its frequency has come to rest at
`days`: if it is still open, `days` is not zero. -/
def Settled (lower : Str → Str) (name : Str) (line : Nat) (days : Int) (st : State) : Prop :=
  lower name ∈ st.choreMap ∧
    (∃ c, st.flush.Chores.filter (hasKey lower (lower name)) = [c] ∧ c.Name = name ∧
      c.Line = line ∧ c.FrequencyDays = days) ∧
    ∀ cur, st.currentChore = some cur → lower cur.Name = lower name → cur.FrequencyDays ≠ 0

/-- The chore `c` is the only chore of its key that the state holds, handed over or
still open, up to its description, and no open chore of that key still waits for a
frequency. -/
def Kept (lower : Str → Str) (c : Chore) (st : State) : Prop :=
  lower c.Name ∈ st.choreMap ∧
    (∃ d, st.flush.Chores.filter (hasKey lower (lower c.Name))
      = [⟨c.Name, c.FrequencyDays, c.FrequencyRaw, c.DurationMinutes, c.DurationRaw, d,
          c.Line⟩]) ∧
    ∀ cur, st.currentChore = some cur → lower cur.Name = lower c.Name → cur.FrequencyDays ≠ 0

/-- A raw line of the input enters a description: freed of its trailing carriage
returns, it is not blank and has not the shape of a completion line. -/
def isDescriptionLine (l : Str) : Bool :=
  decide (TrimSpace (TrimRightCR l) ≠ []) && (completionRegex (TrimRightCR l)).isNone

/-- The lines among `ls` that enter a description, freed of their trailing carriage
returns, in order. -/
def descriptionLines (ls : List Str) : List Str :=
  (ls.filter isDescriptionLine).map TrimRightCR

/-- The lines `lines` hold the chore `c`: its header line, numbered `c.Line`, which
declares `c.Name`; then lines that are neither headers nor of frequency-line shape;
then its frequency line; then the lines `body`, none of them a header; then the lines
`post`. -/
def Segment (lines : List Str) (c : Chore) (body post : List Str) : Prop :=
  ∃ pre hdr mid fl, lines = pre ++ hdr :: (mid ++ fl :: (body ++ post)) ∧
    c.Line = pre.length + 1 ∧ headerName hdr = some c.Name ∧
    (∀ l ∈ mid, headerName l = none ∧ frequencyShape l = none) ∧
    headerName fl = none ∧ frequencyShape fl ≠ none ∧ ∀ l ∈ body, headerName l = none

/-- The descriptions of a state agree with the lines `done` read so far: a chore
handed over with a positive frequency has the description lines between its frequency
line and the next header as its description; for the open chore with a positive
frequency they are the lines gathered so far; and an open chore without a frequency
has met no line of frequency-line shape and has gathered nothing. -/
def Described (done : List Str) (st : State) : Prop :=
  (∀ c ∈ st.result.Chores, 0 < c.FrequencyDays →
    ∃ body h t, Segment done c body (h :: t) ∧ headerName h ≠ none ∧
      c.Description = TrimSpace (Join (descriptionLines body))) ∧
  (∀ cur, st.currentChore = some cur → 0 < cur.FrequencyDays →
    ∃ body, Segment done cur body [] ∧ st.descLines = descriptionLines body) ∧
  (∀ cur, st.currentChore = some cur → cur.FrequencyDays = 0 →
    ∃ pre hdr mid, done = pre ++ hdr :: mid ∧ cur.Line = pre.length + 1 ∧
      headerName hdr = some cur.Name ∧
      (∀ l ∈ mid, headerName l = none ∧ frequencyShape l = none) ∧ st.descLines = [])

/-- What the rest of the loop of `Parse` reads of a state: everything but the
completions and the warnings. -/
def State.core (st : State) : List Chore × List Str × Option Chore × List Str :=
  (st.result.Chores, st.choreMap, st.currentChore, st.descLines)

/-- The completion that a raw line of the input numbered `lineNum` stands for by
itself: the line has the shape of a completion line and its date is a calendar
date. -/
def completionOfLine (lineNum : Nat) (line : Str) : Option Completion :=
  match completionRegex (TrimRightCR line) with
  | some (dateStr, name) =>
    match parseDate dateStr with
    | some date => some ⟨date, TrimSpace name, lineNum⟩
    | none => none
  | none => none

/-- The completions that the lines stand for, line by line, the first line being
numbered `lineNum`. -/
def completionsOf : Nat → List Str → List Completion
  | _, [] => []
  | lineNum, line :: rest =>
    match completionOfLine lineNum line with
    | some c => c :: completionsOf (lineNum + 1) rest
    | none => completionsOf (lineNum + 1) rest

/-- The text of an error of `ParseFrequency`. -/
def freqErrorText (quote : Str → Str) : FreqError → Str
  | .format s =>
    "invalid frequency format: ".toList ++ quote s
      ++ " (expected format like 1d, 2w, 1m, 1y)".toList
  | .number ds => "invalid frequency number: ".toList ++ quote ds
  | .notPositive n => "frequency must be positive, got: ".toList ++ Itoa n
  | .unit u => "unknown frequency unit: ".toList ++ quote u

/-- The text of an error of `ParseDuration`. -/
def durErrorText (quote : Str → Str) : DurError → Str
  | .format s =>
    "invalid duration format: ".toList ++ quote s
      ++ " (expected format like 30m, 2h, 1h30m)".toList
  | .notPositive t => "duration must be positive, got: ".toList ++ Itoa t ++ " minutes".toList

/-- The text of an error of `Parse`. -/
def ParseError.text (quote : Str → Str) : ParseError → Str
  | .frequency n e => "line ".toList ++ natToStr n ++ ": ".toList ++ freqErrorText quote e
  | .duration n e => "line ".toList ++ natToStr n ++ ": ".toList ++ durErrorText quote e
  | .noFrequency n name =>
    "line ".toList ++ natToStr n ++ ": chore ".toList ++ quote name
      ++ " has no frequency defined".toList

/-- The text of a warning of `Parse`. -/
def Warning.text (quote : Str → Str) : Warning → Str
  | .duplicate n name =>
    "line ".toList ++ natToStr n ++ ": duplicate chore ".toList ++ quote name
      ++ " (first definition wins)".toList
  | .invalidDate n d =>
    "line ".toList ++ natToStr n ++ ": invalid date ".toList ++ quote d ++ ", skipping".toList

/-- The `%q` rendering of a text free of quotes, backslashes and unprintable
characters: the text between double quotes. -/
def plainQuote (s : Str) : Str := '"' :: s ++ ['"']

/-- Lower-casing of the ASCII letters, the restriction of `strings.ToLower` to ASCII
texts. -/
def asciiLower (s : Str) : Str :=
  s.map (fun c => if 65 ≤ c.toNat ∧ c.toNat ≤ 90 then Char.ofNat (c.toNat + 32) else c)

end parser

/-! ## internal/schedule -/

namespace schedule

open model

/-- The type `schedule.Status`, an `int`. -/
abbrev Status := Int

/-- The constant `StatusOverdue`. -/
def StatusOverdue : Status := 0

/-- The constant `StatusDueToday`. -/
def StatusDueToday : Status := 1

/-- The constant `StatusUpcoming`. -/
def StatusUpcoming : Status := 2

/-- The constant `StatusClear`. -/
def StatusClear : Status := 3

/-- The struct `schedule.ChoreStatus`; the field `Status` holds a `Status`, an
integer, and a nil `LastDone` is `none`. -/
structure ChoreStatus where
  Chore : model.Chore
  Status : Int
  DaysOverdue : Int
  DaysUntil : Int
  LastDone : Option Time
  deriving DecidableEq, Repr

/-- The constant `NeverDoneSentinel`. -/
def NeverDoneSentinel : Int := 999999

/-- The method `t.Sub(u)` of `time.Time`: the difference of the instants as a
`time.Duration` (an `int64` of nanoseconds), which saturates at its bounds. -/
def Sub (t u : Time) : Int :=
  if t.unixNano - u.unixNano > maxInt then maxInt
  else if t.unixNano - u.unixNano < minInt then minInt
  else t.unixNano - u.unixNano

/-- The call `time.Date(t.Year(), t.Month(), t.Day(), 0, 0, 0, 0, time.UTC)`: midnight
UTC of the calendar day of `t`. -/
def midnightUTC (t : Time) : Time := ⟨t.civilDay * nanosPerDay, 0⟩

/-- The function `schedule.DaysBetween`. The quotient `Hours() / 24` is a `float64`
that `int(...)` truncates towards zero; on the durations that occur here (whole days,
and the two bounds of `time.Duration`) that is the truncated integer quotient. -/
def DaysBetween (start stop : Time) : Int :=
  Int.tdiv (Sub (midnightUTC stop) (midnightUTC start)) nanosPerDay

/-- The body of the first loop of `Calculate`: the map, a function from keys to
optional values, after one more completion. -/
def recordCompletion (lower : Str → Str) (m : Str → Option Time) (c : Completion) :
    Str → Option Time :=
  match m (lower c.ChoreName) with
  | some existing =>
    if c.Date.After existing then fun k => if k = lower c.ChoreName then some c.Date else m k
    else m
  | none => fun k => if k = lower c.ChoreName then some c.Date else m k

/-- The first loop of `Calculate`: the map from lower-cased names to the latest
completion date. -/
def completionMap (lower : Str → Str) (completions : List Completion) : Str → Option Time :=
  completions.foldl (recordCompletion lower) (fun _ => none)

/-- The body of the second loop of `Calculate` for one chore, given the map lookup. -/
def status (chore : Chore) (lookup : Option Time) (now : Time) : ChoreStatus :=
  match lookup with
  | none => ⟨chore, StatusOverdue, NeverDoneSentinel, 0, none⟩
  | some lastDone =>
    if DaysBetween lastDone now > chore.FrequencyDays then
      ⟨chore, StatusOverdue, wrapInt (DaysBetween lastDone now - chore.FrequencyDays), 0,
        some lastDone⟩
    else if DaysBetween lastDone now = chore.FrequencyDays then
      ⟨chore, StatusDueToday, 0, 0, some lastDone⟩
    else if wrapInt (chore.FrequencyDays - DaysBetween lastDone now) ≤ 7 then
      ⟨chore, StatusUpcoming, 0, wrapInt (chore.FrequencyDays - DaysBetween lastDone now),
        some lastDone⟩
    else
      ⟨chore, StatusClear, 0, wrapInt (chore.FrequencyDays - DaysBetween lastDone now),
        some lastDone⟩

/-- The function `schedule.Calculate`. -/
def Calculate (lower : Str → Str) (chores : List Chore) (completions : List Completion)
    (now : Time) : List ChoreStatus :=
  chores.foldl
    (fun results chore =>
      results ++ [status chore (completionMap lower completions (lower chore.Name)) now])
    []

/-- The comparison that `SortByUrgency` hands to `sort.SliceStable`. -/
def less (lower : Str → Str) (si sj : ChoreStatus) : Bool :=
  if si.Status ≠ sj.Status then decide (si.Status < sj.Status)
  else if si.Status = StatusOverdue then
    if si.DaysOverdue = NeverDoneSentinel ∧ sj.DaysOverdue ≠ NeverDoneSentinel then false
    else if si.DaysOverdue ≠ NeverDoneSentinel ∧ sj.DaysOverdue = NeverDoneSentinel then true
    else if si.DaysOverdue ≠ sj.DaysOverdue then decide (si.DaysOverdue > sj.DaysOverdue)
    else strLess (lower si.Chore.Name) (lower sj.Chore.Name)
  else if si.Status = StatusUpcoming ∨ si.Status = StatusClear then
    if si.DaysUntil ≠ sj.DaysUntil then decide (si.DaysUntil < sj.DaysUntil)
    else strLess (lower si.Chore.Name) (lower sj.Chore.Name)
  else strLess (lower si.Chore.Name) (lower sj.Chore.Name)

/-- Whether an entry is a never-done Overdue entry (1) or not (0): the second sort
key. -/
def sentinelKey (s : ChoreStatus) : Int :=
  if s.Status = StatusOverdue ∧ s.DaysOverdue = NeverDoneSentinel then 1 else 0

/-- The numeric sort key of an entry: `-DaysOverdue` for Overdue, `DaysUntil` for
Upcoming and Clear, nothing otherwise. -/
def numericKey (s : ChoreStatus) : Int :=
  if s.Status = StatusOverdue then -s.DaysOverdue
  else if s.Status = StatusUpcoming ∨ s.Status = StatusClear then s.DaysUntil
  else 0

/-- The function `schedule.SortByUrgency`, returning the reordered slice.
The library function `sort.SliceStable` is modelled by the stable insertion sort:
each entry goes in front of the first one that is not before it. -/
def SortByUrgency (lower : Str → Str) (statuses : List ChoreStatus) : List ChoreStatus :=
  List.insertionSort (fun a b => less lower b a = false) statuses

end schedule

/-! ## internal/cli -/

namespace cli

open model parser

/-- The errors of `DoneCmd` on a file that can be opened, read and appended to. -/
inductive DoneError where
  | file (e : FileError)
  | notFound (choreName : Str)
  deriving DecidableEq, Repr

/-- What `DoneCmd` reads and writes: the content of the file that its first argument
names, and the text written to `out` so far. -/
structure World where
  file : Str
  out : Str
  deriving DecidableEq, Repr

/-- The function `cli.DoneCmd`: the world after the call and the error returned, if
any. -/
def DoneCmd (lower quote : Str → Str) (choreName : Str) (date : Time) (w : World) :
    World × Option DoneError :=
  match ParseFile lower w.file with
  | .error e => (w, some (.file e))
  | .ok result =>
    match result.Chores.find? (fun chore => decide (lower chore.Name = lower (TrimSpace choreName))) with
    | none => (w, some (.notFound choreName))
    | some chore =>
      (⟨w.file ++
          ((if w.file ≠ [] ∧ w.file.getLast? ≠ some '\n' then ['\n'] else []) ++
            (formatDate date ++ ' ' :: (chore.Name ++ ['\n']))),
        w.out ++ ("Done: ".toList ++ quote chore.Name ++ " (".toList ++ formatDate date
          ++ ")\n".toList)⟩, none)

/-- The text of an error of `DoneCmd`. -/
def DoneError.text (quote : Str → Str) : DoneError → Str
  | .file .tooLong => "bufio.Scanner: token too long".toList
  | .file (.parse e) => e.text quote
  | .notFound name => "chore not found: ".toList ++ quote name

end cli

open model parser schedule cli

open model parser schedule cli

/-! ## Characters and digits -/

theorem char_eq_of_toNat_eq {a b : Char} (h : a.toNat = b.toNat) : a = b := by
  apply Char.ext
  cases a with | mk av ah => cases b with | mk bv bh =>
  simp only [Char.toNat] at h
  simp only
  cases av with | mk af => cases bv with | mk bf =>
  simp only [UInt32.toNat] at h
  congr
  exact BitVec.eq_of_toNat_eq h

theorem takeWhile_digits_append {ds rest : Str} (hds : ∀ c ∈ ds, isDigit c = true) :
    (ds ++ rest).takeWhile isDigit = ds ++ rest.takeWhile isDigit :=
  List.takeWhile_append_of_pos hds

theorem dropWhile_digits_append {ds rest : Str} (hds : ∀ c ∈ ds, isDigit c = true) :
    (ds ++ rest).dropWhile isDigit = rest.dropWhile isDigit :=
  List.dropWhile_append_of_pos hds

theorem isDigit_of_isFreqUnit {u : Char} (hu : isFreqUnit u = true) : isDigit u = false := by
  simp only [isFreqUnit, Bool.or_eq_true, beq_iff_eq] at hu
  simp only [isDigit, Bool.and_eq_false_imp, decide_eq_true_eq, decide_eq_false_iff_not]
  omega

/-- The pattern `^(\d+)([dwmy])$` matches exactly the texts made of a non-empty run of
digits and one unit. -/
theorem frequencyRegex_eq_some_iff (s ds : Str) (u : Char) :
    model.frequencyRegex s = some (ds, u) ↔
      s = ds ++ [u] ∧ ds ≠ [] ∧ (∀ c ∈ ds, isDigit c = true) ∧ isFreqUnit u = true := by
  constructor
  · intro h
    unfold model.frequencyRegex at h
    split at h
    · rename_i u0 hdrop
      split at h
      · rename_i hcond
        simp only [Option.some.injEq, Prod.mk.injEq] at h
        obtain ⟨h1, h2⟩ := h
        subst h2
        refine ⟨?_, ?_, ?_, hcond.2⟩
        · have := List.takeWhile_append_dropWhile isDigit s
          rw [hdrop, h1] at this
          exact this.symm
        · rw [← h1]; exact hcond.1
        · intro c hc
          rw [← h1] at hc
          exact List.mem_takeWhile_imp hc
      · exact absurd h (by simp)
    · exact absurd h (by simp)
  · rintro ⟨rfl, hne, hds, hu⟩
    have hd : (ds ++ [u]).dropWhile isDigit = [u] := by
      rw [dropWhile_digits_append hds]
      simp [List.dropWhile, isDigit_of_isFreqUnit hu]
    have ht : (ds ++ [u]).takeWhile isDigit = ds := by
      rw [takeWhile_digits_append hds]
      simp [List.takeWhile, isDigit_of_isFreqUnit hu]
    unfold model.frequencyRegex
    rw [hd]
    simp only [ht]
    rw [if_pos ⟨hne, hu⟩]

theorem unitDays_cases {u : Char} (hu : isFreqUnit u = true) :
    (u = 'd' ∧ unitDays u = 1) ∨ (u = 'w' ∧ unitDays u = 7) ∨ (u = 'm' ∧ unitDays u = 30)
      ∨ (u = 'y' ∧ unitDays u = 365) := by
  simp only [isFreqUnit, Bool.or_eq_true, beq_iff_eq] at hu
  rcases hu with ((h | h) | h) | h
  · have : u = 'd' := char_eq_of_toNat_eq (by simpa using h)
    subst this; left; decide
  · have : u = 'w' := char_eq_of_toNat_eq (by simpa using h)
    subst this; right; left; decide
  · have : u = 'm' := char_eq_of_toNat_eq (by simpa using h)
    subst this; right; right; left; decide
  · have : u = 'y' := char_eq_of_toNat_eq (by simpa using h)
    subst this; right; right; right; decide

/-- What `ParseFrequency` returns on a text that matches its pattern. -/
theorem ParseFrequency_of_match {s ds : Str} {u : Char}
    (h : model.frequencyRegex s = some (ds, u)) :
    ParseFrequency s =
      if maxInt < (digitsVal ds : Int) then ⟨0, [], some (.number ds)⟩
      else if digitsVal ds = 0 then ⟨0, [], some (.notPositive 0)⟩
      else ⟨wrapInt ((digitsVal ds : Int) * unitDays u), s, none⟩ := by
  have hu := ((frequencyRegex_eq_some_iff s ds u).mp h).2.2.2
  unfold ParseFrequency
  rw [h]
  simp only [Atoi]
  by_cases h1 : maxInt < (digitsVal ds : Int)
  · rw [if_pos h1, if_neg (not_le.mpr h1)]
    simp
  · rw [if_neg h1, if_pos (not_lt.mp h1)]
    by_cases h2 : digitsVal ds = 0
    · simp [h2]
    · rw [if_neg h2]
      have h3 : ¬ ((digitsVal ds : Int) ≤ 0) := by omega
      simp only [Bool.not_true, Bool.false_eq_true, if_false, if_neg h3]
      rcases unitDays_cases hu with ⟨rfl, hm⟩ | ⟨rfl, hm⟩ | ⟨rfl, hm⟩ | ⟨rfl, hm⟩ <;>
        simp [hm]

theorem wrapInt_of_range {x : Int} (h1 : minInt ≤ x) (h2 : x ≤ maxInt) : wrapInt x = x := by
  unfold minInt at h1
  unfold maxInt at h2
  unfold wrapInt
  omega

theorem digitsVal_unitDays_nonneg (ds : Str) (u : Char) : 0 ≤ (digitsVal ds : Int) * unitDays u := by
  apply mul_nonneg (Int.ofNat_nonneg _)
  unfold unitDays
  split_ifs <;> decide

/-- C10 (amended): `ParseFrequency` succeeds exactly on a non-empty run of decimal
digits, of value `n` with `0 < n` and `n` within the range of `int`, followed by one
unit among `d`, `w`, `m`, `y`; on success `raw` is the argument and `days` is
`n * 1`, `n * 7`, `n * 30` or `n * 365` whenever that product fits an `int`; on every
failure `days = 0` and `raw` is empty. -/
theorem ParseFrequency_spec (s : Str) :
    ((ParseFrequency s).err = none ↔
      ∃ ds u, s = ds ++ [u] ∧ ds ≠ [] ∧ (∀ c ∈ ds, isDigit c = true) ∧ isFreqUnit u = true ∧
        0 < digitsVal ds ∧ (digitsVal ds : Int) ≤ maxInt) ∧
    ((ParseFrequency s).err = none →
      (ParseFrequency s).raw = s ∧
      ∀ ds u, s = ds ++ [u] → (∀ c ∈ ds, isDigit c = true) →
        (digitsVal ds : Int) * unitDays u ≤ maxInt →
        (ParseFrequency s).days = (digitsVal ds : Int) * unitDays u) ∧
    ((ParseFrequency s).err ≠ none →
      (ParseFrequency s).days = 0 ∧ (ParseFrequency s).raw = []) := by
  cases hm : model.frequencyRegex s with
  | none =>
    have hP : ParseFrequency s = ⟨0, [], some (.format s)⟩ := by
      unfold ParseFrequency; rw [hm]
    refine ⟨⟨fun h => ?_, ?_⟩, fun h => ?_, fun _ => ?_⟩
    · rw [hP] at h; exact absurd h (by simp)
    · rintro ⟨ds, u, h1, h2, h3, h4, -, -⟩
      rw [(frequencyRegex_eq_some_iff s ds u).mpr ⟨h1, h2, h3, h4⟩] at hm
      exact absurd hm (by simp)
    · rw [hP] at h; exact absurd h (by simp)
    · rw [hP]; exact ⟨rfl, rfl⟩
  | some p =>
    obtain ⟨ds, u⟩ := p
    have hP := ParseFrequency_of_match hm
    obtain ⟨hs, hne, hds, hu⟩ := (frequencyRegex_eq_some_iff s ds u).mp hm
    by_cases h1 : maxInt < (digitsVal ds : Int)
    · rw [if_pos h1] at hP
      refine ⟨⟨fun h => ?_, ?_⟩, fun h => ?_, fun _ => ?_⟩
      · rw [hP] at h; exact absurd h (by simp)
      · rintro ⟨ds2, u2, h1', -, -, -, -, h6⟩
        obtain ⟨rfl, -⟩ := List.append_inj' (hs.symm.trans h1') rfl
        omega
      · rw [hP] at h; exact absurd h (by simp)
      · rw [hP]; exact ⟨rfl, rfl⟩
    · rw [if_neg h1] at hP
      by_cases h2 : digitsVal ds = 0
      · rw [if_pos h2] at hP
        refine ⟨⟨fun h => ?_, ?_⟩, fun h => ?_, fun _ => ?_⟩
        · rw [hP] at h; exact absurd h (by simp)
        · rintro ⟨ds2, u2, h1', -, -, -, h5, -⟩
          obtain ⟨rfl, -⟩ := List.append_inj' (hs.symm.trans h1') rfl
          omega
        · rw [hP] at h; exact absurd h (by simp)
        · rw [hP]; exact ⟨rfl, rfl⟩
      · rw [if_neg h2] at hP
        refine ⟨⟨fun _ => ⟨ds, u, hs, hne, hds, hu, by omega, by omega⟩, fun _ => ?_⟩,
          fun _ => ⟨?_, ?_⟩, fun h => ?_⟩
        · rw [hP]
        · rw [hP]
        · intro ds2 u2 h1' _ hfit
          obtain ⟨rfl, hu2⟩ := List.append_inj' (hs.symm.trans h1') rfl
          obtain rfl : u = u2 := by simpa using hu2
          rw [hP]
          exact wrapInt_of_range
            (le_trans (by decide) (digitsVal_unitDays_nonneg ds u)) hfit
        · rw [hP] at h; exact absurd rfl h

/-- A use of `ParseFrequency_spec`: the token `2w` is 14 days. -/
theorem ParseFrequency_spec_witness :
    (ParseFrequency "2w".toList).err = none ∧ (ParseFrequency "2w".toList).days = 14 :=
  ⟨by decide,
    (((ParseFrequency_spec "2w".toList).2.1 (by decide)).2 "2".toList 'w' (by decide)
      (by decide) (by decide)).trans (by decide)⟩

/-- C10 as stated fails in two ways: a well-shaped token whose number exceeds the
range of `int` is rejected, and a product beyond the range of `int` wraps around. -/
theorem ParseFrequency_counterexample :
    ((∃ ds u, "9223372036854775808d".toList = ds ++ [u] ∧ ds ≠ [] ∧
        (∀ c ∈ ds, isDigit c = true) ∧ isFreqUnit u = true ∧ 0 < digitsVal ds) ∧
      (ParseFrequency "9223372036854775808d".toList).err ≠ none) ∧
    ((ParseFrequency "4611686018427387904w".toList).err = none ∧
      (ParseFrequency "4611686018427387904w".toList).days = -4611686018427387904 ∧
      (ParseFrequency "4611686018427387904w".toList).days
        ≠ (digitsVal "4611686018427387904".toList : Int) * 7) :=
  ⟨⟨⟨"9223372036854775808".toList, 'd', by decide, by decide, by decide, by decide, by decide⟩,
      by decide⟩,
    by decide, by decide, by decide⟩

/-! ## The completion map -/

theorem recordCompletion_other (lower : Str → Str) (m : Str → Option Time) (c : Completion)
    (k : Str) (h : lower c.ChoreName ≠ k) : recordCompletion lower m c k = m k := by
  unfold recordCompletion
  cases hm : m (lower c.ChoreName) with
  | none => simp [Ne.symm h]
  | some existing =>
    simp only
    split
    · simp [Ne.symm h]
    · rfl

theorem recordCompletion_same (lower : Str → Str) (m : Str → Option Time) (c : Completion) :
    recordCompletion lower m c (lower c.ChoreName) =
      match m (lower c.ChoreName) with
      | some existing => if c.Date.After existing then some c.Date else some existing
      | none => some c.Date := by
  unfold recordCompletion
  cases hm : m (lower c.ChoreName) with
  | none => simp
  | some existing =>
    simp only
    split
    · simp
    · exact hm

/-- The entry of a key only depends on the completions that bear this key. -/
theorem foldl_recordCompletion_filter (lower : Str → Str) (k : Str) (keep : Completion → Bool) :
    ∀ (cs : List Completion) (m m' : Str → Option Time), m k = m' k →
      (∀ c ∈ cs, lower c.ChoreName = k → keep c = true) →
      (cs.foldl (recordCompletion lower) m) k
        = ((cs.filter keep).foldl (recordCompletion lower) m') k := by
  intro cs
  induction cs with
  | nil => intro m m' h _; simpa using h
  | cons c cs ih =>
    intro m m' h hkeep
    have hrest : ∀ c' ∈ cs, lower c'.ChoreName = k → keep c' = true :=
      fun c' hc' => hkeep c' (List.mem_cons_of_mem _ hc')
    by_cases hk : lower c.ChoreName = k
    · have hc : keep c = true := hkeep c (List.mem_cons_self _ _) hk
      rw [List.filter_cons_of_pos hc, List.foldl_cons, List.foldl_cons]
      apply ih _ _ _ hrest
      subst hk
      rw [recordCompletion_same, recordCompletion_same, h]
    · rw [List.foldl_cons]
      by_cases hc : keep c = true
      · rw [List.filter_cons_of_pos hc, List.foldl_cons]
        apply ih _ _ _ hrest
        rw [recordCompletion_other _ _ _ _ hk, recordCompletion_other _ _ _ _ hk, h]
      · rw [List.filter_cons_of_neg hc]
        apply ih _ _ _ hrest
        rw [recordCompletion_other _ _ _ _ hk, h]

/-- Once the entry of a key holds a date that no later completion of the key is
after, it stays. -/
theorem foldl_recordCompletion_keep (lower : Str → Str) (k : Str) (d : Time) :
    ∀ (cs : List Completion) (m : Str → Option Time), m k = some d →
      (∀ c ∈ cs, lower c.ChoreName = k → c.Date.unixNano ≤ d.unixNano) →
      (cs.foldl (recordCompletion lower) m) k = some d := by
  intro cs
  induction cs with
  | nil => intro m h _; simpa using h
  | cons c cs ih =>
    intro m h hle
    rw [List.foldl_cons]
    apply ih _ _ (fun c' hc' => hle c' (List.mem_cons_of_mem _ hc'))
    by_cases hk : lower c.ChoreName = k
    · have hc := hle c (List.mem_cons_self _ _) hk
      subst hk
      rw [recordCompletion_same, h]
      have : c.Date.After d = false := by
        simp only [Time.After, decide_eq_false_iff_not]; omega
      simp [this]
    · rw [recordCompletion_other _ _ _ _ hk, h]

/-- What the fold can hold for a key: nothing if it held nothing and no completion
bears the key, else the start value or the date of a completion with the key, not
earlier than any of them. -/
theorem foldl_recordCompletion_bounds (lower : Str → Str) (k : Str) :
    ∀ (cs : List Completion) (m : Str → Option Time),
      ((cs.foldl (recordCompletion lower) m) k = none ↔
        m k = none ∧ ∀ c ∈ cs, lower c.ChoreName ≠ k) ∧
      ∀ d, (cs.foldl (recordCompletion lower) m) k = some d →
        (m k = some d ∨ ∃ c ∈ cs, lower c.ChoreName = k ∧ c.Date = d) ∧
        (∀ e, m k = some e → e.unixNano ≤ d.unixNano) ∧
        ∀ c ∈ cs, lower c.ChoreName = k → c.Date.unixNano ≤ d.unixNano := by
  intro cs
  induction cs with
  | nil =>
    intro m
    refine ⟨by simp, ?_⟩
    intro d h
    simp only [List.foldl_nil] at h
    refine ⟨Or.inl h, ?_, by simp⟩
    intro e he
    rw [h] at he
    cases he
    exact le_refl _
  | cons c cs ih =>
    intro m
    rw [List.foldl_cons]
    obtain ⟨ih1, ih2⟩ := ih (recordCompletion lower m c)
    by_cases hk : lower c.ChoreName = k
    · subst hk
      have hsame := recordCompletion_same lower m c
      constructor
      · rw [ih1]
        constructor
        · rintro ⟨h1, -⟩
          rw [hsame] at h1
          split at h1
          · split at h1 <;> cases h1
          · cases h1
        · rintro ⟨-, h2⟩
          exact absurd rfl (h2 c (List.mem_cons_self _ _))
      · intro d hd
        obtain ⟨h1, h2, h3⟩ := ih2 d hd
        rw [hsame] at h1 h2
        cases hm : m (lower c.ChoreName) with
        | none =>
          rw [hm] at h1 h2
          simp only at h1 h2
          have hcd : c.Date.unixNano ≤ d.unixNano := h2 _ rfl
          refine ⟨Or.inr ?_, by simp, ?_⟩
          · rcases h1 with h1 | ⟨c', hc', hk', hd'⟩
            · exact ⟨c, List.mem_cons_self _ _, rfl, by simpa using h1⟩
            · exact ⟨c', List.mem_cons_of_mem _ hc', hk', hd'⟩
          · intro c' hc' hk'
            rcases List.mem_cons.mp hc' with rfl | hc'
            · exact hcd
            · exact h3 c' hc' hk'
        | some e =>
          rw [hm] at h1 h2
          simp only at h1 h2
          by_cases ha : c.Date.After e = true
          · rw [if_pos ha] at h1 h2
            have hcd : c.Date.unixNano ≤ d.unixNano := h2 _ rfl
            have hec : e.unixNano < c.Date.unixNano := by
              simpa [Time.After] using ha
            refine ⟨Or.inr ?_, ?_, ?_⟩
            · rcases h1 with h1 | ⟨c', hc', hk', hd'⟩
              · exact ⟨c, List.mem_cons_self _ _, rfl, by simpa using h1⟩
              · exact ⟨c', List.mem_cons_of_mem _ hc', hk', hd'⟩
            · intro e' he'
              cases he'
              omega
            · intro c' hc' hk'
              rcases List.mem_cons.mp hc' with rfl | hc'
              · exact hcd
              · exact h3 c' hc' hk'
          · rw [if_neg ha] at h1 h2
            have hed : e.unixNano ≤ d.unixNano := h2 _ rfl
            have hce : c.Date.unixNano ≤ e.unixNano := by
              simpa [Time.After] using ha
            refine ⟨?_, ?_, ?_⟩
            · rcases h1 with h1 | ⟨c', hc', hk', hd'⟩
              · exact Or.inl h1
              · exact Or.inr ⟨c', List.mem_cons_of_mem _ hc', hk', hd'⟩
            · intro e' he'
              cases he'
              exact hed
            · intro c' hc' hk'
              rcases List.mem_cons.mp hc' with rfl | hc'
              · omega
              · exact h3 c' hc' hk'
    · have hother := recordCompletion_other lower m c k hk
      constructor
      · rw [ih1, hother]
        constructor
        · rintro ⟨h1, h2⟩
          refine ⟨h1, ?_⟩
          intro c' hc'
          rcases List.mem_cons.mp hc' with rfl | hc'
          · exact hk
          · exact h2 c' hc'
        · rintro ⟨h1, h2⟩
          exact ⟨h1, fun c' hc' => h2 c' (List.mem_cons_of_mem _ hc')⟩
      · intro d hd
        obtain ⟨h1, h2, h3⟩ := ih2 d hd
        rw [hother] at h1 h2
        refine ⟨?_, h2, ?_⟩
        · rcases h1 with h1 | ⟨c', hc', hk', hd'⟩
          · exact Or.inl h1
          · exact Or.inr ⟨c', List.mem_cons_of_mem _ hc', hk', hd'⟩
        · intro c' hc' hk'
          rcases List.mem_cons.mp hc' with rfl | hc'
          · exact absurd hk' hk
          · exact h3 c' hc' hk'

/-- The entry of a key after the whole list, when the list is cut at the first
completion of the key that no other completion of the key is after. -/
theorem completionMap_first_latest (lower : Str → Str) (completions pre post : List Completion)
    (c : Completion) (hsplit : completions = pre ++ c :: post)
    (hpre : ∀ c' ∈ pre, lower c'.ChoreName = lower c.ChoreName →
      c'.Date.unixNano < c.Date.unixNano)
    (hpost : ∀ c' ∈ post, lower c'.ChoreName = lower c.ChoreName →
      c'.Date.unixNano ≤ c.Date.unixNano) :
    completionMap lower completions (lower c.ChoreName) = some c.Date := by
  subst hsplit
  unfold completionMap
  rw [List.foldl_append, List.foldl_cons]
  apply foldl_recordCompletion_keep _ _ _ _ _ _ hpost
  rw [recordCompletion_same]
  obtain ⟨h1, h2⟩ := foldl_recordCompletion_bounds lower (lower c.ChoreName) pre (fun _ => none)
  cases hm : (pre.foldl (recordCompletion lower) (fun _ => none)) (lower c.ChoreName) with
  | none => rfl
  | some e =>
    obtain ⟨h3, -, -⟩ := h2 e hm
    rcases h3 with h3 | ⟨c', hc', hk', hd'⟩
    · cases h3
    · have := hpre c' hc' hk'
      have ha : c.Date.After e = true := by
        simp only [Time.After, decide_eq_true_eq]
        rw [← hd']; exact this
      simp [ha]

theorem foldl_append_singleton {α β : Type} (g : α → β) :
    ∀ (l : List α) (acc : List β),
      l.foldl (fun results x => results ++ [g x]) acc = acc ++ l.map g := by
  intro l
  induction l with
  | nil => intro acc; simp
  | cons x xs ih => intro acc; simp [ih]

/-- The second loop of `Calculate` makes one entry for each chore, in order. -/
theorem Calculate_eq_map (lower : Str → Str) (chores : List Chore)
    (completions : List Completion) (now : Time) :
    Calculate lower chores completions now =
      chores.map
        (fun chore => status chore (completionMap lower completions (lower chore.Name)) now) := by
  unfold Calculate
  rw [foldl_append_singleton]
  rfl

theorem Calculate_getElem? (lower : Str → Str) (chores : List Chore)
    (completions : List Completion) (now : Time) (i : Nat) (hi : i < chores.length) :
    (Calculate lower chores completions now)[i]? =
      some (status chores[i] (completionMap lower completions (lower chores[i].Name)) now) := by
  rw [Calculate_eq_map, List.getElem?_map, List.getElem?_eq_getElem hi]
  rfl

theorem status_LastDone (chore : Chore) (lookup : Option Time) (now : Time) :
    (status chore lookup now).LastDone = lookup := by
  unfold status
  split
  · rfl
  · split_ifs <;> rfl

theorem status_Chore (chore : Chore) (lookup : Option Time) (now : Time) :
    (status chore lookup now).Chore = chore := by
  unfold status
  split
  · rfl
  · split_ifs <;> rfl

/-- The case split of `Calculate` with the differences as Go computes them: a chore
with at least one matching completion has an entry whose `LastDone` is the latest
matching date `lastDone` (the date of a matching completion that no matching
completion is after), and with `daysSince = DaysBetween(lastDone, now)` and
`freq = FrequencyDays` the entry is: Overdue with `DaysOverdue` the wrapped
`daysSince - freq` when `daysSince > freq`; DueToday when `daysSince = freq`; else
`DaysUntil` is the wrapped `freq - daysSince`, and the entry is Upcoming when that
wrapped value is at most 7 and Clear when it is above 7. The wrapped differences are
the exact ones whenever these fit the 64 bits of `int`. -/
theorem Calculate_classifies (lower : Str → Str) (chores : List Chore)
    (completions : List Completion) (now : Time) (i : Nat) (hi : i < chores.length)
    (hmatch : ∃ c ∈ completions, lower c.ChoreName = lower chores[i].Name) :
    ∃ e lastDone, (Calculate lower chores completions now)[i]? = some e ∧
      e.Chore = chores[i] ∧ e.LastDone = some lastDone ∧
      (∃ c ∈ completions, lower c.ChoreName = lower chores[i].Name ∧ c.Date = lastDone) ∧
      (∀ c ∈ completions, lower c.ChoreName = lower chores[i].Name →
        c.Date.After lastDone = false) ∧
      (DaysBetween lastDone now > chores[i].FrequencyDays →
        e.Status = StatusOverdue ∧
        e.DaysOverdue = wrapInt (DaysBetween lastDone now - chores[i].FrequencyDays) ∧
        (DaysBetween lastDone now - chores[i].FrequencyDays ≤ maxInt →
          e.DaysOverdue = DaysBetween lastDone now - chores[i].FrequencyDays)) ∧
      (DaysBetween lastDone now = chores[i].FrequencyDays → e.Status = StatusDueToday) ∧
      (DaysBetween lastDone now < chores[i].FrequencyDays →
        e.DaysUntil = wrapInt (chores[i].FrequencyDays - DaysBetween lastDone now) ∧
        (chores[i].FrequencyDays - DaysBetween lastDone now ≤ maxInt →
          e.DaysUntil = chores[i].FrequencyDays - DaysBetween lastDone now) ∧
        (e.DaysUntil ≤ 7 → e.Status = StatusUpcoming) ∧
        (7 < e.DaysUntil → e.Status = StatusClear)) := by
  obtain ⟨hnone, hsome⟩ :=
    foldl_recordCompletion_bounds lower (lower chores[i].Name) completions (fun _ => none)
  cases hmap : completionMap lower completions (lower chores[i].Name) with
  | none =>
    obtain ⟨c, hc, hk⟩ := hmatch
    exact absurd hk ((hnone.mp hmap).2 c hc)
  | some d =>
    obtain ⟨hfrom, -, hmax⟩ := hsome d hmap
    refine ⟨_, d, Calculate_getElem? lower chores completions now i hi, ?_⟩
    rw [hmap]
    refine ⟨status_Chore _ _ _, status_LastDone _ _ _, ?_, ?_, ?_, ?_, ?_⟩
    · rcases hfrom with h | h
      · cases h
      · exact h
    · intro c hc hk
      have := hmax c hc hk
      simp only [Time.After, decide_eq_false_iff_not]
      omega
    · intro h
      unfold status
      simp only [if_pos h]
      refine ⟨trivial, trivial, fun hfit => ?_⟩
      apply wrapInt_of_range _ hfit
      unfold minInt; omega
    · intro h
      unfold status
      have h1 : ¬ (DaysBetween d now > chores[i].FrequencyDays) := by omega
      simp only [if_neg h1, if_pos h]
    · intro h
      unfold status
      have h1 : ¬ (DaysBetween d now > chores[i].FrequencyDays) := by omega
      have h2 : ¬ (DaysBetween d now = chores[i].FrequencyDays) := by omega
      simp only [if_neg h1, if_neg h2]
      by_cases h3 : wrapInt (chores[i].FrequencyDays - DaysBetween d now) ≤ 7
      · simp only [if_pos h3]
        refine ⟨trivial, fun hfit => ?_, fun _ => trivial, fun h4 => absurd h3 (by omega)⟩
        apply wrapInt_of_range _ hfit
        unfold minInt; omega
      · simp only [if_neg h3]
        refine ⟨trivial, fun hfit => ?_, fun h4 => absurd h4 h3, fun _ => trivial⟩
        apply wrapInt_of_range _ hfit
        unfold minInt; omega

/-- A use of `Calculate_classifies`: frequency 7, done ten days ago under another
case of the name: three days overdue. -/
theorem Calculate_classifies_witness :
    ∃ e, (Calculate asciiLower [⟨"Test".toList, 7, [], 0, [], [], 1⟩]
        [⟨Date 2026 1 31, "test".toList, 3⟩] (Date 2026 2 10))[0]? = some e ∧
      e.Status = StatusOverdue ∧ e.DaysOverdue = 3 := by
  obtain ⟨e, d, h1, -, -, ⟨c, hc, -, hd⟩, -, h4, -, -⟩ :=
    Calculate_classifies asciiLower [⟨"Test".toList, 7, [], 0, [], [], 1⟩]
      [⟨Date 2026 1 31, "test".toList, 3⟩] (Date 2026 2 10) 0 (by decide)
      ⟨⟨Date 2026 1 31, "test".toList, 3⟩, by simp, by decide⟩
  simp only [List.mem_singleton] at hc
  subst hc
  subst hd
  exact ⟨e, h1, (h4 (by decide)).1, ((h4 (by decide)).2.1).trans (by decide)⟩

/-- C3: the `LastDone` of the entry of a chore is absent exactly when no completion
bears the lower-cased name of the chore; otherwise it is the date of such a completion
and no completion of that name is after it; and dropping completions whose lower-cased
name is that of no chore changes no entry of the result. -/
theorem Calculate_lastDone (lower : Str → Str) (chores : List Chore)
    (completions : List Completion) (now : Time) :
    (∀ (i : Nat) (hi : i < chores.length),
      ∃ e, (Calculate lower chores completions now)[i]? = some e ∧
        (e.LastDone = none ↔
          ∀ c ∈ completions, lower c.ChoreName ≠ lower chores[i].Name) ∧
        ∀ d, e.LastDone = some d →
          (∃ c ∈ completions, lower c.ChoreName = lower chores[i].Name ∧ c.Date = d) ∧
          ∀ c ∈ completions, lower c.ChoreName = lower chores[i].Name →
            c.Date.After d = false ∧ c.Date.unixNano ≤ d.unixNano) ∧
    ∀ keep : Completion → Bool,
      (∀ c ∈ completions, (∃ ch ∈ chores, lower c.ChoreName = lower ch.Name) → keep c = true) →
      Calculate lower chores (completions.filter keep) now
        = Calculate lower chores completions now := by
  constructor
  · intro i hi
    refine ⟨_, Calculate_getElem? lower chores completions now i hi, ?_⟩
    rw [status_LastDone]
    obtain ⟨h1, h2⟩ :=
      foldl_recordCompletion_bounds lower (lower chores[i].Name) completions (fun _ => none)
    constructor
    · unfold completionMap
      rw [h1]
      simp
    · intro d hd
      obtain ⟨h3, -, h5⟩ := h2 d hd
      constructor
      · rcases h3 with h3 | h3
        · cases h3
        · exact h3
      · intro c hc hk
        have := h5 c hc hk
        refine ⟨?_, this⟩
        simp only [Time.After, decide_eq_false_iff_not]
        omega
  · intro keep hkeep
    rw [Calculate_eq_map, Calculate_eq_map]
    apply List.map_congr_left
    intro chore hchore
    have : completionMap lower (completions.filter keep) (lower chore.Name)
        = completionMap lower completions (lower chore.Name) := by
      unfold completionMap
      exact (foldl_recordCompletion_filter lower (lower chore.Name) keep completions _ _ rfl
        (fun c hc hk => hkeep c hc ⟨chore, hchore, hk⟩)).symm
    rw [this]

/-- A use of `Calculate_lastDone`: of two completions of a chore, the later one is
reported, and a completion of an unknown name can be dropped. -/
theorem Calculate_lastDone_witness :
    (∃ e, (Calculate asciiLower [⟨"Kitchen Clean".toList, 7, [], 0, [], [], 1⟩]
        [⟨Date 2026 2 9, "kitchen clean".toList, 3⟩, ⟨Date 2026 2 1, "KITCHEN CLEAN".toList, 4⟩,
          ⟨Date 2026 2 10, "Other".toList, 5⟩] (Date 2026 2 10))[0]? = some e ∧
      e.LastDone ≠ none) ∧
    Calculate asciiLower [⟨"Kitchen Clean".toList, 7, [], 0, [], [], 1⟩]
        ([⟨Date 2026 2 9, "kitchen clean".toList, 3⟩, ⟨Date 2026 2 1, "KITCHEN CLEAN".toList, 4⟩,
          ⟨Date 2026 2 10, "Other".toList, 5⟩].filter
            (fun c => decide (asciiLower c.ChoreName = "kitchen clean".toList)))
        (Date 2026 2 10)
      = Calculate asciiLower [⟨"Kitchen Clean".toList, 7, [], 0, [], [], 1⟩]
        [⟨Date 2026 2 9, "kitchen clean".toList, 3⟩, ⟨Date 2026 2 1, "KITCHEN CLEAN".toList, 4⟩,
          ⟨Date 2026 2 10, "Other".toList, 5⟩] (Date 2026 2 10) := by
  have h := Calculate_lastDone asciiLower [⟨"Kitchen Clean".toList, 7, [], 0, [], [], 1⟩]
    [⟨Date 2026 2 9, "kitchen clean".toList, 3⟩, ⟨Date 2026 2 1, "KITCHEN CLEAN".toList, 4⟩,
      ⟨Date 2026 2 10, "Other".toList, 5⟩] (Date 2026 2 10)
  constructor
  · obtain ⟨e, h1, h2, -⟩ := h.1 0 (by decide)
    refine ⟨e, h1, fun hn => ?_⟩
    exact h2.mp hn ⟨Date 2026 2 9, "kitchen clean".toList, 3⟩ (by simp) (by decide)
  · apply h.2
    intro c hc hex
    obtain ⟨ch, hch, hk⟩ := hex
    simp only [List.mem_singleton] at hch
    subst hch
    simp only [decide_eq_true_eq]
    rw [hk]
    decide

/-! ## The order of strings -/

theorem strLess_irrefl : ∀ a : Str, strLess a a = false := by
  intro a
  induction a with
  | nil => rfl
  | cons x xs ih => simp [strLess, ih]

theorem strLess_trans : ∀ a b c : Str, strLess a b = true → strLess b c = true →
    strLess a c = true := by
  intro a
  induction a with
  | nil =>
    intro b c h1 h2
    cases b with
    | nil => simp [strLess] at h1
    | cons y ys =>
      cases c with
      | nil => simp [strLess] at h2
      | cons z zs => simp [strLess]
  | cons x xs ih =>
    intro b c h1 h2
    cases b with
    | nil => simp [strLess] at h1
    | cons y ys =>
      cases c with
      | nil => simp [strLess] at h2
      | cons z zs =>
        simp only [strLess] at h1 h2 ⊢
        by_cases hxy : x.toNat < y.toNat
        · by_cases hyz : y.toNat < z.toNat
          · rw [if_pos (by omega)]
          · rw [if_neg hyz] at h2
            by_cases hzy : z.toNat < y.toNat
            · rw [if_pos hzy] at h2; cases h2
            · rw [if_pos (by omega)]
        · rw [if_neg hxy] at h1
          by_cases hyx : y.toNat < x.toNat
          · rw [if_pos hyx] at h1; cases h1
          · rw [if_neg hyx] at h1
            by_cases hyz : y.toNat < z.toNat
            · rw [if_pos (by omega)]
            · rw [if_neg hyz] at h2
              by_cases hzy : z.toNat < y.toNat
              · rw [if_pos hzy] at h2; cases h2
              · rw [if_neg hzy] at h2
                rw [if_neg (by omega), if_neg (by omega)]
                exact ih ys zs h1 h2

theorem strLess_connected : ∀ a b : Str, strLess a b = false → strLess b a = false → a = b := by
  intro a
  induction a with
  | nil =>
    intro b h1 _
    cases b with
    | nil => rfl
    | cons y ys => simp [strLess] at h1
  | cons x xs ih =>
    intro b h1 h2
    cases b with
    | nil => simp [strLess] at h2
    | cons y ys =>
      simp only [strLess] at h1 h2
      by_cases hxy : x.toNat < y.toNat
      · rw [if_pos hxy] at h1; cases h1
      · rw [if_neg hxy] at h1 h2
        by_cases hyx : y.toNat < x.toNat
        · rw [if_pos hyx] at h2; cases h2
        · rw [if_neg hyx] at h1 h2
          have hc : x = y := char_eq_of_toNat_eq (by omega)
          rw [hc, ih ys h1 h2]

theorem strLess_asymm (a b : Str) (h : strLess a b = true) : strLess b a = false := by
  cases hba : strLess b a with
  | false => rfl
  | true =>
    have := strLess_trans a b a h hba
    rw [strLess_irrefl] at this
    cases this

theorem strLess_negtrans (a b c : Str) (h1 : strLess a b = false) (h2 : strLess b c = false) :
    strLess a c = false := by
  cases hac : strLess a c with
  | false => rfl
  | true =>
    cases hba : strLess b a with
    | false =>
      have := strLess_connected a b h1 hba
      subst this
      rw [hac] at h2; cases h2
    | true =>
      have := strLess_trans b a c hba hac
      rw [this] at h2; cases h2

/-! ## The comparison of `SortByUrgency` -/

theorem less_iff (lower : Str → Str) (a b : ChoreStatus) :
    less lower a b = true ↔
      a.Status < b.Status ∨ (a.Status = b.Status ∧
        (sentinelKey a < sentinelKey b ∨ (sentinelKey a = sentinelKey b ∧
          (numericKey a < numericKey b ∨ (numericKey a = numericKey b ∧
            strLess (lower a.Chore.Name) (lower b.Chore.Name) = true))))) := by
  obtain ⟨ca, sa, oa, ua, la⟩ := a
  obtain ⟨cb, sb, ob, ub, lb⟩ := b
  unfold less sentinelKey numericKey StatusOverdue StatusUpcoming StatusClear NeverDoneSentinel
  simp only
  generalize strLess (lower ca.Name) (lower cb.Name) = P
  by_cases h1 : sa = sb
  · subst h1
    simp only [ne_eq, not_true_eq_false, if_false, lt_self_iff_false, true_and, false_or]
    by_cases h2 : sa = 0
    · subst h2
      simp only [if_true, true_and]
      by_cases h3 : oa = 999999 <;> by_cases h4 : ob = 999999
      · subst h3; subst h4; simp
      · subst h3; simp [h4]
      · subst h4; simp [h3]
      · simp only [h3, h4, false_and, if_false, not_false_eq_true, and_false]
        by_cases h5 : oa = ob
        · subst h5; simp
        · simp only [h5, not_false_eq_true, if_true, decide_eq_true_eq]
          constructor
          · intro h; exact Or.inr ⟨trivial, Or.inl (by omega)⟩
          · rintro (h | ⟨-, h | ⟨h, -⟩⟩) <;> omega
    · simp only [h2, false_and, if_false]
      by_cases h3 : sa = 2 ∨ sa = 3
      · simp only [h3, if_true]
        by_cases h5 : ua = ub
        · subst h5; simp
        · simp only [h5, not_false_eq_true, if_true, decide_eq_true_eq]
          constructor
          · intro h; exact Or.inr ⟨trivial, Or.inl h⟩
          · rintro (h | ⟨-, h | ⟨h, -⟩⟩)
            · omega
            · exact h
            · exact absurd h id
      · simp [h3]
  · simp only [ne_eq, h1, not_false_eq_true, if_true, decide_eq_true_eq, false_and, or_false]

theorem less_false_iff (lower : Str → Str) (a b : ChoreStatus) :
    less lower a b = false ↔ ¬ (less lower a b = true) := by
  cases less lower a b <;> simp

/-- Of two entries, one is not before the other. -/
theorem less_total (lower : Str → Str) (a b : ChoreStatus) :
    less lower b a = false ∨ less lower a b = false := by
  cases hba : less lower b a with
  | false => exact Or.inl rfl
  | true =>
    right
    rw [less_false_iff]
    intro hab
    rw [less_iff] at hba hab
    have h := strLess_asymm (lower a.Chore.Name) (lower b.Chore.Name)
    rcases hab with h3 | ⟨h3, h4 | ⟨h4, h5 | ⟨h5, h6⟩⟩⟩
    · omega
    · omega
    · omega
    · rw [h h6] at hba
      simp only [Bool.false_eq_true, and_false, or_false] at hba
      omega

/-- Being not before is transitive. -/
theorem less_negtrans (lower : Str → Str) (a b c : ChoreStatus)
    (h1 : less lower b a = false) (h2 : less lower c b = false) : less lower c a = false := by
  rw [less_false_iff, less_iff] at h1 h2 ⊢
  have h := strLess_negtrans (lower c.Chore.Name) (lower b.Chore.Name) (lower a.Chore.Name)
  cases hcb : strLess (lower c.Chore.Name) (lower b.Chore.Name) with
  | true =>
    rw [hcb] at h2
    simp only [and_true] at h2
    intro h3
    rcases h3 with h3 | ⟨h3, h4 | ⟨h4, h5 | ⟨h5, -⟩⟩⟩ <;>
      by_cases hn : strLess (lower b.Chore.Name) (lower a.Chore.Name) = true <;>
      simp only [hn, and_true, and_false, or_false] at h1 <;> omega
  | false =>
    cases hba : strLess (lower b.Chore.Name) (lower a.Chore.Name) with
    | true =>
      rw [hba] at h1
      simp only [and_true] at h1
      intro h3
      rcases h3 with h3 | ⟨h3, h4 | ⟨h4, h5 | ⟨h5, -⟩⟩⟩ <;>
        simp only [hcb, Bool.false_eq_true, and_false, or_false] at h2 <;> omega
    | false =>
      rw [h hcb hba]
      rw [hcb] at h2
      rw [hba] at h1
      simp only [Bool.false_eq_true, and_false, or_false] at h1 h2 ⊢
      omega

/-- The result of `SortByUrgency` is ordered: no entry is before an earlier one. -/
theorem SortByUrgency_sorted (lower : Str → Str) (statuses : List ChoreStatus) :
    List.Pairwise (fun a b => less lower b a = false) (SortByUrgency lower statuses) := by
  haveI : IsTotal ChoreStatus (fun a b => less lower b a = false) :=
    ⟨fun a b => less_total lower a b⟩
  haveI : IsTrans ChoreStatus (fun a b => less lower b a = false) :=
    ⟨fun a b c h1 h2 => less_negtrans lower a b c h1 h2⟩
  exact List.sorted_insertionSort (fun a b => less lower b a = false) statuses

/-- The result of `SortByUrgency` holds the entries of its argument. -/
theorem SortByUrgency_perm (lower : Str → Str) (statuses : List ChoreStatus) :
    (SortByUrgency lower statuses).Perm statuses :=
  List.perm_insertionSort _ statuses

theorem SortByUrgency_pair (lower : Str → Str) (statuses : List ChoreStatus) (i j : Nat)
    (a b : ChoreStatus) (hij : i < j) (ha : (SortByUrgency lower statuses)[i]? = some a)
    (hb : (SortByUrgency lower statuses)[j]? = some b) : less lower b a = false := by
  have hs := SortByUrgency_sorted lower statuses
  rw [List.pairwise_iff_getElem] at hs
  obtain ⟨hi, rfl⟩ := List.getElem?_eq_some.mp ha
  obtain ⟨hj, rfl⟩ := List.getElem?_eq_some.mp hb
  exact hs i j hi hj hij

/-- C4: after `SortByUrgency` (which keeps the entries), for positions `i < j` the
status at `i` is at most the status at `j`, the statuses being ranked
Overdue(0) < DueToday(1) < Upcoming(2) < Clear(3). -/
theorem SortByUrgency_status_order (lower : Str → Str) (statuses : List ChoreStatus) :
    (StatusOverdue = 0 ∧ StatusDueToday = 1 ∧ StatusUpcoming = 2 ∧ StatusClear = 3) ∧
    (SortByUrgency lower statuses).Perm statuses ∧
    ∀ (i j : Nat) (a b : ChoreStatus), i < j →
      (SortByUrgency lower statuses)[i]? = some a →
      (SortByUrgency lower statuses)[j]? = some b → a.Status ≤ b.Status := by
  refine ⟨⟨rfl, rfl, rfl, rfl⟩, SortByUrgency_perm lower statuses, ?_⟩
  intro i j a b hij ha hb
  have h := SortByUrgency_pair lower statuses i j a b hij ha hb
  rw [less_false_iff, less_iff] at h
  omega

/-- A use of `SortByUrgency_status_order` on the four entries of the test
`status_order`: the first entry of the result is not ranked after the last. -/
theorem SortByUrgency_status_order_witness :
    (SortByUrgency asciiLower
        [⟨⟨"Clear".toList, 0, [], 0, [], [], 0⟩, StatusClear, 0, 10, none⟩,
          ⟨⟨"Upcoming".toList, 0, [], 0, [], [], 0⟩, StatusUpcoming, 0, 2, none⟩,
          ⟨⟨"DueToday".toList, 0, [], 0, [], [], 0⟩, StatusDueToday, 0, 0, none⟩,
          ⟨⟨"Overdue".toList, 0, [], 0, [], [], 0⟩, StatusOverdue, 1, 0, none⟩]).map
        (fun e => e.Status) = [0, 1, 2, 3] ∧
      StatusOverdue ≤ StatusClear :=
  ⟨by decide,
    (SortByUrgency_status_order asciiLower
        [⟨⟨"Clear".toList, 0, [], 0, [], [], 0⟩, StatusClear, 0, 10, none⟩,
          ⟨⟨"Upcoming".toList, 0, [], 0, [], [], 0⟩, StatusUpcoming, 0, 2, none⟩,
          ⟨⟨"DueToday".toList, 0, [], 0, [], [], 0⟩, StatusDueToday, 0, 0, none⟩,
          ⟨⟨"Overdue".toList, 0, [], 0, [], [], 0⟩, StatusOverdue, 1, 0, none⟩]).2.2 0 3
      ⟨⟨"Overdue".toList, 0, [], 0, [], [], 0⟩, StatusOverdue, 1, 0, none⟩
      ⟨⟨"Clear".toList, 0, [], 0, [], [], 0⟩, StatusClear, 0, 10, none⟩
      (by decide) (by decide) (by decide)⟩

/-- C5: after `SortByUrgency`, of two Overdue entries at positions `i < j` the earlier
one bears the never-done sentinel only if the later one does (every real value comes
before every sentinel), and when both bear real values the earlier one is at least as
many days overdue. -/
theorem SortByUrgency_overdue_order (lower : Str → Str) (statuses : List ChoreStatus) :
    (SortByUrgency lower statuses).Perm statuses ∧
    ∀ (i j : Nat) (a b : ChoreStatus), i < j →
      (SortByUrgency lower statuses)[i]? = some a →
      (SortByUrgency lower statuses)[j]? = some b →
      a.Status = StatusOverdue → b.Status = StatusOverdue →
      (b.DaysOverdue ≠ NeverDoneSentinel → a.DaysOverdue ≠ NeverDoneSentinel) ∧
      (a.DaysOverdue ≠ NeverDoneSentinel → b.DaysOverdue ≠ NeverDoneSentinel →
        b.DaysOverdue ≤ a.DaysOverdue) := by
  refine ⟨SortByUrgency_perm lower statuses, ?_⟩
  intro i j a b hij ha hb hsa hsb
  have h := SortByUrgency_pair lower statuses i j a b hij ha hb
  rw [less_false_iff, less_iff] at h
  unfold sentinelKey numericKey at h
  rw [hsa, hsb] at h
  simp only [true_and, if_true, lt_self_iff_false, false_or] at h
  unfold NeverDoneSentinel at h ⊢
  constructor
  · intro hb1 ha1
    rw [if_neg hb1, if_pos ha1] at h
    exact h (Or.inl (by decide))
  · intro ha1 hb1
    rw [if_neg hb1, if_neg ha1] at h
    by_contra hlt
    exact h (Or.inr ⟨rfl, Or.inl (by omega)⟩)

/-- A use of `SortByUrgency_overdue_order` on the two entries of the test
`never_done_at_end_of_overdue`. -/
theorem SortByUrgency_overdue_order_witness :
    (SortByUrgency asciiLower
        [⟨⟨"Never Done".toList, 0, [], 0, [], [], 0⟩, StatusOverdue, NeverDoneSentinel, 0, none⟩,
          ⟨⟨"3 Days Over".toList, 0, [], 0, [], [], 0⟩, StatusOverdue, 3, 0, none⟩]).map
        (fun e => e.DaysOverdue) = [3, 999999] ∧
      ((999999 : Int) ≠ NeverDoneSentinel → (3 : Int) ≠ NeverDoneSentinel) :=
  ⟨by decide,
    ((SortByUrgency_overdue_order asciiLower
        [⟨⟨"Never Done".toList, 0, [], 0, [], [], 0⟩, StatusOverdue, NeverDoneSentinel, 0, none⟩,
          ⟨⟨"3 Days Over".toList, 0, [], 0, [], [], 0⟩, StatusOverdue, 3, 0, none⟩]).2 0 1
      ⟨⟨"3 Days Over".toList, 0, [], 0, [], [], 0⟩, StatusOverdue, 3, 0, none⟩
      ⟨⟨"Never Done".toList, 0, [], 0, [], [], 0⟩, StatusOverdue, NeverDoneSentinel, 0, none⟩
      (by decide) (by decide) (by decide) rfl rfl).1⟩

/-- C6: after `SortByUrgency`, two entries at positions `i < j` with the same status
and the same secondary key (`DaysOverdue` for Overdue, `DaysUntil` for Upcoming and
Clear, none otherwise) and different lower-cased names have the lower-cased name of
the earlier one before that of the later one. -/
theorem SortByUrgency_name_order (lower : Str → Str) (statuses : List ChoreStatus) :
    (SortByUrgency lower statuses).Perm statuses ∧
    ∀ (i j : Nat) (a b : ChoreStatus), i < j →
      (SortByUrgency lower statuses)[i]? = some a →
      (SortByUrgency lower statuses)[j]? = some b →
      a.Status = b.Status →
      (a.Status = StatusOverdue → a.DaysOverdue = b.DaysOverdue) →
      (a.Status = StatusUpcoming ∨ a.Status = StatusClear → a.DaysUntil = b.DaysUntil) →
      lower a.Chore.Name ≠ lower b.Chore.Name →
      strLess (lower a.Chore.Name) (lower b.Chore.Name) = true := by
  refine ⟨SortByUrgency_perm lower statuses, ?_⟩
  intro i j a b hij ha hb hs ho hu hne
  have h := SortByUrgency_pair lower statuses i j a b hij ha hb
  rw [less_false_iff, less_iff] at h
  have hk1 : sentinelKey b = sentinelKey a := by
    unfold sentinelKey
    rw [← hs]
    by_cases h0 : a.Status = StatusOverdue
    · rw [ho h0]
    · simp [h0]
  have hk2 : numericKey b = numericKey a := by
    unfold numericKey
    rw [← hs]
    by_cases h0 : a.Status = StatusOverdue
    · rw [if_pos h0, if_pos h0, ho h0]
    · rw [if_neg h0, if_neg h0]
      by_cases h1 : a.Status = StatusUpcoming ∨ a.Status = StatusClear
      · rw [if_pos h1, if_pos h1, hu h1]
      · rw [if_neg h1, if_neg h1]
  cases hab : strLess (lower a.Chore.Name) (lower b.Chore.Name) with
  | true => rfl
  | false =>
    cases hba : strLess (lower b.Chore.Name) (lower a.Chore.Name) with
    | true => exact absurd (Or.inr ⟨hs.symm, Or.inr ⟨hk1, Or.inr ⟨hk2, hba⟩⟩⟩) h
    | false => exact absurd (strLess_connected _ _ hab hba) hne

/-- A use of `SortByUrgency_name_order` on the two entries of the test
`equal_urgency_alphabetical`. -/
theorem SortByUrgency_name_order_witness :
    (SortByUrgency asciiLower
        [⟨⟨"Zebra".toList, 0, [], 0, [], [], 0⟩, StatusOverdue, 3, 0, none⟩,
          ⟨⟨"Alpha".toList, 0, [], 0, [], [], 0⟩, StatusOverdue, 3, 0, none⟩]).map
        (fun e => e.Chore.Name) = ["Alpha".toList, "Zebra".toList] ∧
      strLess (asciiLower "Alpha".toList) (asciiLower "Zebra".toList) = true :=
  ⟨by decide,
    (SortByUrgency_name_order asciiLower
        [⟨⟨"Zebra".toList, 0, [], 0, [], [], 0⟩, StatusOverdue, 3, 0, none⟩,
          ⟨⟨"Alpha".toList, 0, [], 0, [], [], 0⟩, StatusOverdue, 3, 0, none⟩]).2 0 1
      ⟨⟨"Alpha".toList, 0, [], 0, [], [], 0⟩, StatusOverdue, 3, 0, none⟩
      ⟨⟨"Zebra".toList, 0, [], 0, [], [], 0⟩, StatusOverdue, 3, 0, none⟩
      (by decide) (by decide) (by decide) rfl (fun _ => rfl) (fun _ => rfl) (by decide)⟩

/-! ## The parser, one line at a time -/

theorem wrapInt_eq_zero_dvd (x : Int) (h : wrapInt x = 0) :
    (18446744073709551616 : Int) ∣ x := by
  unfold wrapInt at h
  omega

/-- The product of a positive `int` and a multiplier of a frequency unit never wraps
around to zero. -/
theorem wrapInt_mul_ne_zero (n k : Int) (h0 : 0 < n) (h1 : n ≤ 9223372036854775807)
    (hk : k = 1 ∨ k = 7 ∨ k = 30 ∨ k = 365) : wrapInt (n * k) ≠ 0 := by
  intro h
  have hd := wrapInt_eq_zero_dvd _ h
  clear h
  rcases hk with rfl | rfl | rfl | rfl
  · rw [mul_one] at hd
    have := Int.le_of_dvd h0 hd
    omega
  · have h2 : (18446744073709551616 : Int) ∣ n :=
      Int.dvd_of_dvd_mul_left_of_gcd_one hd (by norm_num)
    have := Int.le_of_dvd h0 h2
    clear hd h2
    omega
  · have h3 : (9223372036854775808 : Int) ∣ n * 15 := by
      obtain ⟨q, hq⟩ := hd
      exact ⟨q, by linarith⟩
    have h2 : (9223372036854775808 : Int) ∣ n :=
      Int.dvd_of_dvd_mul_left_of_gcd_one h3 (by norm_num)
    have := Int.le_of_dvd h0 h2
    clear hd h2 h3
    omega
  · have h2 : (18446744073709551616 : Int) ∣ n :=
      Int.dvd_of_dvd_mul_left_of_gcd_one hd (by norm_num)
    have := Int.le_of_dvd h0 h2
    clear hd h2
    omega

/-- A frequency that `ParseFrequency` accepts is never zero days. -/
theorem ParseFrequency_days_ne_zero (s : Str) (h : (ParseFrequency s).err = none) :
    (ParseFrequency s).days ≠ 0 := by
  cases hm : model.frequencyRegex s with
  | none =>
    unfold ParseFrequency at h
    rw [hm] at h
    cases h
  | some p =>
    obtain ⟨ds, u⟩ := p
    have hP := ParseFrequency_of_match hm
    obtain ⟨-, -, -, hu⟩ := (frequencyRegex_eq_some_iff s ds u).mp hm
    rw [hP] at h ⊢
    by_cases h1 : maxInt < (digitsVal ds : Int)
    · rw [if_pos h1] at h; cases h
    · rw [if_neg h1] at h ⊢
      by_cases h2 : digitsVal ds = 0
      · rw [if_pos h2] at h; cases h
      · rw [if_neg h2]
        simp only
        unfold maxInt at h1
        apply wrapInt_mul_ne_zero _ _ (by omega) (by omega)
        rcases unitDays_cases hu with ⟨-, hm⟩ | ⟨-, hm⟩ | ⟨-, hm⟩ | ⟨-, hm⟩ <;>
          rw [hm] <;> simp

theorem flush_Chores (st : State) :
    st.flush.Chores = st.result.Chores ++
      (match st.currentChore with
        | none => []
        | some c => [{ c with Description := TrimSpace (Join st.descLines) }]) := by
  unfold State.flush
  cases st.currentChore <;> simp

theorem flush_Warnings (st : State) : st.flush.Warnings = st.result.Warnings := by
  unfold State.flush
  cases st.currentChore <;> rfl

theorem flush_Completions (st : State) : st.flush.Completions = st.result.Completions := by
  unfold State.flush
  cases st.currentChore <;> rfl

theorem completionOrDescription_Chores (n : Nat) (line : Str) (st : State) :
    (completionOrDescription n line st).result.Chores = st.result.Chores := by
  unfold completionOrDescription
  split
  · split <;> rfl
  · split
    · split <;> rfl
    · rfl

theorem completionOrDescription_choreMap (n : Nat) (line : Str) (st : State) :
    (completionOrDescription n line st).choreMap = st.choreMap := by
  unfold completionOrDescription
  split
  · split <;> rfl
  · split
    · split <;> rfl
    · rfl

theorem completionOrDescription_currentChore (n : Nat) (line : Str) (st : State) :
    (completionOrDescription n line st).currentChore = st.currentChore := by
  unfold completionOrDescription
  split
  · split <;> rfl
  · split
    · split <;> rfl
    · rfl

theorem completionOrDescription_Warnings (n : Nat) (line : Str) (st : State) :
    (completionOrDescription n line st).result.Warnings = st.result.Warnings ∨
      ∃ d, (completionOrDescription n line st).result.Warnings
        = st.result.Warnings ++ [.invalidDate n d] := by
  unfold completionOrDescription
  split
  · split
    · exact Or.inr ⟨_, rfl⟩
    · exact Or.inl rfl
  · split
    · split <;> exact Or.inl rfl
    · exact Or.inl rfl

theorem completionOrDescription_descLines (n : Nat) (line : Str) (st : State)
    (h : ∀ c, st.currentChore = some c → c.FrequencyDays ≤ 0) :
    (completionOrDescription n line st).descLines = st.descLines := by
  unfold completionOrDescription
  split
  · split <;> rfl
  · split
    · rename_i c hc
      have := h c hc
      rw [if_neg (by omega)]
    · rfl

theorem parseLine_header_dup (lower : Str → Str) (n : Nat) (line m1 : Str) (st : State)
    (h : headerRegex line = some m1) (hk : lower (TrimSpace m1) ∈ st.choreMap) :
    parseLine lower n line st =
      .ok { result := { st.flush with
              Warnings := st.flush.Warnings ++ [.duplicate n (TrimSpace m1)] },
            choreMap := st.choreMap, currentChore := none, descLines := [] } := by
  unfold parseLine
  rw [h]
  simp only [if_pos hk]

theorem parseLine_header_new (lower : Str → Str) (n : Nat) (line m1 : Str) (st : State)
    (h : headerRegex line = some m1) (hk : lower (TrimSpace m1) ∉ st.choreMap) :
    parseLine lower n line st =
      .ok { result := st.flush, choreMap := lower (TrimSpace m1) :: st.choreMap,
            currentChore := some ⟨TrimSpace m1, 0, [], 0, [], [], n⟩, descLines := [] } := by
  unfold parseLine
  rw [h]
  simp only [if_neg hk]

theorem parseLine_frequency (lower : Str → Str) (n : Nat) (line tok rest : Str) (st : State)
    (c : Chore) (h : headerRegex line = none) (hc : st.currentChore = some c)
    (hf : c.FrequencyDays = 0) (hm : parser.frequencyRegex line = some (tok, rest)) :
    parseLine lower n line st =
      match frequencyLine n tok rest c with
      | .error e => .error e
      | .ok c1 => .ok { st with currentChore := some c1 } := by
  unfold parseLine
  rw [h]
  simp only [hc, hf, if_true, hm]

theorem parseLine_other (lower : Str → Str) (n : Nat) (line : Str) (st : State)
    (h : headerRegex line = none)
    (hf : ∀ c, st.currentChore = some c → c.FrequencyDays = 0 →
      parser.frequencyRegex line = none) :
    parseLine lower n line st = .ok (completionOrDescription n line st) := by
  unfold parseLine
  rw [h]
  cases hc : st.currentChore with
  | none => rfl
  | some c =>
    simp only
    by_cases h0 : c.FrequencyDays = 0
    · rw [if_pos h0, hf c hc h0]
    · rw [if_neg h0]

theorem frequencyLine_error (n : Nat) (tok rest : Str) (c : Chore) (e : FreqError)
    (h : (ParseFrequency tok).err = some e) :
    frequencyLine n tok rest c = .error (.frequency n e) := by
  unfold frequencyLine
  rw [h]

theorem frequencyLine_ok (n : Nat) (tok rest : Str) (c c1 : Chore)
    (h : frequencyLine n tok rest c = .ok c1) :
    (ParseFrequency tok).err = none ∧ c1.Name = c.Name ∧ c1.Line = c.Line ∧
      c1.FrequencyDays = (ParseFrequency tok).days ∧
      c1.FrequencyRaw = (ParseFrequency tok).raw ∧ c1.Description = c.Description := by
  unfold frequencyLine at h
  cases he : (ParseFrequency tok).err with
  | some e => rw [he] at h; cases h
  | none =>
    rw [he] at h
    simp only at h
    split at h
    · split at h
      · cases h
      · cases h; exact ⟨rfl, rfl, rfl, rfl, rfl, rfl⟩
    · cases h; exact ⟨rfl, rfl, rfl, rfl, rfl, rfl⟩

theorem parseLines_append (lower : Str → Str) :
    ∀ (xs ys : List Str) (n : Nat) (st : State),
      parseLines lower n (xs ++ ys) st =
        match parseLines lower n xs st with
        | .error e => .error e
        | .ok st1 => parseLines lower (n + xs.length) ys st1 := by
  intro xs
  induction xs with
  | nil => intro ys n st; simp [parseLines]
  | cons x xs ih =>
    intro ys n st
    simp only [List.cons_append, parseLines, List.length_cons, List.append_eq]
    cases parseLine lower n (TrimRightCR x) st with
    | error e => rfl
    | ok st1 =>
      simp only
      rw [ih ys (n + 1) st1]
      have : n + 1 + xs.length = n + (xs.length + 1) := by omega
      rw [this]

/-- C2 fails on the code: a frequency whose product with the days of its unit exceeds
the range of `int` wraps around, here to a negative number of days, and `Parse`
returns the chore. Both `Parse` and `ParseFrequency` only reject a zero. -/
theorem Parse_negative_frequency :
    Parse asciiLower "## A\n> 4611686018427387904w\n".toList =
      .ok ⟨[⟨"A".toList, -4611686018427387904, "4611686018427387904w".toList, 0, [], [], 1⟩],
        [], []⟩ ∧
    ¬ (0 < (-4611686018427387904 : Int)) :=
  ⟨rfl, by decide⟩

/-- The token of a line that has the shape of a frequency line is a non-empty run of
digits and a unit. -/
theorem frequencyRegex_token (line tok rest : Str)
    (h : parser.frequencyRegex line = some (tok, rest)) :
    ∃ ds u, tok = ds ++ [u] ∧ ds ≠ [] ∧ (∀ c ∈ ds, isDigit c = true) ∧ isFreqUnit u = true := by
  unfold parser.frequencyRegex at h
  split at h
  · cases h
  · rename_i c0 rest0
    split at h
    · split at h
      · cases h
      · rename_i u rem hdrop
        split at h
        · rename_i hcond
          have hds : ∀ c ∈ (rest0.dropWhile isReSpace).takeWhile isDigit, isDigit c = true :=
            fun c hc => List.mem_takeWhile_imp hc
          have key : ∀ r, some ((rest0.dropWhile isReSpace).takeWhile isDigit ++ [u], r)
              = some (tok, rest) →
              ∃ ds u, tok = ds ++ [u] ∧ ds ≠ [] ∧ (∀ c ∈ ds, isDigit c = true) ∧
                isFreqUnit u = true := by
            intro r hr
            simp only [Option.some.injEq, Prod.mk.injEq] at hr
            exact ⟨_, u, hr.1.symm, hcond.1, hds, hcond.2⟩
          split at h
          · exact key _ h
          · split at h
            · split at h
              · exact key _ h
              · split at h
                · exact key _ h
                · exact key _ h
            · cases h
        · cases h
    · cases h

theorem ParseFrequency_error_kind (tok ds : Str) (u : Char) (e : FreqError)
    (hm : model.frequencyRegex tok = some (ds, u)) (he : (ParseFrequency tok).err = some e) :
    e = .notPositive 0 ∨ e = .number ds := by
  rw [ParseFrequency_of_match hm] at he
  split_ifs at he
  · right; simpa using he.symm
  · left; simpa using he.symm

/-- C9 (amended): when, with a chore open that has no frequency yet, a line that is
not a header has the shape of a frequency line (`>`, blanks, digits, a unit among
d/w/m/y, then the end or a blank) and `ParseFrequency` rejects its token, `Parse`
returns the error of that line and no result, whatever lines follow; the token of
such a line is always a run of digits and a unit, so the rejection is a zero or a
number beyond `int`; a line that is neither a header nor of that shape never makes
the loop fail. -/
theorem Parse_frequency_abort (lower : Str → Str) :
    (∀ (content : Str) (pre post : List Str) (l tok rest : Str) (st : State) (c : Chore)
        (e : FreqError),
      Split content = pre ++ l :: post →
      parseLines lower 1 pre State.init = .ok st →
      st.currentChore = some c → c.FrequencyDays = 0 →
      headerName l = none → frequencyShape l = some (tok, rest) →
      (ParseFrequency tok).err = some e →
      Parse lower content = .error (.frequency (pre.length + 1) e) ∧
        (e = .notPositive 0 ∨ e = .number tok.dropLast)) ∧
    (∀ (l tok rest : Str), frequencyShape l = some (tok, rest) →
      ∃ ds u, tok = ds ++ [u] ∧ ds ≠ [] ∧ (∀ c ∈ ds, isDigit c = true) ∧
        isFreqUnit u = true) ∧
    (∀ (l : Str) (n : Nat) (st : State), headerName l = none → frequencyShape l = none →
      parseLine lower n (TrimRightCR l) st
        = .ok (completionOrDescription n (TrimRightCR l) st)) := by
  refine ⟨?_, fun l tok rest h => frequencyRegex_token _ tok rest h, ?_⟩
  · intro content pre post l tok rest st c e hsplit hpre hc hf hh hshape herr
    have hh' : headerRegex (TrimRightCR l) = none := by
      unfold headerName at hh
      cases hx : headerRegex (TrimRightCR l) with
      | none => rfl
      | some m => rw [hx] at hh; cases hh
    constructor
    · unfold Parse
      rw [hsplit, parseLines_append, hpre]
      simp only [parseLines]
      rw [Nat.add_comm, parseLine_frequency lower _ _ tok rest st c hh' hc hf hshape,
        frequencyLine_error _ _ _ _ _ herr]
    · obtain ⟨ds, u, h1, h2, h3, h4⟩ := frequencyRegex_token _ tok rest hshape
      have hm := (frequencyRegex_eq_some_iff tok ds u).mpr ⟨h1, h2, h3, h4⟩
      have := ParseFrequency_error_kind tok ds u e hm herr
      rw [h1, List.dropLast_concat]
      exact this
  · intro l n st hh hshape
    have hh' : headerRegex (TrimRightCR l) = none := by
      unfold headerName at hh
      cases hx : headerRegex (TrimRightCR l) with
      | none => rfl
      | some m => rw [hx] at hh; cases hh
    exact parseLine_other lower n _ st hh' (fun _ _ _ => hshape)

/-- A use of `Parse_frequency_abort`: a zero frequency aborts although a valid
frequency line follows. -/
theorem Parse_frequency_abort_witness :
    Parse asciiLower "## A\n> 0d\n> 1w".toList = .error (.frequency 2 (.notPositive 0)) :=
  ((Parse_frequency_abort asciiLower).1 "## A\n> 0d\n> 1w".toList ["## A".toList]
    ["> 1w".toList] "> 0d".toList "0d".toList []
    ⟨⟨[], [], []⟩, ["a".toList], some ⟨"A".toList, 0, [], 0, [], [], 1⟩, []⟩
    ⟨"A".toList, 0, [], 0, [], [], 1⟩ (.notPositive 0)
    (by decide) rfl rfl rfl (by decide) (by decide) (by decide)).1

/-- C9 as stated fails: a `>` line with an unknown unit is not taken for a frequency
line, and the parse succeeds with the frequency of the next line. -/
theorem Parse_invalid_token_counterexample :
    Parse asciiLower "## A\n> 2x\n> 1w".toList =
      .ok ⟨[⟨"A".toList, 7, "1w".toList, 0, [], [], 1⟩], [], []⟩ :=
  rfl

/-! ## The parser, along the lines -/

/-- The four ways in which one turn of the loop goes on. -/
theorem parseLine_cases (lower : Str → Str) (n : Nat) (line : Str) (st st1 : State)
    (h : parseLine lower n line st = .ok st1) :
    (∃ m1, headerRegex line = some m1 ∧ lower (TrimSpace m1) ∈ st.choreMap ∧
      st1 = { result := { st.flush with
                Warnings := st.flush.Warnings ++ [.duplicate n (TrimSpace m1)] },
              choreMap := st.choreMap, currentChore := none, descLines := [] }) ∨
    (∃ m1, headerRegex line = some m1 ∧ lower (TrimSpace m1) ∉ st.choreMap ∧
      st1 = { result := st.flush, choreMap := lower (TrimSpace m1) :: st.choreMap,
              currentChore := some ⟨TrimSpace m1, 0, [], 0, [], [], n⟩, descLines := [] }) ∨
    (headerRegex line = none ∧ ∃ c tok rest c1, st.currentChore = some c ∧
      c.FrequencyDays = 0 ∧ parser.frequencyRegex line = some (tok, rest) ∧
      frequencyLine n tok rest c = .ok c1 ∧ st1 = { st with currentChore := some c1 }) ∨
    (headerRegex line = none ∧
      (∀ c, st.currentChore = some c → c.FrequencyDays = 0 →
        parser.frequencyRegex line = none) ∧
      st1 = completionOrDescription n line st) := by
  cases hh : headerRegex line with
  | some m1 =>
    by_cases hk : lower (TrimSpace m1) ∈ st.choreMap
    · rw [parseLine_header_dup lower n line m1 st hh hk] at h
      left
      exact ⟨m1, rfl, hk, (Except.ok.inj h).symm⟩
    · rw [parseLine_header_new lower n line m1 st hh hk] at h
      right; left
      exact ⟨m1, rfl, hk, (Except.ok.inj h).symm⟩
  | none =>
    right; right
    by_cases hf : ∀ c, st.currentChore = some c → c.FrequencyDays = 0 →
        parser.frequencyRegex line = none
    · right
      rw [parseLine_other lower n line st hh hf] at h
      exact ⟨rfl, hf, (Except.ok.inj h).symm⟩
    · left
      push_neg at hf
      obtain ⟨c, hc, h0, hm⟩ := hf
      cases hm2 : parser.frequencyRegex line with
      | none => exact absurd hm2 hm
      | some p =>
        obtain ⟨tok, rest⟩ := p
        rw [parseLine_frequency lower n line tok rest st c hh hc h0 hm2] at h
        cases hfl : frequencyLine n tok rest c with
        | error e => rw [hfl] at h; cases h
        | ok c1 =>
          rw [hfl] at h
          exact ⟨rfl, c, tok, rest, c1, hc, h0, rfl, hfl, (Except.ok.inj h).symm⟩

theorem append_singleton_eq_singleton {α : Type} (l : List α) (x y : α)
    (h : l ++ [x] = [y]) : l = [] ∧ x = y := by
  cases l with
  | nil => simpa using h
  | cons a as => simp at h

theorem hasKey_withDescription (lower : Str → Str) (key : Str) (c : Chore) (d : Str) :
    hasKey lower key { c with Description := d } = hasKey lower key c := rfl

/-- Once settled, the chore of a key stays as it is to the end of the line. -/
theorem parseLine_Settled (lower : Str → Str) (name : Str) (line0 : Nat) (days : Int)
    (n : Nat) (line : Str) (st st1 : State) (hs : Settled lower name line0 days st)
    (h : parseLine lower n line st = .ok st1) : Settled lower name line0 days st1 := by
  obtain ⟨hkey, ⟨c0, hfilter, hname, hline, hdays⟩, hcur⟩ := hs
  rcases parseLine_cases lower n line st st1 h with
    ⟨m1, -, hk, rfl⟩ | ⟨m1, -, hk, rfl⟩ | ⟨-, c, tok, rest, c1, hc, h0, -, hfl, rfl⟩ |
    ⟨-, -, rfl⟩
  · refine ⟨hkey, ⟨c0, ?_, hname, hline, hdays⟩, ?_⟩
    · rw [flush_Chores]
      simpa using hfilter
    · intro cur hcur'
      cases hcur'
  · have hne : lower (TrimSpace m1) ≠ lower name := fun he => hk (he ▸ hkey)
    refine ⟨List.mem_cons_of_mem _ hkey, ⟨c0, ?_, hname, hline, hdays⟩, ?_⟩
    · rw [flush_Chores]
      simp only [List.filter_append, hfilter]
      simp [hasKey, hne]
    · intro cur hcur' hk'
      simp only [Option.some.injEq] at hcur'
      subst hcur'
      exact absurd hk' hne
  · obtain ⟨-, hn1, -, -, -, -⟩ := frequencyLine_ok n tok rest c c1 hfl
    have hcne : lower c.Name ≠ lower name := fun he => hcur c hc he h0
    refine ⟨hkey, ⟨c0, ?_, hname, hline, hdays⟩, ?_⟩
    · rw [flush_Chores] at hfilter ⊢
      simp only [hc, List.filter_append] at hfilter ⊢
      rw [← hfilter]
      congr 1
      simp [hasKey, hn1, hcne]
    · intro cur hcur' hk'
      simp only [Option.some.injEq] at hcur'
      subst hcur'
      rw [hn1] at hk'
      exact absurd hk' hcne
  · refine ⟨by rw [completionOrDescription_choreMap]; exact hkey, ?_, ?_⟩
    · rw [flush_Chores] at hfilter ⊢
      rw [completionOrDescription_Chores, completionOrDescription_currentChore]
      cases hc : st.currentChore with
      | none =>
        rw [hc] at hfilter
        exact ⟨c0, hfilter, hname, hline, hdays⟩
      | some c =>
        rw [hc] at hfilter
        simp only [List.filter_append] at hfilter ⊢
        by_cases hck : hasKey lower (lower name) c = true
        · have h1 : List.filter (hasKey lower (lower name))
              [{ c with Description := TrimSpace (Join st.descLines) }]
              = [{ c with Description := TrimSpace (Join st.descLines) }] := by
            simp [hasKey_withDescription, hck]
          rw [h1] at hfilter
          obtain ⟨h3, h4⟩ := append_singleton_eq_singleton _ _ _ hfilter
          refine ⟨⟨c.Name, c.FrequencyDays, c.FrequencyRaw, c.DurationMinutes, c.DurationRaw,
            TrimSpace (Join (completionOrDescription n line st).descLines), c.Line⟩, ?_, ?_, ?_, ?_⟩
          · rw [h3]
            simp only [List.nil_append, List.filter_cons, hasKey_withDescription, hck, if_true,
              List.filter_nil]
          · rw [← hname, ← h4]
          · rw [← hline, ← h4]
          · rw [← hdays, ← h4]
        · have h1 : ∀ d, List.filter (hasKey lower (lower name))
              [{ c with Description := d }] = [] := by
            intro d
            simp [hasKey_withDescription, hck]
          rw [h1 _] at hfilter
          rw [h1 _]
          exact ⟨c0, hfilter, hname, hline, hdays⟩
    · intro cur hcur'
      rw [completionOrDescription_currentChore] at hcur'
      exact hcur cur hcur'

theorem parseLines_Settled (lower : Str → Str) (name : Str) (line0 : Nat) (days : Int) :
    ∀ (ls : List Str) (n : Nat) (st st1 : State), Settled lower name line0 days st →
      parseLines lower n ls st = .ok st1 → Settled lower name line0 days st1 := by
  intro ls
  induction ls with
  | nil =>
    intro n st st1 hs h
    simp only [parseLines] at h
    cases h
    exact hs
  | cons l ls ih =>
    intro n st st1 hs h
    simp only [parseLines] at h
    cases hl : parseLine lower n (TrimRightCR l) st with
    | error e => rw [hl] at h; cases h
    | ok st2 =>
      rw [hl] at h
      exact ih (n + 1) st2 st1 (parseLine_Settled lower name line0 days n _ st st2 hs hl) h

theorem headerName_eq_none (l : Str) : headerName l = none ↔ headerRegex (TrimRightCR l) = none := by
  unfold headerName
  cases headerRegex (TrimRightCR l) <;> simp

theorem headerName_eq_some (l name : Str) :
    headerName l = some name ↔
      ∃ m1, headerRegex (TrimRightCR l) = some m1 ∧ TrimSpace m1 = name := by
  unfold headerName
  cases headerRegex (TrimRightCR l) <;> simp

/-- One line read while the chore is open without a frequency: a header hands the
chore over as it is, a frequency line gives it its days, any other line leaves it. -/
theorem parseLine_OpenNoFrequency (lower : Str → Str) (name : Str) (line0 n : Nat)
    (line : Str) (st st1 : State) (ho : OpenNoFrequency lower name line0 st)
    (h : parseLine lower n line st = .ok st1) :
    (headerRegex line ≠ none ∧ Settled lower name line0 0 st1) ∨
    (headerRegex line = none ∧ ∃ tok rest, parser.frequencyRegex line = some (tok, rest) ∧
      (ParseFrequency tok).err = none ∧
      Settled lower name line0 (ParseFrequency tok).days st1) ∨
    (headerRegex line = none ∧ parser.frequencyRegex line = none ∧
      OpenNoFrequency lower name line0 st1) := by
  obtain ⟨hkey, hres, c, hc, hname, hline, hfreq⟩ := ho
  have hck : hasKey lower (lower name) c = true := by simp [hasKey, hname]
  have hflush : ∀ d, List.filter (hasKey lower (lower name))
      (st.result.Chores ++ [{ c with Description := d }])
      = [{ c with Description := d }] := by
    intro d
    rw [List.filter_append, hres]
    simp [hasKey_withDescription, hck]
  rcases parseLine_cases lower n line st st1 h with
    ⟨m1, hh, hk, rfl⟩ | ⟨m1, hh, hk, rfl⟩ | ⟨hh, c', tok, rest, c1, hc', h0, hm, hfl, rfl⟩ |
    ⟨hh, hf, rfl⟩
  · left
    refine ⟨by rw [hh]; simp, hkey, ⟨(⟨c.Name, c.FrequencyDays, c.FrequencyRaw, c.DurationMinutes, c.DurationRaw,
      TrimSpace (Join st.descLines), c.Line⟩ : Chore), ?_, hname, hline, hfreq⟩, ?_⟩
    · rw [flush_Chores]
      simp only [List.append_nil]
      rw [flush_Chores, hc]
      exact hflush _
    · intro cur hcur
      cases hcur
  · left
    have hne : lower (TrimSpace m1) ≠ lower name := fun he => hk (he ▸ hkey)
    refine ⟨by rw [hh]; simp, List.mem_cons_of_mem _ hkey, ⟨(⟨c.Name, c.FrequencyDays, c.FrequencyRaw, c.DurationMinutes, c.DurationRaw,
      TrimSpace (Join st.descLines), c.Line⟩ : Chore), ?_, hname, hline,
      hfreq⟩, ?_⟩
    · rw [flush_Chores]
      simp only
      rw [flush_Chores, hc, List.filter_append, hflush]
      simp [hasKey, hne]
    · intro cur hcur hk'
      simp only [Option.some.injEq] at hcur
      subst hcur
      exact absurd hk' hne
  · right; left
    rw [hc] at hc'
    cases hc'
    obtain ⟨herr, hn1, hl1, hd1, -, -⟩ := frequencyLine_ok n tok rest c c1 hfl
    refine ⟨hh, tok, rest, hm, herr, hkey, ⟨{ c1 with Description := TrimSpace (Join st.descLines) },
      ?_, hn1.trans hname, hl1.trans hline, hd1⟩, ?_⟩
    · rw [flush_Chores]
      simp only
      rw [List.filter_append, hres]
      simp [hasKey, hn1, hname]
    · intro cur hcur _
      simp only [Option.some.injEq] at hcur
      subst hcur
      rw [hd1]
      exact ParseFrequency_days_ne_zero tok herr
  · right; right
    refine ⟨hh, hf c hc hfreq, ?_, ?_, c, ?_, hname, hline, hfreq⟩
    · rw [completionOrDescription_choreMap]; exact hkey
    · rw [completionOrDescription_Chores]; exact hres
    · rw [completionOrDescription_currentChore]; exact hc

/-- The lines read from a state in which the chore is open without a frequency: the
chore is still so and no line was a header or a frequency line, or it was handed over
without a frequency, or a first frequency line gave it its days. -/
theorem parseLines_OpenNoFrequency (lower : Str → Str) (name : Str) (line0 : Nat) :
    ∀ (ls : List Str) (n : Nat) (st st1 : State), OpenNoFrequency lower name line0 st →
      parseLines lower n ls st = .ok st1 →
      (OpenNoFrequency lower name line0 st1 ∧
        ∀ x ∈ ls, headerName x = none ∧ frequencyShape x = none) ∨
      Settled lower name line0 0 st1 ∨
      ∃ b1 l b2 tok rest, ls = b1 ++ l :: b2 ∧
        (∀ x ∈ b1, headerName x = none ∧ frequencyShape x = none) ∧
        headerName l = none ∧ frequencyShape l = some (tok, rest) ∧
        (ParseFrequency tok).err = none ∧
        Settled lower name line0 (ParseFrequency tok).days st1 := by
  intro ls
  induction ls with
  | nil =>
    intro n st st1 ho h
    simp only [parseLines] at h
    cases h
    exact Or.inl ⟨ho, by simp⟩
  | cons l ls ih =>
    intro n st st1 ho h
    simp only [parseLines] at h
    cases hl : parseLine lower n (TrimRightCR l) st with
    | error e => rw [hl] at h; cases h
    | ok st2 =>
      rw [hl] at h
      rcases parseLine_OpenNoFrequency lower name line0 n _ st st2 ho hl with
        ⟨-, hs⟩ | ⟨hh, tok, rest, hm, herr, hs⟩ | ⟨hh, hm, ho2⟩
      · exact Or.inr (Or.inl (parseLines_Settled lower name line0 0 ls (n + 1) st2 st1 hs h))
      · right; right
        exact ⟨[], l, ls, tok, rest, rfl, by simp, (headerName_eq_none l).mpr hh, hm, herr,
          parseLines_Settled lower name line0 _ ls (n + 1) st2 st1 hs h⟩
      · have hq : headerName l = none ∧ frequencyShape l = none :=
          ⟨(headerName_eq_none l).mpr hh, hm⟩
        rcases ih (n + 1) st2 st1 ho2 h with ⟨ho3, hall⟩ | hs | ⟨b1, l', b2, tok, rest, hsplit,
          hb1, hl', hm', herr, hs⟩
        · left
          refine ⟨ho3, ?_⟩
          intro x hx
          rcases List.mem_cons.mp hx with rfl | hx
          · exact hq
          · exact hall x hx
        · exact Or.inr (Or.inl hs)
        · right; right
          refine ⟨l :: b1, l', b2, tok, rest, by rw [hsplit]; rfl, ?_, hl', hm', herr, hs⟩
          intro x hx
          rcases List.mem_cons.mp hx with rfl | hx
          · exact hq
          · exact hb1 x hx

/-- Lines that are neither headers nor frequency lines leave an open chore without
frequency as it is, and cannot fail. -/
theorem parseLines_quiet (lower : Str → Str) :
    ∀ (ls : List Str) (n : Nat) (st : State),
      (∃ c, st.currentChore = some c ∧ c.FrequencyDays = 0) →
      (∀ x ∈ ls, headerName x = none ∧ frequencyShape x = none) →
      ∃ st1, parseLines lower n ls st = .ok st1 ∧ st1.currentChore = st.currentChore ∧
        st1.result.Chores = st.result.Chores ∧ st1.choreMap = st.choreMap := by
  intro ls
  induction ls with
  | nil => intro n st _ _; exact ⟨st, rfl, rfl, rfl, rfl⟩
  | cons l ls ih =>
    intro n st hc hq
    obtain ⟨hh, hm⟩ := hq l (List.mem_cons_self _ _)
    have hstep := parseLine_other lower n (TrimRightCR l) st ((headerName_eq_none l).mp hh)
      (fun _ _ _ => hm)
    obtain ⟨st1, h1, h2, h3, h4⟩ := ih (n + 1) (completionOrDescription n (TrimRightCR l) st)
      (by rw [completionOrDescription_currentChore]; exact hc)
      (fun x hx => hq x (List.mem_cons_of_mem _ hx))
    refine ⟨st1, ?_, ?_, ?_, ?_⟩
    · simp only [parseLines, hstep]
      exact h1
    · rw [h2, completionOrDescription_currentChore]
    · rw [h3, completionOrDescription_Chores]
    · rw [h4, completionOrDescription_choreMap]

/-- One line keeps the keys of the map tied to the header lines, and to the chores
and the duplicate warnings of the state. -/
theorem parseLine_keys (lower : Str → Str) (n : Nat) (line : Str) (st st1 : State)
    (h : parseLine lower n line st = .ok st1) :
    (∀ k ∈ st1.choreMap, k ∈ st.choreMap ∨
      ∃ m1, headerRegex line = some m1 ∧ lower (TrimSpace m1) = k) ∧
    ((∀ c ∈ st.flush.Chores, lower c.Name ∈ st.choreMap) →
      ∀ c ∈ st1.flush.Chores, lower c.Name ∈ st1.choreMap) ∧
    ((∀ ln nm, Warning.duplicate ln nm ∈ st.result.Warnings → lower nm ∈ st.choreMap) →
      ∀ ln nm, Warning.duplicate ln nm ∈ st1.result.Warnings → lower nm ∈ st1.choreMap) := by
  rcases parseLine_cases lower n line st st1 h with
    ⟨m1, hh, hk, rfl⟩ | ⟨m1, hh, hk, rfl⟩ | ⟨hh, c, tok, rest, c1, hc, h0, hm, hfl, rfl⟩ |
    ⟨hh, hf, rfl⟩
  · refine ⟨fun k hk' => Or.inl hk', ?_, ?_⟩
    · intro hinv c hc
      rw [flush_Chores] at hc
      simp only [List.append_nil] at hc
      exact hinv c hc
    · intro hinv ln nm hw
      simp only [List.mem_append, List.mem_singleton, Warning.duplicate.injEq] at hw
      rcases hw with hw | ⟨-, rfl⟩
      · rw [flush_Warnings] at hw
        exact hinv ln nm hw
      · exact hk
  · refine ⟨?_, ?_, ?_⟩
    · intro k hk'
      rcases List.mem_cons.mp hk' with rfl | hk'
      · exact Or.inr ⟨m1, hh, rfl⟩
      · exact Or.inl hk'
    · intro hinv c hc
      rw [flush_Chores] at hc
      simp only [List.mem_append, List.mem_singleton] at hc
      rcases hc with hc | rfl
      · exact List.mem_cons_of_mem _ (hinv c hc)
      · exact List.mem_cons_self _ _
    · intro hinv ln nm hw
      simp only at hw
      rw [flush_Warnings] at hw
      exact List.mem_cons_of_mem _ (hinv ln nm hw)
  · obtain ⟨-, hn1, -, -, -, -⟩ := frequencyLine_ok n tok rest c c1 hfl
    refine ⟨fun k hk' => Or.inl hk', ?_, fun hinv => hinv⟩
    intro hinv c' hc'
    rw [flush_Chores] at hc'
    simp only [List.mem_append, List.mem_singleton] at hc'
    rcases hc' with hc' | rfl
    · apply hinv
      rw [flush_Chores]
      exact List.mem_append_left _ hc'
    · simp only
      rw [hn1]
      apply hinv { c with Description := TrimSpace (Join st.descLines) }
      rw [flush_Chores, hc]
      simp
  · refine ⟨?_, ?_, ?_⟩
    · intro k hk'
      rw [completionOrDescription_choreMap] at hk'
      exact Or.inl hk'
    · intro hinv c hc
      rw [completionOrDescription_choreMap]
      rw [flush_Chores, completionOrDescription_Chores, completionOrDescription_currentChore]
        at hc
      rcases List.mem_append.mp hc with hc | hc
      · apply hinv
        rw [flush_Chores]
        exact List.mem_append_left _ hc
      · cases hcur : st.currentChore with
        | none => rw [hcur] at hc; simp at hc
        | some cur =>
          rw [hcur] at hc
          simp only [List.mem_singleton] at hc
          subst hc
          apply hinv { cur with Description := TrimSpace (Join st.descLines) }
          rw [flush_Chores, hcur]
          simp
    · intro hinv ln nm hw
      rw [completionOrDescription_choreMap]
      rcases completionOrDescription_Warnings n line st with hW | ⟨d, hW⟩
      · rw [hW] at hw
        exact hinv ln nm hw
      · rw [hW] at hw
        simp only [List.mem_append, List.mem_singleton] at hw
        rcases hw with hw | hw
        · exact hinv ln nm hw
        · cases hw

theorem parseLines_keys (lower : Str → Str) :
    ∀ (ls : List Str) (n : Nat) (st st1 : State), parseLines lower n ls st = .ok st1 →
      (∀ k ∈ st1.choreMap, k ∈ st.choreMap ∨
        ∃ l ∈ ls, ∃ name, headerName l = some name ∧ lower name = k) ∧
      ((∀ c ∈ st.flush.Chores, lower c.Name ∈ st.choreMap) →
        ∀ c ∈ st1.flush.Chores, lower c.Name ∈ st1.choreMap) ∧
      ((∀ ln nm, Warning.duplicate ln nm ∈ st.result.Warnings → lower nm ∈ st.choreMap) →
        ∀ ln nm, Warning.duplicate ln nm ∈ st1.result.Warnings →
          lower nm ∈ st1.choreMap) := by
  intro ls
  induction ls with
  | nil =>
    intro n st st1 h
    simp only [parseLines] at h
    cases h
    exact ⟨fun k hk => Or.inl hk, fun hinv => hinv, fun hinv => hinv⟩
  | cons l ls ih =>
    intro n st st1 h
    simp only [parseLines] at h
    cases hl : parseLine lower n (TrimRightCR l) st with
    | error e => rw [hl] at h; cases h
    | ok st2 =>
      rw [hl] at h
      obtain ⟨a1, a2, a3⟩ := parseLine_keys lower n _ st st2 hl
      obtain ⟨b1, b2, b3⟩ := ih (n + 1) st2 st1 h
      refine ⟨?_, fun hinv => b2 (a2 hinv), fun hinv => b3 (a3 hinv)⟩
      intro k hk
      rcases b1 k hk with hk2 | ⟨l', hl', name, hn, hk'⟩
      · rcases a1 k hk2 with hk3 | ⟨m1, hm1, hk'⟩
        · exact Or.inl hk3
        · exact Or.inr ⟨l, List.mem_cons_self _ _, TrimSpace m1,
            (headerName_eq_some l _).mpr ⟨m1, hm1, rfl⟩, hk'⟩
      · exact Or.inr ⟨l', List.mem_cons_of_mem _ hl', name, hn, hk'⟩

/-- Once a key is in the map, each later header line of the key adds its duplicate
warning, and nothing else adds or removes a duplicate warning of the key. -/
theorem parseLines_warnings (lower : Str → Str) (key : Str) :
    ∀ (ls : List Str) (n : Nat) (st st1 : State), key ∈ st.choreMap →
      parseLines lower n ls st = .ok st1 →
      key ∈ st1.choreMap ∧
      st1.result.Warnings.filter (isDuplicateOf lower key)
        = st.result.Warnings.filter (isDuplicateOf lower key)
          ++ duplicateWarnings lower key n ls := by
  intro ls
  induction ls with
  | nil =>
    intro n st st1 hkey h
    simp only [parseLines] at h
    cases h
    exact ⟨hkey, by simp [duplicateWarnings]⟩
  | cons l ls ih =>
    intro n st st1 hkey h
    simp only [parseLines] at h
    cases hl : parseLine lower n (TrimRightCR l) st with
    | error e => rw [hl] at h; cases h
    | ok st2 =>
      rw [hl] at h
      have hstep : key ∈ st2.choreMap ∧
          st2.result.Warnings.filter (isDuplicateOf lower key)
            = st.result.Warnings.filter (isDuplicateOf lower key) ++
              (match headerName l with
                | some name => if lower name = key then [Warning.duplicate n name] else []
                | none => []) := by
        rcases parseLine_cases lower n _ st st2 hl with
          ⟨m1, hh, hk, rfl⟩ | ⟨m1, hh, hk, rfl⟩ | ⟨hh, c, tok, rest, c1, hc, h0, hm, hfl, rfl⟩ |
          ⟨hh, hf, rfl⟩
        · refine ⟨hkey, ?_⟩
          rw [(headerName_eq_some l _).mpr ⟨m1, hh, rfl⟩]
          simp only [List.filter_append, flush_Warnings]
          congr 1
          by_cases he : lower (TrimSpace m1) = key
          · simp [isDuplicateOf, he]
          · simp [isDuplicateOf, he]
        · refine ⟨List.mem_cons_of_mem _ hkey, ?_⟩
          have hne : lower (TrimSpace m1) ≠ key := fun he => hk (he ▸ hkey)
          rw [(headerName_eq_some l _).mpr ⟨m1, hh, rfl⟩]
          simp [flush_Warnings, hne]
        · refine ⟨hkey, ?_⟩
          rw [(headerName_eq_none l).mpr hh]
          simp
        · refine ⟨by rw [completionOrDescription_choreMap]; exact hkey, ?_⟩
          rw [(headerName_eq_none l).mpr hh]
          rcases completionOrDescription_Warnings n (TrimRightCR l) st with hW | ⟨d, hW⟩
          · rw [hW]; simp
          · rw [hW]; simp [isDuplicateOf]
      obtain ⟨hk1, hw1⟩ := ih (n + 1) st2 st1 hstep.1 h
      refine ⟨hk1, ?_⟩
      rw [hw1, hstep.2, List.append_assoc]
      congr 1
      simp only [duplicateWarnings]
      cases headerName l with
      | none => rfl
      | some name =>
        simp only
        split <;> rfl

theorem validate_ok (r r1 : ParseResult) (h : validate r = .ok r1) :
    r1 = r ∧ ∀ c ∈ r.Chores, c.FrequencyDays ≠ 0 := by
  unfold validate at h
  cases hf : r.Chores.find? (fun c => c.FrequencyDays == 0) with
  | some c => rw [hf] at h; cases h
  | none =>
    rw [hf] at h
    refine ⟨(Except.ok.inj h).symm, ?_⟩
    intro c hc h0
    have := List.find?_eq_none.mp hf c hc
    simp [h0] at this

theorem validate_of_missing (r : ParseResult) (c : Chore) (hc : c ∈ r.Chores)
    (h0 : c.FrequencyDays = 0) :
    ∃ c1, c1 ∈ r.Chores ∧ c1.FrequencyDays = 0 ∧
      validate r = .error (.noFrequency c1.Line c1.Name) := by
  unfold validate
  cases hf : r.Chores.find? (fun c => c.FrequencyDays == 0) with
  | none =>
    have := List.find?_eq_none.mp hf c hc
    simp [h0] at this
  | some c1 =>
    refine ⟨c1, List.mem_of_find?_eq_some hf, ?_, rfl⟩
    have := List.find?_some hf
    simpa using this

theorem OpenNoFrequency_flush (lower : Str → Str) (name : Str) (line0 : Nat) (st : State)
    (ho : OpenNoFrequency lower name line0 st) :
    ∃ c, st.flush.Chores.filter (hasKey lower (lower name)) = [c] ∧ c.Name = name ∧
      c.Line = line0 ∧ c.FrequencyDays = 0 := by
  obtain ⟨-, hres, c, hc, hname, hline, hfreq⟩ := ho
  refine ⟨(⟨c.Name, c.FrequencyDays, c.FrequencyRaw, c.DurationMinutes, c.DurationRaw,
    TrimSpace (Join st.descLines), c.Line⟩ : Chore), ?_, hname, hline, hfreq⟩
  rw [flush_Chores, hc, List.filter_append, hres]
  simp [hasKey, hname]

/-- The state after the first header line of a key: the chore of that line is open
without a frequency, and no duplicate warning of the key exists. -/
theorem parseLine_first_header (lower : Str → Str) (pre : List Str) (hdr name : Str)
    (st : State) (hpre : parseLines lower 1 pre State.init = .ok st)
    (hhdr : headerName hdr = some name)
    (hfirst : ∀ l ∈ pre, ∀ n, headerName l = some n → lower n ≠ lower name) :
    ∃ st1, parseLine lower (1 + pre.length) (TrimRightCR hdr) st = .ok st1 ∧
      OpenNoFrequency lower name (1 + pre.length) st1 ∧
      st1.result.Warnings.filter (isDuplicateOf lower (lower name)) = [] := by
  obtain ⟨hk, hinv1, hinv2⟩ := parseLines_keys lower pre 1 State.init st hpre
  have hnot : lower name ∉ st.choreMap := by
    intro hmem
    rcases hk _ hmem with h0 | ⟨l, hl, n, hn, hkey⟩
    · simp [State.init] at h0
    · exact hfirst l hl n hn hkey
  have hchores : ∀ c ∈ st.flush.Chores, lower c.Name ∈ st.choreMap :=
    hinv1 (by simp [State.init, State.flush])
  have hwarn : ∀ ln nm, Warning.duplicate ln nm ∈ st.result.Warnings →
      lower nm ∈ st.choreMap := hinv2 (by simp [State.init])
  obtain ⟨m1, hm1, hname⟩ := (headerName_eq_some hdr name).mp hhdr
  subst hname
  refine ⟨_, parseLine_header_new lower _ _ m1 st hm1 hnot, ?_, ?_⟩
  · refine ⟨List.mem_cons_self _ _, ?_, _, rfl, rfl, rfl, rfl⟩
    simp only
    rw [List.filter_eq_nil_iff]
    intro c hc hck
    simp only [hasKey, decide_eq_true_eq] at hck
    exact hnot (hck ▸ hchores c hc)
  · simp only
    rw [flush_Warnings, List.filter_eq_nil_iff]
    intro w hw hd
    cases w with
    | duplicate ln nm =>
      simp only [isDuplicateOf, decide_eq_true_eq] at hd
      exact hnot (hd ▸ hwarn ln nm hw)
    | invalidDate ln d => simp [isDuplicateOf] at hd

/-- C8: when a header line opens a chore (no earlier header bears its lower-cased
name) and no line of the shape of a frequency line stands between it and the next
header line or the end of the input, `Parse` returns an error and no result; when
moreover the loop meets no malformed line and every chore left without a frequency
bears that name, the error is `line <h>: chore <name> has no frequency defined` with
`h` the 1-based number of the header line and the name rendered by `%q`. -/
theorem Parse_missing_frequency (lower quote : Str → Str) (content : Str)
    (pre mid post : List Str) (hdr name : Str)
    (hsplit : Split content = pre ++ hdr :: (mid ++ post))
    (hhdr : headerName hdr = some name)
    (hfirst : ∀ l ∈ pre, ∀ n, headerName l = some n → lower n ≠ lower name)
    (hmid : ∀ x ∈ mid, headerName x = none ∧ frequencyShape x = none)
    (hpost : post = [] ∨ ∃ h2 rest, post = h2 :: rest ∧ headerName h2 ≠ none) :
    (∃ e, Parse lower content = .error e) ∧
    ∀ st, parseLines lower 1 (Split content) State.init = .ok st →
      (∀ c ∈ st.flush.Chores, c.FrequencyDays = 0 → lower c.Name = lower name) →
      Parse lower content = .error (.noFrequency (pre.length + 1) name) ∧
      (ParseError.noFrequency (pre.length + 1) name).text quote =
        "line ".toList ++ natToStr (pre.length + 1) ++ ": chore ".toList ++ quote name
          ++ " has no frequency defined".toList := by
  have main : ∀ st, parseLines lower 1 (Split content) State.init = .ok st →
      ∃ c, st.flush.Chores.filter (hasKey lower (lower name)) = [c] ∧ c.Name = name ∧
        c.Line = 1 + pre.length ∧ c.FrequencyDays = 0 := by
    intro st hrun
    rw [hsplit, parseLines_append] at hrun
    cases hp : parseLines lower 1 pre State.init with
    | error e => rw [hp] at hrun; cases hrun
    | ok st0 =>
      rw [hp] at hrun
      simp only [parseLines] at hrun
      obtain ⟨st1, hst1, ho1, -⟩ := parseLine_first_header lower pre hdr name st0 hp hhdr hfirst
      rw [hst1] at hrun
      simp only at hrun
      rw [parseLines_append] at hrun
      obtain ⟨-, -, c1, hc1, -, -, hf1⟩ := id ho1
      obtain ⟨st2, hst2, hcur2, hres2, hmap2⟩ :=
        parseLines_quiet lower mid (1 + pre.length + 1) st1 ⟨c1, hc1, hf1⟩ hmid
      rw [hst2] at hrun
      simp only at hrun
      have ho2 : OpenNoFrequency lower name (1 + pre.length) st2 := by
        obtain ⟨a, b, c, d, e⟩ := ho1
        exact ⟨hmap2 ▸ a, hres2 ▸ b, c, hcur2 ▸ d, e⟩
      rcases hpost with rfl | ⟨h2, rest, rfl, hh2⟩
      · simp only [parseLines] at hrun
        cases hrun
        exact OpenNoFrequency_flush lower name _ _ ho2
      · simp only [parseLines] at hrun
        cases hl : parseLine lower (1 + pre.length + 1 + mid.length) (TrimRightCR h2) st2 with
        | error e => rw [hl] at hrun; cases hrun
        | ok st3 =>
          rw [hl] at hrun
          simp only at hrun
          rcases parseLine_OpenNoFrequency lower name _ _ _ st2 st3 ho2 hl with
            ⟨-, hs⟩ | ⟨hh, -⟩ | ⟨hh, -⟩
          · exact (parseLines_Settled lower name _ 0 rest _ st3 st hs hrun).2.1
          · exact absurd ((headerName_eq_none h2).mpr hh) hh2
          · exact absurd ((headerName_eq_none h2).mpr hh) hh2
  have hn : 1 + pre.length = pre.length + 1 := Nat.add_comm _ _
  constructor
  · cases hrun : parseLines lower 1 (Split content) State.init with
    | error e => exact ⟨e, by unfold Parse; rw [hrun]⟩
    | ok st =>
      obtain ⟨c, hc, -, -, h0⟩ := main st hrun
      have hmem : c ∈ st.flush.Chores :=
        (List.mem_filter.mp (hc ▸ List.mem_singleton_self c)).1
      obtain ⟨c1, -, -, hv⟩ := validate_of_missing st.flush c hmem h0
      exact ⟨_, by unfold Parse; rw [hrun]; exact hv⟩
  · intro st hrun honly
    obtain ⟨c, hc, hname, hline, h0⟩ := main st hrun
    have hmem : c ∈ st.flush.Chores :=
      (List.mem_filter.mp (hc ▸ List.mem_singleton_self c)).1
    obtain ⟨c1, hc1, h01, hv⟩ := validate_of_missing st.flush c hmem h0
    have hc1f : c1 ∈ st.flush.Chores.filter (hasKey lower (lower name)) :=
      List.mem_filter.mpr ⟨hc1, by simp [hasKey, honly c1 hc1 h01]⟩
    rw [hc] at hc1f
    have hcc : c1 = c := List.mem_singleton.mp hc1f
    subst hcc
    refine ⟨?_, rfl⟩
    unfold Parse
    rw [hrun]
    simp only
    rw [hv, hname, hline, hn]

/-- A use of `Parse_missing_frequency` on the text of the test
`chore_without_frequency`. -/
theorem Parse_missing_frequency_witness :
    Parse asciiLower "## Kitchen\n\nSome description but no frequency.\n".toList
      = .error (.noFrequency 1 "Kitchen".toList) ∧
    (ParseError.noFrequency 1 "Kitchen".toList).text plainQuote
      = "line 1: chore \"Kitchen\" has no frequency defined".toList :=
  ⟨((Parse_missing_frequency asciiLower plainQuote
      "## Kitchen\n\nSome description but no frequency.\n".toList []
      ["".toList, "Some description but no frequency.".toList, "".toList] []
      "## Kitchen".toList "Kitchen".toList (by decide) (by decide) (by simp) (by decide)
      (Or.inl rfl)).2
      ⟨⟨[], [], []⟩, ["kitchen".toList], some ⟨"Kitchen".toList, 0, [], 0, [], [], 1⟩, []⟩
      rfl (by decide)).1,
    by decide⟩

/-! ## Lines that cannot touch a chore -/

theorem flush_Chores_core (st st' : State) (h : st.core = st'.core) :
    st.flush.Chores = st'.flush.Chores := by
  simp only [State.core, Prod.mk.injEq] at h
  obtain ⟨h1, -, h3, h4⟩ := h
  rw [flush_Chores, flush_Chores, h1, h3, h4]

theorem completionOrDescription_core (n : Nat) (line : Str) (st st' : State)
    (h : st.core = st'.core) :
    (completionOrDescription n line st).core = (completionOrDescription n line st').core := by
  simp only [State.core, Prod.mk.injEq] at h
  obtain ⟨h1, h2, h3, h4⟩ := h
  simp only [State.core, Prod.mk.injEq, completionOrDescription_Chores,
    completionOrDescription_choreMap, completionOrDescription_currentChore]
  refine ⟨h1, h2, h3, ?_⟩
  unfold completionOrDescription
  cases completionRegex line with
  | some p =>
    obtain ⟨d, nm⟩ := p
    simp only
    cases parseDate d <;> exact h4
  | none =>
    simp only
    rw [← h3]
    cases st.currentChore with
    | none => exact h4
    | some c =>
      simp only
      split
      · simp only [h4]
      · exact h4

/-- One turn of the loop reads nothing of the completions and the warnings. -/
theorem parseLine_core (lower : Str → Str) (n : Nat) (line : Str) (st st' st1 : State)
    (hcore : st.core = st'.core) (h : parseLine lower n line st = .ok st1) :
    ∃ st1', parseLine lower n line st' = .ok st1' ∧ st1.core = st1'.core := by
  have hflush := flush_Chores_core st st' hcore
  have hc := hcore
  simp only [State.core, Prod.mk.injEq] at hc
  obtain ⟨h1, h2, h3, h4⟩ := hc
  rcases parseLine_cases lower n line st st1 h with
    ⟨m1, hh, hk, rfl⟩ | ⟨m1, hh, hk, rfl⟩ | ⟨hh, c, tok, rest, c1, hcur, h0, hm, hfl, rfl⟩ |
    ⟨hh, hf, rfl⟩
  · refine ⟨_, parseLine_header_dup lower n line m1 st' hh (h2 ▸ hk), ?_⟩
    simp only [State.core, Prod.mk.injEq, and_true]
    exact ⟨hflush, h2⟩
  · refine ⟨_, parseLine_header_new lower n line m1 st' hh (h2 ▸ hk), ?_⟩
    simp only [State.core, Prod.mk.injEq, and_true]
    exact ⟨hflush, by rw [h2]⟩
  · refine ⟨{ st' with currentChore := some c1 }, ?_, ?_⟩
    · rw [parseLine_frequency lower n line tok rest st' c hh (h3 ▸ hcur) h0 hm, hfl]
    · simp only [State.core, Prod.mk.injEq, true_and]
      exact ⟨h1, h2, h4⟩
  · refine ⟨_, parseLine_other lower n line st' hh (fun c hc' => hf c (h3 ▸ hc')), ?_⟩
    exact completionOrDescription_core n line st st' hcore

theorem parseLines_core (lower : Str → Str) :
    ∀ (ls : List Str) (n : Nat) (st st' st1 : State), st.core = st'.core →
      parseLines lower n ls st = .ok st1 →
      ∃ st1', parseLines lower n ls st' = .ok st1' ∧ st1.core = st1'.core := by
  intro ls
  induction ls with
  | nil =>
    intro n st st' st1 hcore h
    simp only [parseLines] at h
    cases h
    exact ⟨st', rfl, hcore⟩
  | cons l ls ih =>
    intro n st st' st1 hcore h
    simp only [parseLines] at h
    cases hl : parseLine lower n (TrimRightCR l) st with
    | error e => rw [hl] at h; cases h
    | ok st2 =>
      rw [hl] at h
      obtain ⟨st2', hl', hcore2⟩ := parseLine_core lower n _ st st' st2 hcore hl
      obtain ⟨st1', h', hcore1⟩ := ih (n + 1) st2 st2' st1 hcore2 h
      refine ⟨st1', ?_, hcore1⟩
      simp only [parseLines, hl']
      exact h'

/-- While no chore is open, lines that are not headers open none. -/
theorem parseLines_closed (lower : Str → Str) :
    ∀ (ls : List Str) (n : Nat) (st st1 : State), st.currentChore = none →
      (∀ x ∈ ls, headerName x = none) → parseLines lower n ls st = .ok st1 →
      st1.currentChore = none := by
  intro ls
  induction ls with
  | nil =>
    intro n st st1 hc _ h
    simp only [parseLines] at h
    cases h
    exact hc
  | cons l ls ih =>
    intro n st st1 hc hq h
    have hstep := parseLine_other lower n (TrimRightCR l) st
      ((headerName_eq_none l).mp (hq l (List.mem_cons_self _ _)))
      (fun c hc' => by rw [hc] at hc'; cases hc')
    simp only [parseLines, hstep] at h
    exact ih (n + 1) _ st1 (by rw [completionOrDescription_currentChore]; exact hc)
      (fun x hx => hq x (List.mem_cons_of_mem _ hx)) h

/-- A line that follows a duplicate header, before the next header, can be replaced by
any line that is not a header: the chores of the result are the same. -/
theorem parseLines_after_duplicate (lower : Str → Str) (front mid back : List Str)
    (dup name l l' : Str) (st0 st : State)
    (hfront : parseLines lower 1 front State.init = .ok st0)
    (hkey : lower name ∈ st0.choreMap)
    (hdup : headerName dup = some name)
    (hmid : ∀ x ∈ mid, headerName x = none)
    (hl : headerName l = none) (hl' : headerName l' = none)
    (hrun : parseLines lower 1 (front ++ dup :: (mid ++ l :: back)) State.init = .ok st) :
    ∃ st', parseLines lower 1 (front ++ dup :: (mid ++ l' :: back)) State.init = .ok st' ∧
      st.core = st'.core := by
  rw [parseLines_append, hfront] at hrun ⊢
  simp only [parseLines] at hrun ⊢
  obtain ⟨m1, hm1, hname⟩ := (headerName_eq_some dup name).mp hdup
  subst hname
  obtain ⟨stD, hD, hDnone⟩ : ∃ stD, parseLine lower (1 + front.length) (TrimRightCR dup) st0
      = .ok stD ∧ stD.currentChore = none :=
    ⟨_, parseLine_header_dup lower _ _ m1 st0 hm1 hkey, rfl⟩
  rw [hD] at hrun ⊢
  simp only at hrun ⊢
  rw [parseLines_append] at hrun ⊢
  cases hm : parseLines lower (1 + front.length + 1) mid stD with
  | error e => rw [hm] at hrun; cases hrun
  | ok st2 =>
    rw [hm] at hrun
    simp only [parseLines] at hrun ⊢
    have hnone : st2.currentChore = none :=
      parseLines_closed lower mid _ _ st2 hDnone hmid hm
    have hs : ∀ x, headerName x = none →
        parseLine lower (1 + front.length + 1 + mid.length) (TrimRightCR x) st2
          = .ok (completionOrDescription (1 + front.length + 1 + mid.length)
              (TrimRightCR x) st2) :=
      fun x hx => parseLine_other lower _ _ st2 ((headerName_eq_none x).mp hx)
        (fun c hc' => by rw [hnone] at hc'; cases hc')
    rw [hs l hl] at hrun
    rw [hs l' hl']
    simp only at hrun ⊢
    apply parseLines_core lower back _ _ _ st _ hrun
    have hd : ∀ x, (completionOrDescription (1 + front.length + 1 + mid.length)
        (TrimRightCR x) st2).core = st2.core := by
      intro x
      simp only [State.core, Prod.mk.injEq, completionOrDescription_Chores,
        completionOrDescription_choreMap, completionOrDescription_currentChore, true_and]
      exact completionOrDescription_descLines _ _ st2
        (fun c hc' => by rw [hnone] at hc'; cases hc')
    rw [hd l, hd l']

/-- C7: on a successful parse, for the first header line of a name (ignoring case):
the result holds exactly one chore of that name; its `Name` and `Line` are those of
this header and its `FrequencyDays` is that of the first frequency line after it (no
header in between); each later header line of the name adds one duplicate warning with
its own 1-based line number, in order, and these are all the duplicate warnings of the
name; and a line that follows such a later header, before the next header, can be
replaced by any line that is not a header without changing any chore. -/
theorem Parse_duplicate_headers (lower : Str → Str) (content : Str) (r : ParseResult)
    (pre post : List Str) (hdr name : Str)
    (hparse : Parse lower content = .ok r)
    (hsplit : Split content = pre ++ hdr :: post)
    (hhdr : headerName hdr = some name)
    (hfirst : ∀ l ∈ pre, ∀ n, headerName l = some n → lower n ≠ lower name) :
    (∃ c, r.Chores.filter (hasKey lower (lower name)) = [c] ∧ c.Name = name ∧
      c.Line = pre.length + 1 ∧
      ∃ b1 l b2 tok rest, post = b1 ++ l :: b2 ∧
        (∀ x ∈ b1, headerName x = none ∧ frequencyShape x = none) ∧
        headerName l = none ∧ frequencyShape l = some (tok, rest) ∧
        (ParseFrequency tok).err = none ∧ c.FrequencyDays = (ParseFrequency tok).days) ∧
    r.Warnings.filter (isDuplicateOf lower (lower name))
      = duplicateWarnings lower (lower name) (pre.length + 2) post ∧
    ∀ (post1 mid post2 : List Str) (dup name2 l l' content' : Str),
      post = post1 ++ dup :: (mid ++ l :: post2) →
      headerName dup = some name2 → lower name2 = lower name →
      (∀ x ∈ mid, headerName x = none) → headerName l = none → headerName l' = none →
      Split content' = pre ++ hdr :: (post1 ++ dup :: (mid ++ l' :: post2)) →
      ∃ r', Parse lower content' = .ok r' ∧ r'.Chores = r.Chores := by
  unfold Parse at hparse
  cases hrun : parseLines lower 1 (Split content) State.init with
  | error e => rw [hrun] at hparse; cases hparse
  | ok st =>
    rw [hrun] at hparse
    simp only at hparse
    obtain ⟨hr, hvalid⟩ := validate_ok _ _ hparse
    subst hr
    have hrun0 := hrun
    rw [hsplit, parseLines_append] at hrun
    cases hp : parseLines lower 1 pre State.init with
    | error e => rw [hp] at hrun; cases hrun
    | ok st0 =>
      rw [hp] at hrun
      simp only [parseLines] at hrun
      obtain ⟨st1, hst1, ho1, hw1⟩ := parseLine_first_header lower pre hdr name st0 hp hhdr hfirst
      rw [hst1] at hrun
      simp only at hrun
      have hn : 1 + pre.length = pre.length + 1 := Nat.add_comm _ _
      refine ⟨?_, ?_, ?_⟩
      · rcases parseLines_OpenNoFrequency lower name _ post _ st1 st ho1 hrun with
          ⟨ho, -⟩ | hs | ⟨b1, l, b2, tok, rest, h1, h2, h3, h4, h5, hs⟩
        · obtain ⟨c, hc, -, -, h0⟩ := OpenNoFrequency_flush lower name _ st ho
          have hmem : c ∈ st.flush.Chores :=
            (List.mem_filter.mp (hc ▸ List.mem_singleton_self c)).1
          exact absurd h0 (hvalid c hmem)
        · obtain ⟨-, ⟨c, hc, -, -, h0⟩, -⟩ := hs
          have hmem : c ∈ st.flush.Chores :=
            (List.mem_filter.mp (hc ▸ List.mem_singleton_self c)).1
          exact absurd h0 (hvalid c hmem)
        · obtain ⟨-, ⟨c, hc, hname, hline, hdays⟩, -⟩ := hs
          exact ⟨c, hc, hname, hline.trans hn, b1, l, b2, tok, rest, h1, h2, h3, h4, h5, hdays⟩
      · obtain ⟨-, hw⟩ := parseLines_warnings lower (lower name) post _ st1 st ho1.1 hrun
        rw [flush_Warnings, hw, hw1, List.nil_append]
        have : 1 + pre.length + 1 = pre.length + 2 := by omega
        rw [this]
      · intro post1 mid post2 dup name2 l l' content' hpost hdup hkey2 hmid hl hl' hsplit'
        subst hpost
        rw [parseLines_append] at hrun
        cases hp1 : parseLines lower (1 + pre.length + 1) post1 st1 with
        | error e => rw [hp1] at hrun; cases hrun
        | ok st2 =>
          have hkey : lower name2 ∈ st2.choreMap := by
            rw [hkey2]
            exact (parseLines_warnings lower (lower name) post1 _ st1 st2 ho1.1 hp1).1
          have hfront : parseLines lower 1 (pre ++ hdr :: post1) State.init = .ok st2 := by
            rw [parseLines_append, hp]
            simp only [parseLines, hst1]
            exact hp1
          have hall : parseLines lower 1 ((pre ++ hdr :: post1) ++ dup :: (mid ++ l :: post2))
              State.init = .ok st := by
            rw [← hrun0, hsplit]
            simp
          obtain ⟨st', hrun', hcore⟩ := parseLines_after_duplicate lower (pre ++ hdr :: post1)
            mid post2 dup name2 l l' st2 st hfront hkey hdup hmid hl hl' hall
          have hch : st'.flush.Chores = st.flush.Chores :=
            (flush_Chores_core st st' hcore).symm
          refine ⟨st'.flush, ?_, hch⟩
          unfold Parse
          have hs2 : Split content' = (pre ++ hdr :: post1) ++ dup :: (mid ++ l' :: post2) := by
            rw [hsplit']
            simp
          rw [hs2, hrun']
          simp only
          unfold validate
          have hnone : st'.flush.Chores.find? (fun c => c.FrequencyDays == 0) = none := by
            rw [List.find?_eq_none]
            intro c hc
            rw [hch] at hc
            simpa using hvalid c hc
          rw [hnone]

/-- A use of `Parse_duplicate_headers` on the text of the test `duplicate_chore`: the
second header of `Kitchen` yields the one duplicate warning, of line 4. -/
theorem Parse_duplicate_headers_witness :
    Parse asciiLower "## Kitchen\n> 1w\n\n## Kitchen\n> 2w\n".toList
      = .ok ⟨[⟨"Kitchen".toList, 7, "1w".toList, 0, [], [], 1⟩], [],
          [.duplicate 4 "Kitchen".toList]⟩ ∧
    [Warning.duplicate 4 "Kitchen".toList].filter (isDuplicateOf asciiLower "kitchen".toList)
      = [.duplicate 4 "Kitchen".toList] :=
  ⟨rfl,
    (Parse_duplicate_headers asciiLower "## Kitchen\n> 1w\n\n## Kitchen\n> 2w\n".toList
      ⟨[⟨"Kitchen".toList, 7, "1w".toList, 0, [], [], 1⟩], [], [.duplicate 4 "Kitchen".toList]⟩
      [] ["> 1w".toList, [], "## Kitchen".toList, "> 2w".toList, []] "## Kitchen".toList
      "Kitchen".toList rfl (by decide) (by decide) (by simp)).2.1.trans (by decide)⟩

/-! ## More on `Calculate` -/

/-- C15: a chore without any case-insensitively matching completion (so every chore
when there is no completion at all) gets Status Overdue, `DaysOverdue` equal to
`NeverDoneSentinel` (999999), `DaysUntil = 0` and no `LastDone`, whatever `now` and
the frequency are. -/
theorem Calculate_never_done (lower : Str → Str) (chores : List Chore)
    (completions : List Completion) (now : Time) (i : Nat) (hi : i < chores.length)
    (hno : ∀ c ∈ completions, lower c.ChoreName ≠ lower chores[i].Name) :
    (Calculate lower chores completions now)[i]?
      = some ⟨chores[i], StatusOverdue, NeverDoneSentinel, 0, none⟩ ∧
    StatusOverdue = 0 ∧ NeverDoneSentinel = 999999 := by
  refine ⟨?_, rfl, rfl⟩
  rw [Calculate_getElem? lower chores completions now i hi]
  have hnone : completionMap lower completions (lower chores[i].Name) = none :=
    (foldl_recordCompletion_bounds lower (lower chores[i].Name) completions
      (fun _ => none)).1.mpr ⟨rfl, hno⟩
  rw [hnone]
  rfl

/-- A use of `Calculate_never_done` on the input of the test `never_done`. -/
theorem Calculate_never_done_witness :
    (Calculate asciiLower [⟨"Test".toList, 7, [], 0, [], [], 0⟩] [] (Date 2026 2 10))[0]?
      = some ⟨⟨"Test".toList, 7, [], 0, [], [], 0⟩, 0, 999999, 0, none⟩ :=
  (Calculate_never_done asciiLower [⟨"Test".toList, 7, [], 0, [], [], 0⟩] []
    (Date 2026 2 10) 0 (by decide) (by simp)).1

/-- C17: `Calculate` returns one entry for each chore, in the order of the chores, and
the `Chore` field of the i-th entry is the i-th chore. -/
theorem Calculate_chores (lower : Str → Str) (chores : List Chore)
    (completions : List Completion) (now : Time) :
    (Calculate lower chores completions now).length = chores.length ∧
    (Calculate lower chores completions now).map (fun e => e.Chore) = chores := by
  rw [Calculate_eq_map]
  refine ⟨List.length_map _ _, ?_⟩
  rw [List.map_map]
  conv_rhs => rw [← List.map_id chores]
  apply List.map_congr_left
  intro c _
  exact status_Chore _ _ _

/-- The number of days that `DaysBetween` returns is bounded: a `time.Duration` holds
less than 106752 days. -/
theorem DaysBetween_bounds (start stop : Time) :
    -106751 ≤ DaysBetween start stop ∧ DaysBetween start stop ≤ 106751 := by
  unfold DaysBetween
  have hs : minInt ≤ schedule.Sub (midnightUTC stop) (midnightUTC start) ∧
      schedule.Sub (midnightUTC stop) (midnightUTC start) ≤ maxInt := by
    unfold schedule.Sub minInt maxInt
    split_ifs <;> omega
  generalize schedule.Sub (midnightUTC stop) (midnightUTC start) = x at hs
  unfold minInt maxInt at hs
  unfold nanosPerDay
  by_cases hx : 0 ≤ x
  · rw [Int.tdiv_eq_ediv hx (by decide)]
    omega
  · have h1 : x = -(-x) := by omega
    rw [h1, Int.neg_tdiv, Int.tdiv_eq_ediv (by omega) (by decide)]
    omega

/-- C16 (amended): for a chore with at least one matching completion whose
`FrequencyDays` is an `int` outside the range from -1106750 to -893248 (so for every
frequency that is not negative), the `DaysOverdue` of its entry is never
`NeverDoneSentinel`; hence for such frequencies `DaysOverdue = NeverDoneSentinel`
holds exactly when no completion matches the chore. -/
theorem Calculate_sentinel (lower : Str → Str) (chores : List Chore)
    (completions : List Completion) (now : Time) (i : Nat) (hi : i < chores.length)
    (hint : minInt ≤ chores[i].FrequencyDays ∧ chores[i].FrequencyDays ≤ maxInt)
    (hfreq : chores[i].FrequencyDays < -1106750 ∨ -893248 < chores[i].FrequencyDays) :
    ∃ e, (Calculate lower chores completions now)[i]? = some e ∧
      (e.DaysOverdue = NeverDoneSentinel ↔
        ∀ c ∈ completions, lower c.ChoreName ≠ lower chores[i].Name) := by
  refine ⟨_, Calculate_getElem? lower chores completions now i hi, ?_⟩
  obtain ⟨hnone, -⟩ :=
    foldl_recordCompletion_bounds lower (lower chores[i].Name) completions (fun _ => none)
  cases hmap : completionMap lower completions (lower chores[i].Name) with
  | none =>
    have := (hnone.mp hmap).2
    simp only [status, this]
    exact ⟨fun _ => this, fun _ => trivial⟩
  | some d =>
    have hmatch : ¬ ∀ c ∈ completions, lower c.ChoreName ≠ lower chores[i].Name := by
      intro hall
      have := hnone.mpr ⟨rfl, hall⟩
      unfold completionMap at hmap
      rw [this] at hmap
      cases hmap
    refine ⟨fun h => absurd ?_ (show ¬ False from id), fun h => absurd h hmatch⟩
    obtain ⟨hb1, hb2⟩ := DaysBetween_bounds d now
    unfold minInt maxInt at hint
    unfold status NeverDoneSentinel at h
    simp only at h
    split_ifs at h with h1 h2 h3
    · simp only at h
      unfold wrapInt at h
      omega
    · simp only at h
      omega
    · simp only at h
      omega
    · simp only at h
      omega

/-- A use of `Calculate_sentinel`: frequency 7, done ten days ago: the entry does not
bear the sentinel. -/
theorem Calculate_sentinel_witness :
    ∃ e, (Calculate asciiLower [⟨"Test".toList, 7, [], 0, [], [], 1⟩]
        [⟨Date 2026 1 31, "test".toList, 3⟩] (Date 2026 2 10))[0]? = some e ∧
      e.DaysOverdue ≠ NeverDoneSentinel := by
  obtain ⟨e, h1, h2⟩ :=
    Calculate_sentinel asciiLower [⟨"Test".toList, 7, [], 0, [], [], 1⟩]
      [⟨Date 2026 1 31, "test".toList, 3⟩] (Date 2026 2 10) 0 (by decide)
      (by decide) (by decide)
  refine ⟨e, h1, fun h => ?_⟩
  exact h2.mp h ⟨Date 2026 1 31, "test".toList, 3⟩ (by simp) (by decide)

/-- C16 as stated fails: with the frequency -999999, a chore done today is Overdue by
999999 days, the value of the sentinel, although it has a completion. -/
theorem Calculate_sentinel_counterexample :
    (Calculate asciiLower [⟨"A".toList, -999999, [], 0, [], [], 1⟩]
        [⟨Date 2026 2 10, "A".toList, 3⟩] (Date 2026 2 10))
      = [⟨⟨"A".toList, -999999, [], 0, [], [], 1⟩, StatusOverdue, NeverDoneSentinel, 0,
          some (Date 2026 2 10)⟩] := by
  decide

/-! ## More on `SortByUrgency` -/

/-- The comparison does not read the day counts of DueToday entries. -/
theorem less_dueToday_days (lower : Str → Str) (g h : ChoreStatus → Int) (a b : ChoreStatus) :
    less lower
        (if a.Status = StatusDueToday then { a with DaysOverdue := g a, DaysUntil := h a } else a)
        (if b.Status = StatusDueToday then { b with DaysOverdue := g b, DaysUntil := h b } else b)
      = less lower a b := by
  by_cases ha : a.Status = StatusDueToday <;> by_cases hb : b.Status = StatusDueToday
  · rw [if_pos ha, if_pos hb]
    unfold less StatusDueToday StatusOverdue StatusUpcoming StatusClear at *
    simp [ha, hb]
  · rw [if_pos ha, if_neg hb]
    have hne : a.Status ≠ b.Status := fun he => hb (he ▸ ha)
    unfold less
    simp [hne]
  · rw [if_neg ha, if_pos hb]
    have hne : a.Status ≠ b.Status := fun he => ha (he.symm ▸ hb)
    unfold less
    simp [hne]
  · rw [if_neg ha, if_neg hb]

/-- C18: after `SortByUrgency`, of two Upcoming entries, and of two Clear entries, at
positions `i < j` the earlier one has the smaller or the same `DaysUntil`; and the day
counts of DueToday entries play no part: rewriting `DaysOverdue` and `DaysUntil` of the
DueToday entries in any way before sorting gives the same order as rewriting them
after. -/
theorem SortByUrgency_daysUntil_order (lower : Str → Str) (statuses : List ChoreStatus) :
    (∀ (i j : Nat) (a b : ChoreStatus), i < j →
      (SortByUrgency lower statuses)[i]? = some a →
      (SortByUrgency lower statuses)[j]? = some b →
      a.Status = b.Status → (a.Status = StatusUpcoming ∨ a.Status = StatusClear) →
      a.DaysUntil ≤ b.DaysUntil) ∧
    ∀ g h : ChoreStatus → Int,
      SortByUrgency lower (statuses.map (fun e =>
          if e.Status = StatusDueToday then { e with DaysOverdue := g e, DaysUntil := h e }
          else e))
        = (SortByUrgency lower statuses).map (fun e =>
          if e.Status = StatusDueToday then { e with DaysOverdue := g e, DaysUntil := h e }
          else e) := by
  constructor
  · intro i j a b hij ha hb hs hstat
    have h := SortByUrgency_pair lower statuses i j a b hij ha hb
    rw [less_false_iff, less_iff] at h
    have h0 : a.Status ≠ StatusOverdue := by
      unfold StatusOverdue StatusUpcoming StatusClear at *
      omega
    have hka : sentinelKey a = 0 := by simp [sentinelKey, h0]
    have hkb : sentinelKey b = 0 := by simp [sentinelKey, ← hs, h0]
    have hna : numericKey a = a.DaysUntil := by simp [numericKey, h0, hstat]
    have hnb : numericKey b = b.DaysUntil := by simp [numericKey, ← hs, h0, hstat]
    rw [hka, hkb, hna, hnb] at h
    by_contra hlt
    exact h (Or.inr ⟨hs.symm, Or.inr ⟨rfl, Or.inl (by omega)⟩⟩)
  · intro g h
    unfold SortByUrgency
    symm
    apply List.map_insertionSort
    intro a _ b _
    rw [less_dueToday_days]

/-- A use of `SortByUrgency_daysUntil_order`: two Upcoming entries given in the wrong
order come out by `DaysUntil`. -/
theorem SortByUrgency_daysUntil_order_witness :
    (SortByUrgency asciiLower
        [⟨⟨"A".toList, 0, [], 0, [], [], 0⟩, StatusUpcoming, 0, 5, none⟩,
          ⟨⟨"B".toList, 0, [], 0, [], [], 0⟩, StatusUpcoming, 0, 2, none⟩]).map
        (fun e => e.DaysUntil) = [2, 5] ∧
      (2 : Int) ≤ 5 :=
  ⟨by decide,
    (SortByUrgency_daysUntil_order asciiLower
        [⟨⟨"A".toList, 0, [], 0, [], [], 0⟩, StatusUpcoming, 0, 5, none⟩,
          ⟨⟨"B".toList, 0, [], 0, [], [], 0⟩, StatusUpcoming, 0, 2, none⟩]).1 0 1
      ⟨⟨"B".toList, 0, [], 0, [], [], 0⟩, StatusUpcoming, 0, 2, none⟩
      ⟨⟨"A".toList, 0, [], 0, [], [], 0⟩, StatusUpcoming, 0, 5, none⟩
      (by decide) (by decide) (by decide) rfl (Or.inl rfl)⟩

/-- Entries that tie on every key are not before one another. -/
theorem less_of_tie (lower : Str → Str) (a b : ChoreStatus) (hs : a.Status = b.Status)
    (ho : a.Status = StatusOverdue → a.DaysOverdue = b.DaysOverdue)
    (hu : a.Status = StatusUpcoming ∨ a.Status = StatusClear → a.DaysUntil = b.DaysUntil)
    (hn : lower a.Chore.Name = lower b.Chore.Name) : less lower b a = false := by
  rw [less_false_iff, less_iff]
  have hk1 : sentinelKey b = sentinelKey a := by
    unfold sentinelKey
    rw [← hs]
    by_cases h0 : a.Status = StatusOverdue
    · rw [ho h0]
    · simp [h0]
  have hk2 : numericKey b = numericKey a := by
    unfold numericKey
    rw [← hs]
    by_cases h0 : a.Status = StatusOverdue
    · rw [if_pos h0, if_pos h0, ho h0]
    · rw [if_neg h0, if_neg h0]
      by_cases h1 : a.Status = StatusUpcoming ∨ a.Status = StatusClear
      · rw [if_pos h1, if_pos h1, hu h1]
      · rw [if_neg h1, if_neg h1]
  rw [hk1, hk2, hn, strLess_irrefl]
  simp only [Bool.false_eq_true, and_false, or_false, lt_self_iff_false, false_or]
  omega

/-- C19: the result of `SortByUrgency` is a permutation of its argument, and the sort
is stable: two entries that tie on every key (same status, same secondary numeric key,
same lower-cased name) and stand in the order `a`, `b` in the argument stand in that
order in the result; more generally, entries of the argument none of which is before
an earlier one keep their order. -/
theorem SortByUrgency_stable (lower : Str → Str) (statuses : List ChoreStatus) :
    (SortByUrgency lower statuses).Perm statuses ∧
    (∀ a b : ChoreStatus, [a, b].Sublist statuses → a.Status = b.Status →
      (a.Status = StatusOverdue → a.DaysOverdue = b.DaysOverdue) →
      (a.Status = StatusUpcoming ∨ a.Status = StatusClear → a.DaysUntil = b.DaysUntil) →
      lower a.Chore.Name = lower b.Chore.Name →
      [a, b].Sublist (SortByUrgency lower statuses)) ∧
    ∀ c : List ChoreStatus, c.Sublist statuses →
      c.Pairwise (fun a b => less lower b a = false) →
      c.Sublist (SortByUrgency lower statuses) := by
  refine ⟨SortByUrgency_perm lower statuses, ?_, ?_⟩
  · intro a b hsub hs ho hu hn
    exact List.pair_sublist_insertionSort (less_of_tie lower a b hs ho hu hn) hsub
  · intro c hsub hp
    exact List.sublist_insertionSort hp hsub

/-- A use of `SortByUrgency_stable`: two entries that tie, around a more urgent one,
keep their order. -/
theorem SortByUrgency_stable_witness :
    [(⟨⟨"Same".toList, 1, [], 0, [], [], 1⟩, StatusDueToday, 0, 0, none⟩ : ChoreStatus),
        ⟨⟨"SAME".toList, 2, [], 0, [], [], 2⟩, StatusDueToday, 0, 0, none⟩].Sublist
      (SortByUrgency asciiLower
        [⟨⟨"Same".toList, 1, [], 0, [], [], 1⟩, StatusDueToday, 0, 0, none⟩,
          ⟨⟨"Over".toList, 0, [], 0, [], [], 0⟩, StatusOverdue, 1, 0, none⟩,
          ⟨⟨"SAME".toList, 2, [], 0, [], [], 2⟩, StatusDueToday, 0, 0, none⟩]) :=
  (SortByUrgency_stable asciiLower
    [⟨⟨"Same".toList, 1, [], 0, [], [], 1⟩, StatusDueToday, 0, 0, none⟩,
      ⟨⟨"Over".toList, 0, [], 0, [], [], 0⟩, StatusOverdue, 1, 0, none⟩,
      ⟨⟨"SAME".toList, 2, [], 0, [], [], 2⟩, StatusDueToday, 0, 0, none⟩]).2.1
    ⟨⟨"Same".toList, 1, [], 0, [], [], 1⟩, StatusDueToday, 0, 0, none⟩
    ⟨⟨"SAME".toList, 2, [], 0, [], [], 2⟩, StatusDueToday, 0, 0, none⟩
    (List.Sublist.cons₂ _ (List.Sublist.cons _ (List.Sublist.refl _)))
    rfl (fun h => absurd h (by decide)) (fun h => absurd h (by decide)) (by decide)

/-! ## Completion lines -/

theorem headerRegex_first (line m : Str) (h : headerRegex line = some m) :
    ∃ rest, line = '#' :: rest := by
  unfold headerRegex at h
  split at h
  · rename_i c1 c2 rest
    split at h
    · rename_i hc
      exact ⟨c2 :: rest, by rw [hc.1]⟩
    · cases h
  · cases h

theorem frequencyRegex_first (line : Str) (p : Str × Str)
    (h : parser.frequencyRegex line = some p) : ∃ rest, line = '>' :: rest := by
  unfold parser.frequencyRegex at h
  split at h
  · cases h
  · rename_i c0 rest
    split at h
    · rename_i hc
      exact ⟨rest, by rw [hc]⟩
    · cases h

theorem completionRegex_first (line : Str) (p : Str × Str)
    (h : completionRegex line = some p) : ∃ c rest, line = c :: rest ∧ isDigit c = true := by
  unfold completionRegex at h
  split at h
  · rename_i hshape
    cases line with
    | nil => simp [isDateShape] at hshape
    | cons c rest =>
      refine ⟨c, rest, rfl, ?_⟩
      unfold isDateShape at hshape
      split at hshape
      · rename_i y1 y2 y3 y4 s1 m1 m2 s2 d1 d2 heq
        simp only [List.take_succ_cons, List.cons.injEq] at heq
        simp only [Bool.and_eq_true] at hshape
        rw [heq.1]
        exact hshape.1.1.1.1.1.1.1.1.1
      · cases hshape
  · cases h

theorem completionRegex_of_header (line m : Str) (h : headerRegex line = some m) :
    completionRegex line = none := by
  cases hc : completionRegex line with
  | none => rfl
  | some p =>
    obtain ⟨rest, h1⟩ := headerRegex_first line m h
    obtain ⟨c, rest2, h2, hd⟩ := completionRegex_first line p hc
    rw [h1] at h2
    simp only [List.cons.injEq] at h2
    rw [← h2.1] at hd
    exact absurd hd (by decide)

theorem completionRegex_of_frequency (line : Str) (q : Str × Str)
    (h : parser.frequencyRegex line = some q) : completionRegex line = none := by
  cases hc : completionRegex line with
  | none => rfl
  | some p =>
    obtain ⟨rest, h1⟩ := frequencyRegex_first line q h
    obtain ⟨c, rest2, h2, hd⟩ := completionRegex_first line p hc
    rw [h1] at h2
    simp only [List.cons.injEq] at h2
    rw [← h2.1] at hd
    exact absurd hd (by decide)

/-- What the last two steps of the loop body add to the completions and to the
warnings only depends on the line. -/
theorem completionOrDescription_added (n : Nat) (l : Str) :
    ∃ dW : List Warning, ∀ st : State,
      (completionOrDescription n (TrimRightCR l) st).result.Completions
        = st.result.Completions ++ (completionOfLine n l).toList ∧
      (completionOrDescription n (TrimRightCR l) st).result.Warnings
        = st.result.Warnings ++ dW := by
  unfold completionOrDescription completionOfLine
  cases completionRegex (TrimRightCR l) with
  | none =>
    refine ⟨[], fun st => ?_⟩
    simp only [Option.toList, List.append_nil]
    cases st.currentChore with
    | none => exact ⟨rfl, rfl⟩
    | some c =>
      simp only
      split <;> exact ⟨rfl, rfl⟩
  | some p =>
    obtain ⟨d, g⟩ := p
    simp only
    cases parseDate d with
    | none => exact ⟨[.invalidDate n d], fun st => ⟨by simp [Option.toList], rfl⟩⟩
    | some date => exact ⟨[], fun st => ⟨by simp [Option.toList], by simp⟩⟩

/-- The loop adds to the completions those that its lines stand for, whatever the
state. -/
theorem parseLines_Completions (lower : Str → Str) :
    ∀ (ls : List Str) (n : Nat) (st st1 : State), parseLines lower n ls st = .ok st1 →
      st1.result.Completions = st.result.Completions ++ completionsOf n ls := by
  intro ls
  induction ls with
  | nil =>
    intro n st st1 h
    simp only [parseLines] at h
    cases h
    simp [completionsOf]
  | cons l ls ih =>
    intro n st st1 h
    simp only [parseLines] at h
    cases hl : parseLine lower n (TrimRightCR l) st with
    | error e => rw [hl] at h; cases h
    | ok st2 =>
      rw [hl] at h
      have hstep : st2.result.Completions
          = st.result.Completions ++ (completionOfLine n l).toList := by
        rcases parseLine_cases lower n _ st st2 hl with
          ⟨m1, hh, hk, rfl⟩ | ⟨m1, hh, hk, rfl⟩ | ⟨hh, c, tok, rest, c1, hc, h0, hm, hfl, rfl⟩ |
          ⟨hh, hf, rfl⟩
        · simp [completionOfLine, completionRegex_of_header _ m1 hh, flush_Completions]
        · simp [completionOfLine, completionRegex_of_header _ m1 hh, flush_Completions]
        · simp [completionOfLine, completionRegex_of_frequency _ _ hm]
        · obtain ⟨dW, hd⟩ := completionOrDescription_added n l
          exact (hd st).1
      rw [ih (n + 1) st2 st1 h, hstep, List.append_assoc]
      congr 1
      simp only [completionsOf]
      cases completionOfLine n l <;> rfl

theorem completionsOf_mem : ∀ (ls : List Str) (n : Nat) (c : Completion),
    c ∈ completionsOf n ls → ∃ i l, ls[i]? = some l ∧ completionOfLine (n + i) l = some c := by
  intro ls
  induction ls with
  | nil => intro n c hc; simp [completionsOf] at hc
  | cons l ls ih =>
    intro n c hc
    simp only [completionsOf] at hc
    have hrest : c ∈ completionsOf (n + 1) ls →
        ∃ i l', (l :: ls)[i]? = some l' ∧ completionOfLine (n + i) l' = some c := by
      intro hc'
      obtain ⟨i, l', hl', hk⟩ := ih (n + 1) c hc'
      refine ⟨i + 1, l', by simpa using hl', ?_⟩
      have : n + (i + 1) = n + 1 + i := by omega
      rw [this]
      exact hk
    cases hl : completionOfLine n l with
    | none =>
      rw [hl] at hc
      exact hrest hc
    | some c' =>
      rw [hl] at hc
      rcases List.mem_cons.mp hc with rfl | hc
      · exact ⟨0, l, by simp, hl⟩
      · exact hrest hc

theorem completionOfLine_some (n : Nat) (l : Str) (c : Completion)
    (h : completionOfLine n l = some c) :
    ∃ dateStr name, completionRegex (TrimRightCR l) = some (dateStr, name) ∧
      c.Line = n ∧ c.ChoreName = TrimSpace name ∧
      c.Date = Date (digitsVal (dateStr.take 4)) (digitsVal ((dateStr.drop 5).take 2))
        (digitsVal ((dateStr.drop 8).take 2)) ∧
      1 ≤ digitsVal ((dateStr.drop 5).take 2) ∧ digitsVal ((dateStr.drop 5).take 2) ≤ 12 ∧
      1 ≤ digitsVal ((dateStr.drop 8).take 2) ∧
      digitsVal ((dateStr.drop 8).take 2)
        ≤ daysIn (digitsVal ((dateStr.drop 5).take 2)) (digitsVal (dateStr.take 4)) := by
  unfold completionOfLine at h
  cases hc : completionRegex (TrimRightCR l) with
  | none => rw [hc] at h; cases h
  | some p =>
    obtain ⟨d, g⟩ := p
    rw [hc] at h
    simp only at h
    cases hd : parseDate d with
    | none => rw [hd] at h; cases h
    | some date =>
      rw [hd] at h
      simp only [Option.some.injEq] at h
      subst h
      unfold parseDate at hd
      simp only at hd
      split at hd
      · rename_i hv
        simp only [Option.some.injEq] at hd
        exact ⟨d, g, rfl, rfl, rfl, hd.symm, hv.1, hv.2.1, hv.2.2.1, hv.2.2.2⟩
      · cases hd

/-- C13: on a successful parse the completions of the result are, in the order of the
lines, one for each line that has the shape of a completion line and a valid calendar
date, whatever comes before or after it; each has the 1-based number of its line, the
midnight UTC of its date, and the name as the line writes it (trimmed, without the
trailing comment). -/
theorem Parse_completions (lower : Str → Str) (content : Str) (r : ParseResult)
    (hparse : Parse lower content = .ok r) :
    r.Completions = completionsOf 1 (Split content) ∧
    ∀ c ∈ r.Completions, ∃ l dateStr name,
      (Split content)[c.Line - 1]? = some l ∧ 1 ≤ c.Line ∧
      completionRegex (TrimRightCR l) = some (dateStr, name) ∧
      c.ChoreName = TrimSpace name ∧
      c.Date = Date (digitsVal (dateStr.take 4)) (digitsVal ((dateStr.drop 5).take 2))
        (digitsVal ((dateStr.drop 8).take 2)) ∧
      c.Date.offset = 0 ∧
      1 ≤ digitsVal ((dateStr.drop 5).take 2) ∧ digitsVal ((dateStr.drop 5).take 2) ≤ 12 ∧
      1 ≤ digitsVal ((dateStr.drop 8).take 2) ∧
      digitsVal ((dateStr.drop 8).take 2)
        ≤ daysIn (digitsVal ((dateStr.drop 5).take 2)) (digitsVal (dateStr.take 4)) := by
  unfold Parse at hparse
  cases hrun : parseLines lower 1 (Split content) State.init with
  | error e => rw [hrun] at hparse; cases hparse
  | ok st =>
    rw [hrun] at hparse
    simp only at hparse
    obtain ⟨hr, -⟩ := validate_ok _ _ hparse
    subst hr
    have hC : st.flush.Completions = completionsOf 1 (Split content) := by
      rw [flush_Completions, parseLines_Completions lower _ 1 State.init st hrun]
      rfl
    refine ⟨hC, ?_⟩
    intro c hc
    rw [hC] at hc
    obtain ⟨i, l, hl, hk⟩ := completionsOf_mem _ 1 c hc
    obtain ⟨d, g, h1, h2, h3, h4, h5, h6, h7, h8⟩ := completionOfLine_some _ l c hk
    refine ⟨l, d, g, ?_, by omega, h1, h3, h4, ?_, h5, h6, h7, h8⟩
    · rw [h2]
      have : 1 + i - 1 = i := by omega
      rw [this]
      exact hl
    · rw [h4]
      rfl

/-- A use of `Parse_completions` on the text of the test
`completion_before_definition`: the completion stands before the chore. -/
theorem Parse_completions_witness :
    Parse asciiLower "# Log\n2026-02-03 Kitchen\n\n# Chores\n## Kitchen\n> 1w\n".toList
      = .ok ⟨[⟨"Kitchen".toList, 7, "1w".toList, 0, [], [], 5⟩],
          [⟨Date 2026 2 3, "Kitchen".toList, 2⟩], []⟩ ∧
    [(⟨Date 2026 2 3, "Kitchen".toList, 2⟩ : Completion)]
      = completionsOf 1
          (Split "# Log\n2026-02-03 Kitchen\n\n# Chores\n## Kitchen\n> 1w\n".toList) :=
  ⟨rfl,
    (Parse_completions asciiLower
      "# Log\n2026-02-03 Kitchen\n\n# Chores\n## Kitchen\n> 1w\n".toList
      ⟨[⟨"Kitchen".toList, 7, "1w".toList, 0, [], [], 5⟩],
        [⟨Date 2026 2 3, "Kitchen".toList, 2⟩], []⟩ rfl).1⟩

/-! ## The name of a completion line -/

theorem commentTail_false_head (c : Char) (cs : Str) (h : commentTail (c :: cs) = false) :
    c ≠ '#' := by
  intro hc
  subst hc
  have : commentTail ('#' :: cs) = true := by
    unfold commentTail
    simp [List.dropWhile, isReSpace]
  rw [this] at h
  cases h

/-- The lazy capture holds no `#` when no comment starts right at its beginning. -/
theorem lazyName_no_hash : ∀ r : Str, commentTail r = false → '#' ∉ lazyName r := by
  intro r
  induction r with
  | nil => intro h; simp [commentTail] at h
  | cons c cs ih =>
    intro h
    have hc := commentTail_false_head c cs h
    simp only [lazyName]
    by_cases ht : commentTail cs = true
    · rw [if_pos ht]
      simpa using hc.symm
    · rw [if_neg ht]
      simp only [List.mem_cons, not_or]
      exact ⟨hc.symm, ih (by simpa using ht)⟩

/-- The lazy capture holds no `#` after its first character. -/
theorem lazyName_tail : ∀ r : Str, '#' ∉ (lazyName r).tail := by
  intro r
  cases r with
  | nil => simp [lazyName]
  | cons c cs =>
    simp only [lazyName]
    by_cases ht : commentTail cs = true
    · rw [if_pos ht]; simp
    · rw [if_neg ht]
      exact lazyName_no_hash cs (by simpa using ht)

/-- The lazy capture is a beginning of the text, and a comment, or nothing, follows
it. -/
theorem lazyName_split : ∀ r : Str, r ≠ [] →
    ∃ tail, r = lazyName r ++ tail ∧ commentTail tail = true ∧ lazyName r ≠ [] := by
  intro r
  induction r with
  | nil => intro h; exact absurd rfl h
  | cons c cs ih =>
    intro _
    simp only [lazyName]
    by_cases ht : commentTail cs = true
    · rw [if_pos ht]
      exact ⟨cs, rfl, ht, by simp⟩
    · rw [if_neg ht]
      have hne : cs ≠ [] := by
        intro he
        subst he
        exact ht rfl
      obtain ⟨tail, h1, h2, -⟩ := ih hne
      refine ⟨tail, ?_, h2, by simp⟩
      rw [List.cons_append, ← h1]

theorem rightTrim_split (p : Char → Bool) (l : Str) :
    ∃ s, l = (l.reverse.dropWhile p).reverse ++ s := by
  refine ⟨(l.reverse.takeWhile p).reverse, ?_⟩
  rw [← List.reverse_append, List.takeWhile_append_dropWhile, List.reverse_reverse]

theorem dropWhile_mem {α : Type} (p : α → Bool) (l : List α) (x : α)
    (h : x ∈ l.dropWhile p) : x ∈ l :=
  (List.dropWhile_sublist p).subset h

/-- Trimming keeps a text free of `#` after its first character so. -/
theorem TrimSpace_tail (g : Str) (h : '#' ∉ g.tail) : '#' ∉ (TrimSpace g).tail := by
  have h1 : '#' ∉ (g.dropWhile isSpace).tail := by
    cases g with
    | nil => simp
    | cons x xs =>
      simp only [List.tail_cons] at h
      simp only [List.dropWhile]
      cases hx : isSpace x with
      | true =>
        simp only
        intro hm
        exact h (dropWhile_mem _ _ _ (List.mem_of_mem_tail hm))
      | false => simpa using h
  unfold TrimSpace
  obtain ⟨s, hs⟩ := rightTrim_split isSpace (g.dropWhile isSpace)
  generalize ((g.dropWhile isSpace).reverse.dropWhile isSpace).reverse = t at hs
  rw [hs] at h1
  cases t with
  | nil => simp
  | cons y ys =>
    simp only [List.cons_append, List.tail_cons, List.mem_append, not_or] at h1
    simpa using h1.1

/-- The captures of a completion line cut it in four: the date, blanks, the name, and
nothing or a comment with the blanks before it; the name holds no `#` after its first
character. -/
theorem completionRegex_split (line d g : Str) (h : completionRegex line = some (d, g)) :
    ∃ ws tail, line = d ++ ws ++ g ++ tail ∧ d.length = 10 ∧ ws ≠ [] ∧
      (∀ c ∈ ws, isReSpace c = true) ∧ g ≠ [] ∧ commentTail tail = true ∧
      '#' ∉ g.tail := by
  unfold completionRegex at h
  split at h
  · rename_i hshape
    have hlen : (line.take 10).length = 10 := by
      unfold isDateShape at hshape
      split at hshape
      · rename_i heq
        rw [heq]
        rfl
      · cases hshape
    have hline : line = line.take 10 ++ line.drop 10 := (List.take_append_drop 10 line).symm
    split at h
    · cases h
    · rename_i c rem hdrop
      split at h
      · rename_i hc
        rw [hdrop] at hline
        have hsp : c :: rem = (c :: rem).takeWhile isReSpace ++ (c :: rem).dropWhile isReSpace :=
          (List.takeWhile_append_dropWhile isReSpace (c :: rem)).symm
        split at h
        · rename_i hne
          simp only [Option.some.injEq, Prod.mk.injEq] at h
          obtain ⟨hd, hg⟩ := h
          obtain ⟨tail, ht1, ht2, ht3⟩ := lazyName_split _ hne
          refine ⟨(c :: rem).takeWhile isReSpace, tail, ?_, ?_, ?_, ?_, ?_, ht2, ?_⟩
          · rw [← hd, ← hg, List.append_assoc, List.append_assoc, ← ht1, ← hsp]
            exact hline
          · rw [← hd]; exact hlen
          · simp [List.takeWhile, hc]
          · intro x hx
            exact List.mem_takeWhile_imp hx
          · rw [← hg]; exact ht3
          · rw [← hg]; exact lazyName_tail _
        · rename_i hall
          split at h
          · rename_i hlen2
            simp only [Option.some.injEq, Prod.mk.injEq] at h
            obtain ⟨hd, hg⟩ := h
            have hallsp : ∀ x ∈ c :: rem, isReSpace x = true := by
              have := List.dropWhile_eq_nil_iff.mp (not_not.mp hall)
              exact this
            have hgl : g.length = 1 := by
              rw [← hg, List.length_drop]
              omega
            refine ⟨(c :: rem).take ((c :: rem).length - 1), [], ?_, ?_, ?_, ?_, ?_, rfl, ?_⟩
            · rw [← hd, ← hg, List.append_nil, List.append_assoc, List.take_append_drop]
              exact hline
            · rw [← hd]; exact hlen
            · intro he
              have := congrArg List.length he
              rw [List.length_take] at this
              simp only [List.length_nil] at this
              omega
            · intro x hx
              exact hallsp x (List.mem_of_mem_take hx)
            · intro he
              rw [he] at hgl
              cases hgl
            · cases g with
              | nil => simp
              | cons y ys =>
                simp only [List.length_cons] at hgl
                have : ys = [] := List.length_eq_zero.mp (by omega)
                simp [this]
          · cases h
      · cases h
  · cases h

/-- What `completionRegex` does guarantee: on a successful parse no completion has a
`#` in its `ChoreName` anywhere but in first position. The line of a completion is its
date, blanks, a text, and nothing or a comment (blanks and `#`); `ChoreName` is the
text, trimmed. The text is never empty, so a `#` right after the date and the blanks
stays in the name. -/
theorem Parse_completion_names (lower : Str → Str) (content : Str) (r : ParseResult)
    (hparse : Parse lower content = .ok r) :
    ∀ c ∈ r.Completions, '#' ∉ c.ChoreName.tail ∧
      ∃ l d ws g tail, (Split content)[c.Line - 1]? = some l ∧
        TrimRightCR l = d ++ ws ++ g ++ tail ∧ d.length = 10 ∧ ws ≠ [] ∧
        (∀ x ∈ ws, isReSpace x = true) ∧ g ≠ [] ∧ commentTail tail = true ∧
        '#' ∉ g.tail ∧ c.ChoreName = TrimSpace g := by
  intro c hc
  obtain ⟨-, hall⟩ := Parse_completions lower content r hparse
  obtain ⟨l, d, g, hl, -, hreg, hname, -⟩ := hall c hc
  obtain ⟨ws, tail, h1, h2, h3, h4, h5, h6, h7⟩ := completionRegex_split _ d g hreg
  refine ⟨?_, l, d, ws, g, tail, hl, h1, h2, h3, h4, h5, h6, h7, hname⟩
  rw [hname]
  exact TrimSpace_tail g h7

/-- A use of `Parse_completion_names` on the text of the test
`completion_with_comment`. -/
theorem Parse_completion_names_witness :
    Parse asciiLower "## Kitchen\n> 1w\n\n2026-02-03 Kitchen # after dinner\n".toList
      = .ok ⟨[⟨"Kitchen".toList, 7, "1w".toList, 0, [], [], 1⟩],
          [⟨Date 2026 2 3, "Kitchen".toList, 4⟩], []⟩ ∧
    '#' ∉ "Kitchen".toList.tail :=
  ⟨rfl,
    ((Parse_completion_names asciiLower
      "## Kitchen\n> 1w\n\n2026-02-03 Kitchen # after dinner\n".toList
      ⟨[⟨"Kitchen".toList, 7, "1w".toList, 0, [], [], 1⟩],
        [⟨Date 2026 2 3, "Kitchen".toList, 4⟩], []⟩ rfl)
      ⟨Date 2026 2 3, "Kitchen".toList, 4⟩ (by simp)).1⟩

/-- C12 fails on the code when the comment directly follows the date: the group
`(.+?)` of `completionRegex` takes at least one character, so on the line
`2026-02-03 # note` the whole comment becomes the `ChoreName`, and on
`2026-02-03 #5 Kitchen` the name is `#5 Kitchen`; both names hold the `#` that the
test `comments_stripped` forbids. -/
theorem Parse_completion_hash :
    (Parse asciiLower "2026-02-03 # note".toList
        = .ok ⟨[], [⟨Date 2026 2 3, "# note".toList, 1⟩], []⟩ ∧
      '#' ∈ "# note".toList) ∧
    (Parse asciiLower "2026-02-03 #5 Kitchen".toList
        = .ok ⟨[], [⟨Date 2026 2 3, "#5 Kitchen".toList, 1⟩], []⟩ ∧
      '#' ∈ "#5 Kitchen".toList) ∧
    Parse asciiLower "## Kitchen\n> 1w\n2026-02-03 # Kitchen\n".toList
      = .ok ⟨[⟨"Kitchen".toList, 7, "1w".toList, 0, [], [], 1⟩],
          [⟨Date 2026 2 3, "# Kitchen".toList, 3⟩], []⟩ :=
  ⟨⟨rfl, by decide⟩, ⟨rfl, by decide⟩, rfl⟩

/-! ## Lines with an invalid date -/

/-- A turn of the loop that fails fails the same from any state with the same chores,
map, open chore and description lines. -/
theorem parseLine_error_core (lower : Str → Str) (n : Nat) (line : Str) (st st' : State)
    (e : ParseError) (hcore : st.core = st'.core) (h : parseLine lower n line st = .error e) :
    parseLine lower n line st' = .error e := by
  have hc := hcore
  simp only [State.core, Prod.mk.injEq] at hc
  obtain ⟨-, h2, h3, -⟩ := hc
  cases hh : headerRegex line with
  | some m1 =>
    by_cases hk : lower (TrimSpace m1) ∈ st.choreMap
    · rw [parseLine_header_dup lower n line m1 st hh hk] at h; cases h
    · rw [parseLine_header_new lower n line m1 st hh hk] at h; cases h
  | none =>
    by_cases hf : ∀ c, st.currentChore = some c → c.FrequencyDays = 0 →
        parser.frequencyRegex line = none
    · rw [parseLine_other lower n line st hh hf] at h; cases h
    · push_neg at hf
      obtain ⟨c, hc, h0, hm⟩ := hf
      cases hm2 : parser.frequencyRegex line with
      | none => exact absurd hm2 hm
      | some p =>
        obtain ⟨tok, rest⟩ := p
        rw [parseLine_frequency lower n line tok rest st c hh hc h0 hm2] at h
        rw [parseLine_frequency lower n line tok rest st' c hh (h3 ▸ hc) h0 hm2]
        cases hfl : frequencyLine n tok rest c with
        | error e1 =>
          rw [hfl] at h
          exact h
        | ok c1 =>
          rw [hfl] at h
          cases h

/-- A turn of the loop adds the same completions and the same warnings from any state
with the same chores, map, open chore and description lines. -/
theorem parseLine_added (lower : Str → Str) (n : Nat) (l : Str) (st st' st1 : State)
    (hcore : st.core = st'.core) (h : parseLine lower n (TrimRightCR l) st = .ok st1) :
    ∃ st1' dC dW, parseLine lower n (TrimRightCR l) st' = .ok st1' ∧ st1.core = st1'.core ∧
      st1.result.Completions = st.result.Completions ++ dC ∧
      st1'.result.Completions = st'.result.Completions ++ dC ∧
      st1.result.Warnings = st.result.Warnings ++ dW ∧
      st1'.result.Warnings = st'.result.Warnings ++ dW := by
  have hflush := flush_Chores_core st st' hcore
  have hc := hcore
  simp only [State.core, Prod.mk.injEq] at hc
  obtain ⟨h1, h2, h3, h4⟩ := hc
  rcases parseLine_cases lower n _ st st1 h with
    ⟨m1, hh, hk, rfl⟩ | ⟨m1, hh, hk, rfl⟩ | ⟨hh, c, tok, rest, c1, hcur, h0, hm, hfl, rfl⟩ |
    ⟨hh, hf, rfl⟩
  · refine ⟨_, [], [.duplicate n (TrimSpace m1)],
      parseLine_header_dup lower n _ m1 st' hh (h2 ▸ hk), ?_, ?_, ?_, ?_, ?_⟩
    · simp only [State.core, Prod.mk.injEq, and_true]
      exact ⟨hflush, h2⟩
    · simp [flush_Completions]
    · simp [flush_Completions]
    · simp [flush_Warnings]
    · simp [flush_Warnings]
  · refine ⟨_, [], [], parseLine_header_new lower n _ m1 st' hh (h2 ▸ hk), ?_, ?_, ?_, ?_, ?_⟩
    · simp only [State.core, Prod.mk.injEq, and_true]
      exact ⟨hflush, by rw [h2]⟩
    · simp [flush_Completions]
    · simp [flush_Completions]
    · simp [flush_Warnings]
    · simp [flush_Warnings]
  · refine ⟨{ st' with currentChore := some c1 }, [], [], ?_, ?_, by simp, by simp, by simp,
      by simp⟩
    · rw [parseLine_frequency lower n _ tok rest st' c hh (h3 ▸ hcur) h0 hm, hfl]
    · simp only [State.core, Prod.mk.injEq, true_and]
      exact ⟨h1, h2, h4⟩
  · obtain ⟨dW, hd⟩ := completionOrDescription_added n l
    refine ⟨_, (completionOfLine n l).toList, dW,
      parseLine_other lower n _ st' hh (fun c hc' => hf c (h3 ▸ hc')),
      completionOrDescription_core n _ st st' hcore, (hd st).1, (hd st').1, (hd st).2,
      (hd st').2⟩

/-- The loop fails the same, or goes on to the same chores and adds the same
completions and warnings, from any two states with the same chores, map, open chore
and description lines. -/
theorem parseLines_added (lower : Str → Str) :
    ∀ (ls : List Str) (n : Nat) (st st' : State), st.core = st'.core →
      (∀ e, parseLines lower n ls st = .error e → parseLines lower n ls st' = .error e) ∧
      ∀ st1, parseLines lower n ls st = .ok st1 →
        ∃ st1' dC dW, parseLines lower n ls st' = .ok st1' ∧ st1.core = st1'.core ∧
          st1.result.Completions = st.result.Completions ++ dC ∧
          st1'.result.Completions = st'.result.Completions ++ dC ∧
          st1.result.Warnings = st.result.Warnings ++ dW ∧
          st1'.result.Warnings = st'.result.Warnings ++ dW := by
  intro ls
  induction ls with
  | nil =>
    intro n st st' hcore
    refine ⟨fun e h => by simp [parseLines] at h, ?_⟩
    intro st1 h
    simp only [parseLines] at h
    cases h
    exact ⟨st', [], [], rfl, hcore, by simp, by simp, by simp, by simp⟩
  | cons l ls ih =>
    intro n st st' hcore
    cases hl : parseLine lower n (TrimRightCR l) st with
    | error e0 =>
      have hl' := parseLine_error_core lower n _ st st' e0 hcore hl
      constructor
      · intro e h
        simp only [parseLines, hl] at h
        simp only [parseLines, hl']
        exact h
      · intro st1 h
        simp only [parseLines, hl] at h
        cases h
    | ok st2 =>
      obtain ⟨st2', dC, dW, hl', hcore2, a1, a2, a3, a4⟩ :=
        parseLine_added lower n l st st' st2 hcore hl
      obtain ⟨ihe, iho⟩ := ih (n + 1) st2 st2' hcore2
      constructor
      · intro e h
        simp only [parseLines, hl] at h
        simp only [parseLines, hl']
        exact ihe e h
      · intro st1 h
        simp only [parseLines, hl] at h
        obtain ⟨st1', dC2, dW2, hrun, hcore1, b1, b2, b3, b4⟩ := iho st1 h
        refine ⟨st1', dC ++ dC2, dW ++ dW2, ?_, hcore1, ?_, ?_, ?_, ?_⟩
        · simp only [parseLines, hl']
          exact hrun
        · rw [b1, a1, List.append_assoc]
        · rw [b2, a2, List.append_assoc]
        · rw [b3, a3, List.append_assoc]
        · rw [b4, a4, List.append_assoc]

theorem parseLine_empty (lower : Str → Str) (n : Nat) (st : State) :
    parseLine lower n (TrimRightCR []) st = .ok st := by
  have h : parseLine lower n (TrimRightCR []) st
      = .ok (completionOrDescription n (TrimRightCR []) st) :=
    parseLine_other lower n _ st rfl (fun _ _ _ => rfl)
  rw [h]
  congr 1
  unfold completionOrDescription
  have hreg : completionRegex (TrimRightCR []) = none := rfl
  rw [hreg]
  simp only
  cases st.currentChore with
  | none => rfl
  | some c =>
    simp only
    have ht : TrimSpace (TrimRightCR []) = [] := rfl
    rw [if_neg (fun hx => hx.2 ht)]

theorem parseLine_invalid_date (lower : Str → Str) (n : Nat) (line dateStr name : Str)
    (st : State) (hshape : completionRegex line = some (dateStr, name))
    (hdate : parseDate dateStr = none) :
    parseLine lower n line st =
      .ok { st with result := { st.result with
              Warnings := st.result.Warnings ++ [.invalidDate n dateStr] } } := by
  have hh : headerRegex line = none := by
    cases hx : headerRegex line with
    | none => rfl
    | some m =>
      rw [completionRegex_of_header line m hx] at hshape
      cases hshape
  have hf : parser.frequencyRegex line = none := by
    cases hx : parser.frequencyRegex line with
    | none => rfl
    | some q =>
      rw [completionRegex_of_frequency line q hx] at hshape
      cases hshape
  rw [parseLine_other lower n line st hh (fun _ _ _ => hf)]
  unfold completionOrDescription
  rw [hshape]
  simp only [hdate]

theorem validate_core (r r' : ParseResult) (h : r.Chores = r'.Chores) :
    (∀ e, validate r = .error e → validate r' = .error e) ∧
    (∀ r1, validate r = .ok r1 → validate r' = .ok r') := by
  unfold validate
  rw [h]
  cases hf : r'.Chores.find? (fun c => c.FrequencyDays == 0) with
  | some c =>
    constructor
    · intro e he
      exact he
    · intro r1 hr
      cases hr
  | none =>
    constructor
    · intro e he
      cases he
    · intro r1 _
      rfl

/-- C14: a line of the shape of a completion line whose date is not a calendar date
never makes `Parse` fail: `Parse` fails exactly as it does with an empty line in its
place, and otherwise returns the same chores and completions, hence no completion and
no description text from that line, and the same warnings with one more in between,
`line <n>: invalid date <date>, skipping` with `n` the 1-based number of the line and
the date rendered by `%q`. -/
theorem Parse_invalid_date (lower quote : Str → Str) (content content' : Str)
    (pre post : List Str) (l dateStr name : Str)
    (hsplit : Split content = pre ++ l :: post)
    (hsplit' : Split content' = pre ++ [] :: post)
    (hshape : completionRegex (TrimRightCR l) = some (dateStr, name))
    (hdate : parseDate dateStr = none) :
    (∀ e, Parse lower content' = .error e → Parse lower content = .error e) ∧
    (∀ r', Parse lower content' = .ok r' →
      ∃ r w1 w2, Parse lower content = .ok r ∧ r.Chores = r'.Chores ∧
        r.Completions = r'.Completions ∧ r'.Warnings = w1 ++ w2 ∧
        r.Warnings = w1 ++ Warning.invalidDate (pre.length + 1) dateStr :: w2) ∧
    (Warning.invalidDate (pre.length + 1) dateStr).text quote
      = "line ".toList ++ natToStr (pre.length + 1) ++ ": invalid date ".toList
        ++ quote dateStr ++ ", skipping".toList := by
  have hn : 1 + pre.length = pre.length + 1 := Nat.add_comm _ _
  have hrun : parseLines lower 1 (Split content) State.init =
      match parseLines lower 1 pre State.init with
      | .error e => .error e
      | .ok st0 =>
        parseLines lower (pre.length + 1 + 1) post
          { st0 with result := { st0.result with
              Warnings := st0.result.Warnings ++ [.invalidDate (pre.length + 1) dateStr] } } := by
    rw [hsplit, parseLines_append]
    cases parseLines lower 1 pre State.init with
    | error e => rfl
    | ok st0 =>
      simp only [parseLines]
      rw [hn, parseLine_invalid_date lower _ _ dateStr name st0 hshape hdate]
  have hrun' : parseLines lower 1 (Split content') State.init =
      match parseLines lower 1 pre State.init with
      | .error e => .error e
      | .ok st0 => parseLines lower (pre.length + 1 + 1) post st0 := by
    rw [hsplit', parseLines_append]
    cases parseLines lower 1 pre State.init with
    | error e => rfl
    | ok st0 =>
      simp only [parseLines]
      rw [hn, parseLine_empty lower _ st0]
  unfold Parse
  rw [hrun, hrun']
  cases hp : parseLines lower 1 pre State.init with
  | error e0 =>
    refine ⟨fun e he => he, fun r' hr => ?_, rfl⟩
    cases hr
  | ok st0 =>
    simp only
    obtain ⟨hE, hO⟩ := parseLines_added lower post (pre.length + 1 + 1) st0
      { st0 with result := { st0.result with
          Warnings := st0.result.Warnings ++ [.invalidDate (pre.length + 1) dateStr] } } rfl
    refine ⟨?_, ?_, rfl⟩
    · intro e he
      cases hq : parseLines lower (pre.length + 1 + 1) post st0 with
      | error e1 =>
        rw [hq] at he
        rw [hE e1 hq]
        exact he
      | ok st1 =>
        rw [hq] at he
        obtain ⟨st1', dC, dW, hrunA, hcore, -⟩ := hO st1 hq
        rw [hrunA]
        exact (validate_core st1.flush st1'.flush (flush_Chores_core st1 st1' hcore)).1 e he
    · intro r' hr
      cases hq : parseLines lower (pre.length + 1 + 1) post st0 with
      | error e1 => rw [hq] at hr; cases hr
      | ok st1 =>
        rw [hq] at hr
        simp only at hr
        obtain ⟨st1', dC, dW, hrunA, hcore, c1, c2, w1, w2⟩ := hO st1 hq
        obtain ⟨hr1, -⟩ := validate_ok _ _ hr
        subst hr1
        have hch := flush_Chores_core st1 st1' hcore
        refine ⟨st1'.flush, st0.result.Warnings, dW, ?_, hch.symm, ?_, ?_, ?_⟩
        · rw [hrunA]
          exact (validate_core st1.flush st1'.flush hch).2 _ hr
        · rw [flush_Completions, flush_Completions, c1, c2]
        · rw [flush_Warnings, w1]
        · rw [flush_Warnings, w2]
          simp

/-- A use of `Parse_invalid_date`: the 30th of February between two lines of a
description. -/
theorem Parse_invalid_date_witness :
    Parse asciiLower "## A\n> 1w\nfirst\n2026-02-30 A\nsecond".toList
      = .ok ⟨[⟨"A".toList, 7, "1w".toList, 0, [], "first\nsecond".toList, 1⟩], [],
          [.invalidDate 4 "2026-02-30".toList]⟩ ∧
    (Warning.invalidDate 4 "2026-02-30".toList).text plainQuote
      = "line 4: invalid date \"2026-02-30\", skipping".toList := by
  obtain ⟨-, h, ht⟩ := Parse_invalid_date asciiLower plainQuote
    "## A\n> 1w\nfirst\n2026-02-30 A\nsecond".toList "## A\n> 1w\nfirst\n\nsecond".toList
    ["## A".toList, "> 1w".toList, "first".toList] ["second".toList] "2026-02-30 A".toList
    "2026-02-30".toList "A".toList (by decide) (by decide) (by decide) (by decide)
  obtain ⟨r, w1, w2, h1, -⟩ :=
    h ⟨[⟨"A".toList, 7, "1w".toList, 0, [], "first\nsecond".toList, 1⟩], [], []⟩ rfl
  exact ⟨rfl, ht.trans (by decide)⟩

/-! ## The names and lines of the chores -/

theorem dropWhile_head_not {α : Type} (p : α → Bool) :
    ∀ (l : List α) (x : α), (l.dropWhile p).head? = some x → p x = false := by
  intro l
  induction l with
  | nil => intro x h; simp at h
  | cons a as ih =>
    intro x h
    simp only [List.dropWhile] at h
    cases ha : p a with
    | true =>
      rw [ha] at h
      exact ih x h
    | false =>
      rw [ha] at h
      simp only [List.head?_cons, Option.some.injEq] at h
      rw [← h]
      exact ha

/-- A trimmed text neither begins nor ends with white space. -/
theorem TrimSpace_ends (s : Str) :
    (∀ x, (TrimSpace s).head? = some x → isSpace x = false) ∧
    (∀ x, (TrimSpace s).getLast? = some x → isSpace x = false) := by
  unfold TrimSpace
  constructor
  · intro x hx
    obtain ⟨t, ht⟩ := rightTrim_split isSpace (s.dropWhile isSpace)
    generalize ((s.dropWhile isSpace).reverse.dropWhile isSpace).reverse = u at hx ht
    cases u with
    | nil => simp at hx
    | cons y ys =>
      simp only [List.head?_cons, Option.some.injEq] at hx
      subst hx
      apply dropWhile_head_not isSpace s
      rw [ht]
      rfl
  · intro x hx
    rw [List.getLast?_reverse] at hx
    exact dropWhile_head_not isSpace _ x hx

/-- One turn of the loop leaves the names and lines of the chores as they are, or adds
the chore of a header line whose key is new. -/
theorem parseLine_names (lower : Str → Str) (n : Nat) (line : Str) (st st1 : State)
    (h : parseLine lower n line st = .ok st1) :
    (st1.flush.Chores.map (fun c => (c.Name, c.Line))
        = st.flush.Chores.map (fun c => (c.Name, c.Line)) ∧
      st1.choreMap = st.choreMap) ∨
    ∃ m1, headerRegex line = some m1 ∧ lower (TrimSpace m1) ∉ st.choreMap ∧
      st1.flush.Chores.map (fun c => (c.Name, c.Line))
        = st.flush.Chores.map (fun c => (c.Name, c.Line)) ++ [(TrimSpace m1, n)] ∧
      st1.choreMap = lower (TrimSpace m1) :: st.choreMap := by
  rcases parseLine_cases lower n line st st1 h with
    ⟨m1, hh, hk, rfl⟩ | ⟨m1, hh, hk, rfl⟩ | ⟨hh, c, tok, rest, c1, hc, h0, hm, hfl, rfl⟩ |
    ⟨hh, hf, rfl⟩
  · left
    refine ⟨?_, rfl⟩
    rw [flush_Chores]
    simp
  · right
    refine ⟨m1, hh, hk, ?_, rfl⟩
    rw [flush_Chores]
    simp
  · left
    obtain ⟨-, hn1, hl1, -, -, -⟩ := frequencyLine_ok n tok rest c c1 hfl
    refine ⟨?_, rfl⟩
    rw [flush_Chores, flush_Chores, hc]
    simp [hn1, hl1]
  · left
    refine ⟨?_, completionOrDescription_choreMap n line st⟩
    rw [flush_Chores, flush_Chores, completionOrDescription_Chores,
      completionOrDescription_currentChore]
    cases st.currentChore with
    | none => rfl
    | some c => simp

/-- The chores of a state, by name and line, are well formed with respect to the lines
read so far: their lines increase, each line is that of a header line that declares
the name, the key of each name is in the map, and the keys differ. -/
theorem parseLines_names (lower : Str → Str) :
    ∀ (ls done : List Str) (st st1 : State),
      parseLines lower (done.length + 1) ls st = .ok st1 →
      ((st.flush.Chores.map (fun c => (c.Name, c.Line))).Pairwise (fun a b => a.2 < b.2) ∧
        (∀ p ∈ st.flush.Chores.map (fun c => (c.Name, c.Line)),
          1 ≤ p.2 ∧ p.2 ≤ done.length ∧
            ∃ l, done[p.2 - 1]? = some l ∧ headerName l = some p.1) ∧
        (∀ p ∈ st.flush.Chores.map (fun c => (c.Name, c.Line)), lower p.1 ∈ st.choreMap) ∧
        (st.flush.Chores.map (fun c => (c.Name, c.Line))).Pairwise
          (fun a b => lower a.1 ≠ lower b.1)) →
      ((st1.flush.Chores.map (fun c => (c.Name, c.Line))).Pairwise (fun a b => a.2 < b.2) ∧
        (∀ p ∈ st1.flush.Chores.map (fun c => (c.Name, c.Line)),
          1 ≤ p.2 ∧ p.2 ≤ (done ++ ls).length ∧
            ∃ l, (done ++ ls)[p.2 - 1]? = some l ∧ headerName l = some p.1) ∧
        (∀ p ∈ st1.flush.Chores.map (fun c => (c.Name, c.Line)), lower p.1 ∈ st1.choreMap) ∧
        (st1.flush.Chores.map (fun c => (c.Name, c.Line))).Pairwise
          (fun a b => lower a.1 ≠ lower b.1)) := by
  intro ls
  induction ls with
  | nil =>
    intro done st st1 h hgood
    simp only [parseLines] at h
    cases h
    simpa using hgood
  | cons l ls ih =>
    intro done st st1 h hgood
    simp only [parseLines] at h
    cases hl : parseLine lower (done.length + 1) (TrimRightCR l) st with
    | error e => rw [hl] at h; cases h
    | ok st2 =>
      rw [hl] at h
      have hlen : (done ++ [l]).length + 1 = done.length + 1 + 1 := by simp
      have happ : done ++ l :: ls = (done ++ [l]) ++ ls := by simp
      rw [happ]
      apply ih (done ++ [l]) st2 st1 (by rw [hlen]; exact h)
      obtain ⟨g1, g2, g3, g4⟩ := hgood
      have hold : ∀ p ∈ st.flush.Chores.map (fun c => (c.Name, c.Line)),
          1 ≤ p.2 ∧ p.2 ≤ (done ++ [l]).length ∧
            ∃ l', (done ++ [l])[p.2 - 1]? = some l' ∧ headerName l' = some p.1 := by
        intro p hp
        obtain ⟨a1, a2, l', a3, a4⟩ := g2 p hp
        refine ⟨a1, by simp; omega, l', ?_, a4⟩
        rw [List.getElem?_append_left (by omega)]
        exact a3
      rcases parseLine_names lower _ _ st st2 hl with ⟨hsame, hmap⟩ | ⟨m1, hh, hk, hadd, hmap⟩
      · rw [hsame, hmap]
        exact ⟨g1, hold, g3, g4⟩
      · rw [hadd, hmap]
        refine ⟨?_, ?_, ?_, ?_⟩
        · rw [List.pairwise_append]
          refine ⟨g1, List.pairwise_singleton _ _, ?_⟩
          intro p hp q hq
          simp only [List.mem_singleton] at hq
          subst hq
          have := (g2 p hp).2.1
          simp only
          omega
        · intro p hp
          rcases List.mem_append.mp hp with hp | hp
          · exact hold p hp
          · simp only [List.mem_singleton] at hp
            subst hp
            refine ⟨by simp, by simp, l, by simp, ?_⟩
            exact (headerName_eq_some l _).mpr ⟨m1, hh, rfl⟩
        · intro p hp
          rcases List.mem_append.mp hp with hp | hp
          · exact List.mem_cons_of_mem _ (g3 p hp)
          · simp only [List.mem_singleton] at hp
            subst hp
            exact List.mem_cons_self _ _
        · rw [List.pairwise_append]
          refine ⟨g4, List.pairwise_singleton _ _, ?_⟩
          intro p hp q hq
          simp only [List.mem_singleton] at hq
          subst hq
          intro he
          exact hk (he ▸ g3 p hp)

/-- C20: on a successful parse the chores of the result have pairwise different
lower-cased names; each `Name` is the name that the header line numbered `Line`
declares, as written there, trimmed, so it neither begins nor ends with white space;
and the chores stand in increasing order of `Line`. -/
theorem Parse_chore_names (lower : Str → Str) (content : Str) (r : ParseResult)
    (hparse : Parse lower content = .ok r) :
    r.Chores.Pairwise (fun a b => lower a.Name ≠ lower b.Name) ∧
    (∀ c ∈ r.Chores,
      (∀ x, c.Name.head? = some x → isSpace x = false) ∧
      (∀ x, c.Name.getLast? = some x → isSpace x = false) ∧
      1 ≤ c.Line ∧ ∃ l, (Split content)[c.Line - 1]? = some l ∧ headerName l = some c.Name) ∧
    r.Chores.Pairwise (fun a b => a.Line < b.Line) := by
  unfold Parse at hparse
  cases hrun : parseLines lower 1 (Split content) State.init with
  | error e => rw [hrun] at hparse; cases hparse
  | ok st =>
    rw [hrun] at hparse
    simp only at hparse
    obtain ⟨hr, -⟩ := validate_ok _ _ hparse
    subst hr
    obtain ⟨g1, g2, -, g4⟩ := parseLines_names lower (Split content) [] State.init st hrun
      (by simp [State.init, State.flush])
    simp only [List.nil_append] at g2
    refine ⟨?_, ?_, ?_⟩
    · rw [List.pairwise_map] at g4
      exact g4
    · intro c hc
      obtain ⟨a1, -, l, a3, a4⟩ := g2 (c.Name, c.Line) (List.mem_map.mpr ⟨c, hc, rfl⟩)
      simp only at a1 a3 a4
      obtain ⟨m1, -, hm⟩ := (headerName_eq_some l c.Name).mp a4
      rw [← hm]
      exact ⟨(TrimSpace_ends m1).1, (TrimSpace_ends m1).2, a1, l, a3, hm ▸ a4⟩
    · rw [List.pairwise_map] at g1
      exact g1

/-- A use of `Parse_chore_names` on the text of the test `two_chores`. -/
theorem Parse_chore_names_witness :
    Parse asciiLower "## Kitchen\n> 1w\n\n## Bathroom\n> 2w\n".toList
      = .ok ⟨[⟨"Kitchen".toList, 7, "1w".toList, 0, [], [], 1⟩,
          ⟨"Bathroom".toList, 14, "2w".toList, 0, [], [], 4⟩], [], []⟩ ∧
    [(⟨"Kitchen".toList, 7, "1w".toList, 0, [], [], 1⟩ : Chore),
        ⟨"Bathroom".toList, 14, "2w".toList, 0, [], [], 4⟩].Pairwise
      (fun a b => a.Line < b.Line) :=
  ⟨rfl,
    (Parse_chore_names asciiLower "## Kitchen\n> 1w\n\n## Bathroom\n> 2w\n".toList
      ⟨[⟨"Kitchen".toList, 7, "1w".toList, 0, [], [], 1⟩,
        ⟨"Bathroom".toList, 14, "2w".toList, 0, [], [], 4⟩], [], []⟩ rfl).2.2⟩

/-! ## `ParseDuration` -/

theorem Atoi_of_fits (ds : Str) (h : (digitsVal ds : Int) ≤ maxInt) :
    (Atoi ds).1 = (digitsVal ds : Int) := by
  unfold Atoi
  rw [if_pos h]

theorem durationH_eq_some_iff (s hs : Str) :
    durationH s = some hs ↔
      s = hs ++ ['h'] ∧ hs ≠ [] ∧ ∀ c ∈ hs, isDigit c = true := by
  constructor
  · intro h
    unfold durationH at h
    split at h
    · rename_i c hdrop
      split at h
      · rename_i hcond
        simp only [Option.some.injEq] at h
        have := List.takeWhile_append_dropWhile isDigit s
        rw [hdrop, h, hcond.1] at this
        refine ⟨this.symm, by rw [← h]; exact hcond.2, ?_⟩
        intro x hx
        rw [← h] at hx
        exact List.mem_takeWhile_imp hx
      · cases h
    · cases h
  · rintro ⟨rfl, hne, hds⟩
    have hd : (hs ++ ['h']).dropWhile isDigit = ['h'] := by
      rw [dropWhile_digits_append hds]
      rfl
    have ht : (hs ++ ['h']).takeWhile isDigit = hs := by
      rw [takeWhile_digits_append hds]
      simp [List.takeWhile, isDigit]
    unfold durationH
    rw [hd]
    simp only [ht]
    rw [if_pos ⟨trivial, hne⟩]

theorem durationM_eq_some_iff (s ms : Str) :
    durationM s = some ms ↔
      s = ms ++ ['m'] ∧ ms ≠ [] ∧ ∀ c ∈ ms, isDigit c = true := by
  constructor
  · intro h
    unfold durationM at h
    split at h
    · rename_i c hdrop
      split at h
      · rename_i hcond
        simp only [Option.some.injEq] at h
        have := List.takeWhile_append_dropWhile isDigit s
        rw [hdrop, h, hcond.1] at this
        refine ⟨this.symm, by rw [← h]; exact hcond.2, ?_⟩
        intro x hx
        rw [← h] at hx
        exact List.mem_takeWhile_imp hx
      · cases h
    · cases h
  · rintro ⟨rfl, hne, hds⟩
    have hd : (ms ++ ['m']).dropWhile isDigit = ['m'] := by
      rw [dropWhile_digits_append hds]
      rfl
    have ht : (ms ++ ['m']).takeWhile isDigit = ms := by
      rw [takeWhile_digits_append hds]
      simp [List.takeWhile, isDigit]
    unfold durationM
    rw [hd]
    simp only [ht]
    rw [if_pos ⟨trivial, hne⟩]

theorem durationHM_eq_some_iff (s hs ms : Str) :
    durationHM s = some (hs, ms) ↔
      s = hs ++ 'h' :: (ms ++ ['m']) ∧ hs ≠ [] ∧ ms ≠ [] ∧
        (∀ c ∈ hs, isDigit c = true) ∧ ∀ c ∈ ms, isDigit c = true := by
  constructor
  · intro h
    unfold durationHM at h
    split at h
    · rename_i c rest hdrop
      split at h
      · rename_i c2 hdrop2
        split at h
        · rename_i hcond
          simp only [Option.some.injEq, Prod.mk.injEq] at h
          obtain ⟨h1, h2⟩ := h
          have e1 := List.takeWhile_append_dropWhile isDigit s
          have e2 := List.takeWhile_append_dropWhile isDigit rest
          rw [hdrop2, h2, hcond.2.1] at e2
          rw [hdrop, h1, hcond.1, ← e2] at e1
          refine ⟨e1.symm, by rw [← h1]; exact hcond.2.2.1, by rw [← h2]; exact hcond.2.2.2,
            ?_, ?_⟩
          · intro x hx
            rw [← h1] at hx
            exact List.mem_takeWhile_imp hx
          · intro x hx
            rw [← h2] at hx
            exact List.mem_takeWhile_imp hx
        · cases h
      · cases h
    · cases h
  · rintro ⟨rfl, hne1, hne2, hds1, hds2⟩
    have hd : (hs ++ 'h' :: (ms ++ ['m'])).dropWhile isDigit = 'h' :: (ms ++ ['m']) := by
      rw [dropWhile_digits_append hds1]
      rfl
    have ht : (hs ++ 'h' :: (ms ++ ['m'])).takeWhile isDigit = hs := by
      rw [takeWhile_digits_append hds1]
      simp [List.takeWhile, isDigit]
    have hd2 : (ms ++ ['m']).dropWhile isDigit = ['m'] := by
      rw [dropWhile_digits_append hds2]
      rfl
    have ht2 : (ms ++ ['m']).takeWhile isDigit = ms := by
      rw [takeWhile_digits_append hds2]
      simp [List.takeWhile, isDigit]
    unfold durationHM
    rw [hd]
    simp only [hd2, ht, ht2]
    rw [if_pos ⟨trivial, trivial, hne1, hne2⟩]

/-- What `ParseDuration` returns when the exact total fits an `int`: an error on a
text of none of the three shapes and on a zero total, else the exact total. -/
theorem ParseDuration_of_fits (s : Str) :
    (durationParts s = none → ParseDuration s = ⟨0, [], some (.format s)⟩) ∧
    ∀ H M : Nat, durationParts s = some (H, M) → (H : Int) * 60 + M ≤ maxInt →
      ParseDuration s =
        if H * 60 + M = 0 then ⟨0, [], some (.notPositive 0)⟩
        else ⟨(H : Int) * 60 + M, s, none⟩ := by
  have key : ∀ H M : Nat, (H : Int) * 60 + M ≤ maxInt → s ≠ [] →
      (match (some ((H : Int), (M : Int)) : Option (Int × Int)) with
        | none => (⟨0, [], some (.format s)⟩ : DurResult)
        | some (hours, mins) =>
          if wrapInt (wrapInt (hours * 60) + mins) ≤ 0 then
            ⟨0, [], some (.notPositive (wrapInt (wrapInt (hours * 60) + mins)))⟩
          else ⟨wrapInt (wrapInt (hours * 60) + mins), s, none⟩)
        = if H * 60 + M = 0 then ⟨0, [], some (.notPositive 0)⟩
          else ⟨(H : Int) * 60 + M, s, none⟩ := by
    intro H M hfit _
    have h1 : wrapInt ((H : Int) * 60) = (H : Int) * 60 :=
      wrapInt_of_range (by unfold minInt; omega) (by omega)
    have h2 : wrapInt ((H : Int) * 60 + M) = (H : Int) * 60 + M :=
      wrapInt_of_range (by unfold minInt; omega) hfit
    simp only [h1, h2]
    by_cases h0 : H * 60 + M = 0
    · have : (H : Int) * 60 + M = 0 := by omega
      rw [if_pos h0, this]
      simp
    · have : ¬ ((H : Int) * 60 + M ≤ 0) := by omega
      rw [if_neg h0, if_neg this]
  by_cases hs : s = []
  · subst hs
    exact ⟨fun _ => rfl, fun H M h => by simp [durationParts, durationHM, durationH,
      durationM] at h⟩
  · unfold ParseDuration durationParts
    rw [if_neg hs]
    cases h1 : durationHM s with
    | some p =>
      obtain ⟨hh, mm⟩ := p
      refine ⟨fun h => by simp at h, ?_⟩
      intro H M hp hfit
      simp only [Option.some.injEq, Prod.mk.injEq] at hp
      obtain ⟨rfl, rfl⟩ := hp
      unfold maxInt at hfit
      simp only
      rw [Atoi_of_fits hh (by unfold maxInt; omega), Atoi_of_fits mm (by unfold maxInt; omega)]
      exact key _ _ (by unfold maxInt; omega) hs
    | none =>
      simp only
      cases h2 : durationH s with
      | some hh =>
        refine ⟨fun h => by simp at h, ?_⟩
        intro H M hp hfit
        simp only [Option.some.injEq, Prod.mk.injEq] at hp
        obtain ⟨rfl, rfl⟩ := hp
        unfold maxInt at hfit
        simp only
        rw [Atoi_of_fits hh (by unfold maxInt; omega)]
        exact key _ 0 (by unfold maxInt; omega) hs
      | none =>
        simp only
        cases h3 : durationM s with
        | some mm =>
          refine ⟨fun h => by simp at h, ?_⟩
          intro H M hp hfit
          simp only [Option.some.injEq, Prod.mk.injEq] at hp
          obtain ⟨rfl, rfl⟩ := hp
          unfold maxInt at hfit
          simp only
          rw [Atoi_of_fits mm (by unfold maxInt; omega)]
          exact key 0 _ (by unfold maxInt; omega) hs
        | none =>
          exact ⟨fun _ => rfl, fun H M h => by simp at h⟩

/-- C11 fails on the code: the product `H * 60` is not checked against the range of
`int`. A text of the shape `<H>h` whose exact total is 18446744073709551660 minutes is
accepted with 44 minutes, and one whose exact total is positive is rejected as not
positive. -/
theorem ParseDuration_overflow :
    durationParts "307445734561825861h".toList = some (307445734561825861, 0) ∧
    ParseDuration "307445734561825861h".toList
      = ⟨44, "307445734561825861h".toList, none⟩ ∧
    durationParts "153722867280912931h".toList = some (153722867280912931, 0) ∧
    ParseDuration "153722867280912931h".toList
      = ⟨0, [], some (.notPositive (-9223372036854775756))⟩ := by
  decide

/-! ## Decimal rendering -/

/-- The digits that `Nat.toDigitsCore` puts in front of its accumulator do not depend
on the accumulator. -/
theorem toDigitsCore_acc (fuel : Nat) :
    ∀ (n : Nat) (acc : List Char),
      Nat.toDigitsCore 10 fuel n acc = Nat.toDigitsCore 10 fuel n [] ++ acc := by
  induction fuel with
  | zero => intro n acc; simp [Nat.toDigitsCore]
  | succ f ih =>
    intro n acc
    simp only [Nat.toDigitsCore]
    split_ifs with h
    · simp
    · rw [ih (n / 10) (Nat.digitChar (n % 10) :: acc), ih (n / 10) [Nat.digitChar (n % 10)]]
      simp

/-- With enough fuel the digits do not depend on the fuel. -/
theorem toDigitsCore_fuel (fuel : Nat) :
    ∀ (n fuel2 : Nat), n < fuel → n < fuel2 →
      Nat.toDigitsCore 10 fuel n [] = Nat.toDigitsCore 10 fuel2 n [] := by
  induction fuel with
  | zero => intro n fuel2 h; omega
  | succ f ih =>
    intro n fuel2 h h2
    obtain ⟨g, rfl⟩ : ∃ g, fuel2 = g + 1 := ⟨fuel2 - 1, by omega⟩
    simp only [Nat.toDigitsCore]
    split_ifs with h0
    · rfl
    · rw [toDigitsCore_acc f, toDigitsCore_acc g, ih (n / 10) g (by omega) (by omega)]

/-- A number below ten is rendered as its one digit. -/
theorem natToStr_lt (n : Nat) (h : n < 10) : natToStr n = [Nat.digitChar n] := by
  unfold natToStr Nat.toDigits
  simp only [Nat.toDigitsCore]
  rw [if_pos (by omega), Nat.mod_eq_of_lt h]

/-- A number from ten on is rendered as its tenth part followed by its last digit. -/
theorem natToStr_ge (n : Nat) (h : 10 ≤ n) :
    natToStr n = natToStr (n / 10) ++ [Nat.digitChar (n % 10)] := by
  show Nat.toDigitsCore 10 (n + 1) n [] = _
  simp only [Nat.toDigitsCore]
  rw [if_neg (by omega), toDigitsCore_acc n,
    toDigitsCore_fuel n (n / 10) (n / 10 + 1) (by omega) (by omega)]
  rfl

/-- The character of a digit is a decimal digit of that value, and it is `0` only for
zero. -/
theorem digitChar_spec (d : Nat) (h : d < 10) :
    isDigit (Nat.digitChar d) = true ∧ digitVal (Nat.digitChar d) = d ∧
      (Nat.digitChar d = '0' → d = 0) := by
  interval_cases d <;> decide

theorem digitsVal_concat (ds : Str) (c : Char) :
    digitsVal (ds ++ [c]) = digitsVal ds * 10 + digitVal c := by
  simp [digitsVal, List.foldl_append]

/-- The rendering of a number is its decimal representation: digits only, of the value
of the number, without a leading zero unless the number is zero. -/
theorem natToStr_spec (n : Nat) :
    (∀ c ∈ natToStr n, isDigit c = true) ∧ digitsVal (natToStr n) = n ∧
      natToStr n ≠ [] ∧ (0 < n → (natToStr n).head? ≠ some '0') := by
  induction n using Nat.strong_induction_on with
  | _ n ih =>
    by_cases h : n < 10
    · rw [natToStr_lt n h]
      obtain ⟨a, b, c⟩ := digitChar_spec n h
      refine ⟨by simpa using a, by simpa [digitsVal] using b, by simp, ?_⟩
      intro hn he
      simp only [List.head?_cons, Option.some.injEq] at he
      have := c he
      omega
    · rw [natToStr_ge n (by omega)]
      obtain ⟨a, b, c, d⟩ := ih (n / 10) (by omega)
      obtain ⟨a', b', -⟩ := digitChar_spec (n % 10) (by omega)
      refine ⟨?_, ?_, by simp, ?_⟩
      · intro x hx
        simp only [List.mem_append, List.mem_singleton] at hx
        rcases hx with hx | hx
        · exact a x hx
        · rw [hx]; exact a'
      · rw [digitsVal_concat, b, b']
        omega
      · intro _
        have hpos : 0 < n / 10 := by omega
        have := d hpos
        cases hs : natToStr (n / 10) with
        | nil => exact absurd hs c
        | cons x xs =>
          rw [hs] at this
          simpa using this

/-- A non-negative `int` is rendered without a sign. -/
theorem Itoa_of_nonneg (x : Int) (h : 0 ≤ x) : Itoa x = natToStr x.toNat := by
  unfold Itoa
  rw [if_neg (by omega)]
  congr 1
  omega

/-- C22: `FormatDuration` returns `0m` for a non-positive number of minutes; for a
positive one, with `h = minutes / 60` and `r = minutes % 60`, it returns `<h>h <r>m`
when both are positive, `<h>h` when only `h` is, and `<r>m` when `h = 0`; the numbers
are rendered in decimal: digits only, of the value of the number, with no leading zero
(hence no padding) unless the number is zero. -/
theorem FormatDuration_spec (minutes : Int) :
    (minutes ≤ 0 → FormatDuration minutes = "0m".toList) ∧
    (0 < minutes → 0 < minutes / 60 → 0 < minutes % 60 →
      FormatDuration minutes
        = natToStr (minutes / 60).toNat ++ "h ".toList ++ natToStr (minutes % 60).toNat
            ++ "m".toList) ∧
    (0 < minutes → 0 < minutes / 60 → minutes % 60 = 0 →
      FormatDuration minutes = natToStr (minutes / 60).toNat ++ "h".toList) ∧
    (0 < minutes → minutes / 60 = 0 →
      FormatDuration minutes = natToStr (minutes % 60).toNat ++ "m".toList) ∧
    (∀ n : Nat, (∀ c ∈ natToStr n, isDigit c = true) ∧ digitsVal (natToStr n) = n ∧
      natToStr n ≠ [] ∧ (0 < n → (natToStr n).head? ≠ some '0')) := by
  refine ⟨?_, ?_, ?_, ?_, natToStr_spec⟩
  · intro h
    unfold FormatDuration
    rw [if_pos h]
  · intro h hq hr
    have e1 : Int.tdiv minutes 60 = minutes / 60 := Int.tdiv_eq_ediv (by omega) (by decide)
    have e2 : Int.tmod minutes 60 = minutes % 60 := Int.tmod_eq_emod (by omega) (by omega)
    unfold FormatDuration
    rw [if_neg (by omega), e1, e2, if_pos ⟨hq, hr⟩, Itoa_of_nonneg _ (by omega),
      Itoa_of_nonneg _ (by omega)]
  · intro h hq hr
    have e1 : Int.tdiv minutes 60 = minutes / 60 := Int.tdiv_eq_ediv (by omega) (by decide)
    have e2 : Int.tmod minutes 60 = minutes % 60 := Int.tmod_eq_emod (by omega) (by omega)
    unfold FormatDuration
    rw [if_neg (by omega), e1, e2, if_neg (by omega), if_pos hq, Itoa_of_nonneg _ (by omega)]
  · intro h hq
    have e1 : Int.tdiv minutes 60 = minutes / 60 := Int.tdiv_eq_ediv (by omega) (by decide)
    have e2 : Int.tmod minutes 60 = minutes % 60 := Int.tmod_eq_emod (by omega) (by omega)
    unfold FormatDuration
    rw [if_neg (by omega), e1, e2, if_neg (by omega), if_neg (by omega),
      Itoa_of_nonneg _ (by omega)]

/-- A use of `FormatDuration_spec` on ninety minutes, a case of the test
`TestFormatDuration`. -/
theorem FormatDuration_spec_witness :
    (0 : Int) < 90 ∧ FormatDuration 90 = "1h 30m".toList :=
  ⟨by decide, ((FormatDuration_spec 90).2.1 (by decide) (by decide) (by decide)).trans
    (by decide)⟩

/-! ## The duration of a frequency line -/

/-- Once kept, the chore of a key stays as it is, up to its description, to the end of
the line. -/
theorem parseLine_Kept (lower : Str → Str) (c0 : Chore) (n : Nat) (line : Str)
    (st st1 : State) (hs : Kept lower c0 st) (h : parseLine lower n line st = .ok st1) :
    Kept lower c0 st1 := by
  obtain ⟨hkey, ⟨d0, hfilter⟩, hcur⟩ := hs
  rcases parseLine_cases lower n line st st1 h with
    ⟨m1, -, hk, rfl⟩ | ⟨m1, -, hk, rfl⟩ | ⟨-, c, tok, rest, c1, hc, h0, -, hfl, rfl⟩ |
    ⟨-, -, rfl⟩
  · refine ⟨hkey, ⟨d0, ?_⟩, ?_⟩
    · rw [flush_Chores]
      simpa using hfilter
    · intro cur hcur'
      cases hcur'
  · have hne : lower (TrimSpace m1) ≠ lower c0.Name := fun he => hk (he ▸ hkey)
    refine ⟨List.mem_cons_of_mem _ hkey, ⟨d0, ?_⟩, ?_⟩
    · rw [flush_Chores]
      simp only [List.filter_append, hfilter]
      simp [hasKey, hne]
    · intro cur hcur' hk'
      simp only [Option.some.injEq] at hcur'
      subst hcur'
      exact absurd hk' hne
  · obtain ⟨-, hn1, -, -, -, -⟩ := frequencyLine_ok n tok rest c c1 hfl
    have hcne : lower c.Name ≠ lower c0.Name := fun he => hcur c hc he h0
    refine ⟨hkey, ⟨d0, ?_⟩, ?_⟩
    · rw [flush_Chores] at hfilter ⊢
      simp only [hc, List.filter_append] at hfilter ⊢
      rw [← hfilter]
      congr 1
      simp [hasKey, hn1, hcne]
    · intro cur hcur' hk'
      simp only [Option.some.injEq] at hcur'
      subst hcur'
      rw [hn1] at hk'
      exact absurd hk' hcne
  · refine ⟨by rw [completionOrDescription_choreMap]; exact hkey, ?_, ?_⟩
    · rw [flush_Chores] at hfilter ⊢
      rw [completionOrDescription_Chores, completionOrDescription_currentChore]
      cases hc : st.currentChore with
      | none =>
        rw [hc] at hfilter
        exact ⟨d0, hfilter⟩
      | some c =>
        rw [hc] at hfilter
        simp only [List.filter_append] at hfilter ⊢
        by_cases hck : hasKey lower (lower c0.Name) c = true
        · have h1 : ∀ d, List.filter (hasKey lower (lower c0.Name))
              [{ c with Description := d }] = [{ c with Description := d }] := by
            intro d
            simp [hasKey_withDescription, hck]
          rw [h1] at hfilter
          obtain ⟨h3, h4⟩ := append_singleton_eq_singleton _ _ _ hfilter
          refine ⟨TrimSpace (Join (completionOrDescription n line st).descLines), ?_⟩
          rw [h3, h1]
          simp only [List.nil_append, List.cons.injEq, and_true]
          simp only [Chore.mk.injEq] at h4
          obtain ⟨e1, e2, e3, e4, e5, -, e6⟩ := h4
          rw [← e1, ← e2, ← e3, ← e4, ← e5, ← e6]
        · have h1 : ∀ d, List.filter (hasKey lower (lower c0.Name))
              [{ c with Description := d }] = [] := by
            intro d
            simp [hasKey_withDescription, hck]
          rw [h1 _] at hfilter
          rw [h1 _]
          exact ⟨d0, hfilter⟩
    · intro cur hcur'
      rw [completionOrDescription_currentChore] at hcur'
      exact hcur cur hcur'

theorem parseLines_Kept (lower : Str → Str) (c0 : Chore) :
    ∀ (ls : List Str) (n : Nat) (st st1 : State), Kept lower c0 st →
      parseLines lower n ls st = .ok st1 → Kept lower c0 st1 := by
  intro ls
  induction ls with
  | nil =>
    intro n st st1 hs h
    simp only [parseLines] at h
    cases h
    exact hs
  | cons l ls ih =>
    intro n st st1 hs h
    simp only [parseLines] at h
    cases hl : parseLine lower n (TrimRightCR l) st with
    | error e => rw [hl] at h; cases h
    | ok st2 =>
      rw [hl] at h
      exact ih (n + 1) st2 st1 (parseLine_Kept lower c0 n _ st st2 hs hl) h

/-- A chore that still waits for its frequency has no duration either. -/
theorem parseLine_fresh (lower : Str → Str) (n : Nat) (line : Str) (st st1 : State)
    (hs : ∀ c, st.currentChore = some c → c.FrequencyDays = 0 →
      c.DurationMinutes = 0 ∧ c.DurationRaw = [])
    (h : parseLine lower n line st = .ok st1) :
    ∀ c, st1.currentChore = some c → c.FrequencyDays = 0 →
      c.DurationMinutes = 0 ∧ c.DurationRaw = [] := by
  rcases parseLine_cases lower n line st st1 h with
    ⟨m1, -, hk, rfl⟩ | ⟨m1, -, hk, rfl⟩ | ⟨-, c, tok, rest, c1, hc, h0, -, hfl, rfl⟩ |
    ⟨-, -, rfl⟩
  · intro c hc; cases hc
  · intro c hc _
    simp only [Option.some.injEq] at hc
    subst hc
    exact ⟨rfl, rfl⟩
  · intro c' hc' h0'
    simp only [Option.some.injEq] at hc'
    subst hc'
    obtain ⟨he, -, -, hd, -, -⟩ := frequencyLine_ok n tok rest c c1 hfl
    rw [hd] at h0'
    exact absurd h0' (ParseFrequency_days_ne_zero tok he)
  · intro c hc
    rw [completionOrDescription_currentChore] at hc
    exact hs c hc

theorem parseLines_fresh (lower : Str → Str) :
    ∀ (ls : List Str) (n : Nat) (st st1 : State),
      (∀ c, st.currentChore = some c → c.FrequencyDays = 0 →
        c.DurationMinutes = 0 ∧ c.DurationRaw = []) →
      parseLines lower n ls st = .ok st1 →
      ∀ c, st1.currentChore = some c → c.FrequencyDays = 0 →
        c.DurationMinutes = 0 ∧ c.DurationRaw = [] := by
  intro ls
  induction ls with
  | nil =>
    intro n st st1 hs h
    simp only [parseLines] at h
    cases h
    exact hs
  | cons l ls ih =>
    intro n st st1 hs h
    simp only [parseLines] at h
    cases hl : parseLine lower n (TrimRightCR l) st with
    | error e => rw [hl] at h; cases h
    | ok st2 =>
      rw [hl] at h
      exact ih (n + 1) st2 st1 (parseLine_fresh lower n _ st st2 hs hl) h

theorem ParseDuration_raw (s : Str) (h : (ParseDuration s).err = none) :
    (ParseDuration s).raw = s := by
  have key : ∀ hm : Option (Int × Int),
      (match hm with
        | none => (⟨0, [], some (.format s)⟩ : DurResult)
        | some (hours, mins) =>
          if wrapInt (wrapInt (hours * 60) + mins) ≤ 0 then
            ⟨0, [], some (.notPositive (wrapInt (wrapInt (hours * 60) + mins)))⟩
          else ⟨wrapInt (wrapInt (hours * 60) + mins), s, none⟩).err = none →
      (match hm with
        | none => (⟨0, [], some (.format s)⟩ : DurResult)
        | some (hours, mins) =>
          if wrapInt (wrapInt (hours * 60) + mins) ≤ 0 then
            ⟨0, [], some (.notPositive (wrapInt (wrapInt (hours * 60) + mins)))⟩
          else ⟨wrapInt (wrapInt (hours * 60) + mins), s, none⟩).raw = s := by
    intro hm
    rcases hm with _ | ⟨hours, mins⟩
    · intro h0; cases h0
    · simp only
      split_ifs
      · intro h0; cases h0
      · intro _; rfl
  unfold ParseDuration at h ⊢
  by_cases hs : s = []
  · rw [if_pos hs] at h; cases h
  · rw [if_neg hs] at h ⊢
    exact key _ h

/-- A frequency line whose duration text is rejected ends the parse of the line with
that error. -/
theorem frequencyLine_duration_error (n : Nat) (tok rest : Str) (c : Chore) (e : DurError)
    (htok : (ParseFrequency tok).err = none) (hne : TrimSpace rest ≠ [])
    (he : (ParseDuration (TrimSpace rest)).err = some e) :
    frequencyLine n tok rest c = .error (.duration n e) := by
  have hrest : rest ≠ [] := by
    intro h0
    rw [h0] at hne
    exact hne rfl
  unfold frequencyLine
  rw [htok]
  simp only
  rw [if_pos ⟨hrest, hne⟩, he]

/-- The duration fields of the chore that a frequency line leaves. -/
theorem frequencyLine_duration (n : Nat) (tok rest : Str) (c c1 : Chore)
    (h : frequencyLine n tok rest c = .ok c1) :
    (TrimSpace rest ≠ [] → (ParseDuration (TrimSpace rest)).err = none ∧
      c1.DurationMinutes = (ParseDuration (TrimSpace rest)).minutes ∧
      c1.DurationRaw = TrimSpace rest) ∧
    (TrimSpace rest = [] → c1.DurationMinutes = c.DurationMinutes ∧
      c1.DurationRaw = c.DurationRaw) := by
  unfold frequencyLine at h
  cases he : (ParseFrequency tok).err with
  | some e => rw [he] at h; cases h
  | none =>
    rw [he] at h
    simp only at h
    split at h
    · rename_i hcond
      cases hd : (ParseDuration (TrimSpace rest)).err with
      | some e => rw [hd] at h; cases h
      | none =>
        rw [hd] at h
        cases h
        exact ⟨fun _ => ⟨rfl, rfl, ParseDuration_raw _ hd⟩, fun h0 => absurd h0 hcond.2⟩
    · rename_i hcond
      cases h
      refine ⟨fun hne => ?_, fun _ => ⟨rfl, rfl⟩⟩
      exfalso
      apply hcond
      refine ⟨?_, hne⟩
      intro h0
      rw [h0] at hne
      exact hne rfl

/-- C21: on a frequency line (a line that is not a header and has the shape of a
frequency line, read while a chore is open without a frequency, with a token that
`ParseFrequency` accepts) whose text after the token and the blanks is not blank and
is rejected by `ParseDuration`, `Parse` returns the error of that line, whose message
starts with `line <n>: ` for the number `n` of the line, and no result; and whenever
`Parse` succeeds, the chore is in the result with the minutes of `ParseDuration` as
`DurationMinutes` and the text itself as `DurationRaw` when there is such a text, and
with `DurationMinutes = 0` when there is none. -/
theorem Parse_duration (lower quote : Str → Str) (content : Str) (pre post : List Str)
    (l tok rest : Str) (st : State) (c : Chore)
    (hsplit : Split content = pre ++ l :: post)
    (hpre : parseLines lower 1 pre State.init = .ok st)
    (hc : st.currentChore = some c) (hf : c.FrequencyDays = 0)
    (hh : headerName l = none) (hshape : frequencyShape l = some (tok, rest))
    (htok : (ParseFrequency tok).err = none) :
    (∀ e, TrimSpace rest ≠ [] → (ParseDuration (TrimSpace rest)).err = some e →
      Parse lower content = .error (.duration (pre.length + 1) e) ∧
      (ParseError.duration (pre.length + 1) e).text quote
        = "line ".toList ++ natToStr (pre.length + 1) ++ ": ".toList
            ++ durErrorText quote e) ∧
    (∀ r, Parse lower content = .ok r →
      ∃ c1, r.Chores.filter (hasKey lower (lower c.Name)) = [c1] ∧ c1.Name = c.Name ∧
        c1.Line = c.Line ∧
        (TrimSpace rest ≠ [] → (ParseDuration (TrimSpace rest)).err = none ∧
          c1.DurationMinutes = (ParseDuration (TrimSpace rest)).minutes ∧
          c1.DurationRaw = TrimSpace rest) ∧
        (TrimSpace rest = [] → c1.DurationMinutes = 0 ∧ c1.DurationRaw = [])) := by
  have hh' : headerRegex (TrimRightCR l) = none := (headerName_eq_none l).mp hh
  constructor
  · intro e hne he
    refine ⟨?_, rfl⟩
    unfold Parse
    rw [hsplit, parseLines_append, hpre]
    simp only [parseLines]
    rw [Nat.add_comm, parseLine_frequency lower _ _ tok rest st c hh' hc hf hshape,
      frequencyLine_duration_error _ _ _ _ e htok hne he]
  · intro r hparse
    unfold Parse at hparse
    rw [hsplit, parseLines_append, hpre] at hparse
    simp only [parseLines] at hparse
    rw [Nat.add_comm, parseLine_frequency lower _ _ tok rest st c hh' hc hf hshape] at hparse
    cases hfl : frequencyLine (pre.length + 1) tok rest c with
    | error e => rw [hfl] at hparse; cases hparse
    | ok c1 =>
      rw [hfl] at hparse
      simp only at hparse
      cases hrun : parseLines lower (pre.length + 1 + 1) post
          { st with currentChore := some c1 } with
      | error e => rw [hrun] at hparse; cases hparse
      | ok st2 =>
        rw [hrun] at hparse
        simp only at hparse
        obtain ⟨hr, -⟩ := validate_ok _ _ hparse
        subst hr
        obtain ⟨-, hn1, hl1, hd1, -, -⟩ := frequencyLine_ok _ tok rest c c1 hfl
        obtain ⟨hdur1, hdur0⟩ := frequencyLine_duration _ tok rest c c1 hfl
        -- the state before the line
        obtain ⟨-, -, g3, g4⟩ := parseLines_names lower pre [] State.init st hpre
          (by simp [State.init, State.flush])
        have hfl0 : st.flush.Chores = st.result.Chores ++
            [{ c with Description := TrimSpace (Join st.descLines) }] := by
          rw [flush_Chores, hc]
        have hkey : lower c.Name ∈ st.choreMap := by
          apply g3 (c.Name, c.Line)
          rw [hfl0]
          simp
        have hnone : st.result.Chores.filter (hasKey lower (lower c.Name)) = [] := by
          rw [hfl0, List.map_append, List.pairwise_append] at g4
          obtain ⟨-, -, g⟩ := g4
          rw [List.filter_eq_nil_iff]
          intro a ha
          have := g (a.Name, a.Line) (List.mem_map.mpr ⟨a, ha, rfl⟩) (c.Name, c.Line)
            (by simp)
          simpa [hasKey] using this
        obtain ⟨hfresh0, hfresh1⟩ := parseLines_fresh lower pre 1 State.init st
          (by intro c hc; cases hc) hpre c hc hf
        -- the chore is kept from the line on
        have hkept : Kept lower c1 { st with currentChore := some c1 } := by
          refine ⟨by rw [hn1]; exact hkey, ⟨TrimSpace (Join st.descLines), ?_⟩, ?_⟩
          · rw [flush_Chores]
            simp only [List.filter_append]
            rw [hn1, hnone]
            simp [hasKey, hn1]
          · intro cur hcur _
            simp only [Option.some.injEq] at hcur
            subst hcur
            rw [hd1]
            exact ParseFrequency_days_ne_zero tok htok
        obtain ⟨-, ⟨d, hfin⟩, -⟩ := parseLines_Kept lower c1 post _ _ st2 hkept hrun
        rw [hn1] at hfin
        refine ⟨_, hfin, rfl, hl1, fun hne => hdur1 hne, fun h0 => ?_⟩
        obtain ⟨a, b⟩ := hdur0 h0
        exact ⟨a.trans hfresh0, b.trans hfresh1⟩

/-- A use of `Parse_duration` on the header and frequency line of the test
`all_formats`, with a duration the code rejects. -/
theorem Parse_duration_witness :
    Parse asciiLower "## Cook\n> 1d 0h\n".toList = .error (.duration 2 (.notPositive 0)) :=
  ((Parse_duration asciiLower plainQuote "## Cook\n> 1d 0h\n".toList ["## Cook".toList]
    [[]] "> 1d 0h".toList "1d".toList "0h".toList
    ⟨⟨[], [], []⟩, ["cook".toList], some ⟨"Cook".toList, 0, [], 0, [], [], 1⟩, []⟩
    ⟨"Cook".toList, 0, [], 0, [], [], 1⟩
    (by decide) rfl rfl rfl (by decide) (by decide) (by decide)).1 (.notPositive 0)
    (by decide) (by decide)).1

/-! ## The calendar -/

/-- The day of the March-based year is within the year, the last day of a year of
366 days belongs to a year whose successor is a leap year, and the day number is
recovered from the year and the day. -/
theorem marchYear_spec (z : Int) :
    0 ≤ (marchYear z).2 ∧ (marchYear z).2 ≤ 365 ∧
    ((marchYear z).2 = 365 → ((marchYear z).1 + 1) % 4 = 0 ∧
      (((marchYear z).1 + 1) % 100 ≠ 0 ∨ ((marchYear z).1 + 1) % 400 = 0)) ∧
    ((marchYear z).1 / 400) * 146097 + ((marchYear z).1 % 400) * 365
      + ((marchYear z).1 % 400) / 4 - ((marchYear z).1 % 400) / 100 + (marchYear z).2
      - 719468 = z := by
  unfold marchYear
  simp only
  generalize hera : (z + 719468) / 146097 = era
  generalize hdoe : (z + 719468) % 146097 = doe
  have hz : z + 719468 = 146097 * era + doe := by omega
  have hd0 : 0 ≤ doe ∧ doe < 146097 := by omega
  clear hera hdoe
  generalize hc : (if doe / 36524 < 4 then doe / 36524 else 3) = c
  have hcb : 0 ≤ c ∧ c ≤ 3 ∧ 0 ≤ doe - 36524 * c ∧ doe - 36524 * c ≤ 36524 ∧
      (c < 3 → doe - 36524 * c ≤ 36523) := by
    split_ifs at hc <;> omega
  clear hc
  generalize hq : (doe - 36524 * c) / 1461 = q
  generalize hdoq : (doe - 36524 * c) % 1461 = doq
  have hqb : doe - 36524 * c = 1461 * q + doq ∧ 0 ≤ doq ∧ doq ≤ 1460 ∧ 0 ≤ q ∧ q ≤ 24 ∧
      (c < 3 → q = 24 → doq ≤ 1459) := by
    omega
  clear hq hdoq
  generalize hyq : (if doq / 365 < 4 then doq / 365 else 3) = yq
  have hyb : 0 ≤ yq ∧ yq ≤ 3 ∧ 0 ≤ doq - 365 * yq ∧ doq - 365 * yq ≤ 365 ∧
      (doq - 365 * yq = 365 → yq = 3 ∧ doq = 1460) := by
    split_ifs at hyq <;> omega
  clear hyq
  have hy400 : (400 * era + 100 * c + 4 * q + yq) / 400 = era := by omega
  have hym : (400 * era + 100 * c + 4 * q + yq) % 400 = 100 * c + 4 * q + yq := by omega
  have h4 : (100 * c + 4 * q + yq) / 4 = 25 * c + q := by omega
  have h100 : (100 * c + 4 * q + yq) / 100 = c := by omega
  rw [hy400, hym, h4, h100]
  refine ⟨by omega, by omega, ?_, by omega⟩
  intro h365
  obtain ⟨e1, e2⟩ := hyb.2.2.2.2 h365
  subst e1
  refine ⟨by omega, ?_⟩
  by_cases h24 : q = 24
  · right
    have : c = 3 := by omega
    omega
  · left
    omega

/-- Leap years, on integers. -/
theorem isLeap_iff (y : Int) (h : 0 ≤ y) :
    isLeap y.toNat = true ↔ y % 4 = 0 ∧ (y % 100 ≠ 0 ∨ y % 400 = 0) := by
  unfold isLeap
  simp only [Bool.and_eq_true, Bool.or_eq_true, beq_iff_eq, bne_iff_ne, ne_eq]
  omega

/-- The date of a day number is a date of the calendar, and `daysFromCivil` takes it
back to the day number (for the years from 0 on, which `daysFromCivil` handles). -/
theorem civilFromDays_spec (z : Int) (hy : 0 ≤ (civilFromDays z).1) :
    1 ≤ (civilFromDays z).2.1 ∧ (civilFromDays z).2.1 ≤ 12 ∧ 1 ≤ (civilFromDays z).2.2 ∧
      (civilFromDays z).2.2 ≤ daysIn (civilFromDays z).2.1 (civilFromDays z).1.toNat ∧
      daysFromCivil (civilFromDays z).1.toNat (civilFromDays z).2.1 (civilFromDays z).2.2
        = z := by
  obtain ⟨h0, h1, hleap, hz⟩ := marchYear_spec z
  unfold civilFromDays at hy ⊢
  generalize (marchYear z).1 = Y at *
  generalize (marchYear z).2 = doy at *
  simp only at hy ⊢
  have hmp : 0 ≤ (5 * doy + 2) / 153 ∧ (5 * doy + 2) / 153 ≤ 11 := by omega
  have hmpd : 153 * ((5 * doy + 2) / 153) ≤ 5 * doy + 2 ∧
      5 * doy + 2 < 153 * ((5 * doy + 2) / 153) + 153 := by omega
  generalize (5 * doy + 2) / 153 = mp at *
  have hdiv : 5 * ((153 * mp + 2) / 5) ≤ 153 * mp + 2 ∧
      153 * mp + 2 < 5 * ((153 * mp + 2) / 5) + 5 := by omega
  generalize (153 * mp + 2) / 5 = off at *
  by_cases hlt : mp < 10
  · rw [if_pos hlt] at hy ⊢
    simp only at hy ⊢
    obtain ⟨m, hm⟩ : ∃ m : Nat, (mp + 3).toNat = m := ⟨_, rfl⟩
    obtain ⟨d, hd⟩ : ∃ d : Nat, (doy - off + 1).toNat = d := ⟨_, rfl⟩
    obtain ⟨y, hyy⟩ : ∃ y : Nat, Y.toNat = y := ⟨_, rfl⟩
    rw [hm, hd, hyy]
    have hm2 : (m : Int) = mp + 3 := by omega
    have hd2 : (d : Int) = doy - off + 1 := by omega
    have hy2 : (y : Int) = Y := by omega
    refine ⟨by omega, by omega, by omega, ?_, ?_⟩
    · unfold daysIn
      split_ifs <;> omega
    · unfold daysFromCivil
      simp only
      rw [if_neg (by omega), if_neg (by omega)]
      omega
  · rw [if_neg hlt] at hy ⊢
    simp only at hy ⊢
    obtain ⟨m, hm⟩ : ∃ m : Nat, (mp - 9).toNat = m := ⟨_, rfl⟩
    obtain ⟨d, hd⟩ : ∃ d : Nat, (doy - off + 1).toNat = d := ⟨_, rfl⟩
    have hl := isLeap_iff (Y + 1) hy
    obtain ⟨y, hyy⟩ : ∃ y : Nat, (Y + 1).toNat = y := ⟨_, rfl⟩
    rw [hm, hd, hyy]
    rw [hyy] at hl
    have hm2 : (m : Int) = mp - 9 := by omega
    have hd2 : (d : Int) = doy - off + 1 := by omega
    have hy2 : (y : Int) = Y + 1 := by omega
    refine ⟨by omega, by omega, by omega, ?_, ?_⟩
    · unfold daysIn
      by_cases hleap2 : isLeap y = true
      · rw [if_pos hleap2]
        split_ifs <;> omega
      · rw [if_neg hleap2]
        have h364 : doy ≤ 364 := by
          by_contra hc
          exact hleap2 (hl.mpr (hleap (by omega)))
        split_ifs <;> omega
    · unfold daysFromCivil
      simp only
      rw [if_pos (by omega), if_pos (by omega)]
      omega

/-! ## Whole days between two times -/

/-- The date of a day number determines the day number. -/
theorem civilFromDays_inj (z z2 : Int) (h : civilFromDays z = civilFromDays z2) : z = z2 := by
  obtain ⟨a0, a1, -, az⟩ := marchYear_spec z
  obtain ⟨b0, b1, -, bz⟩ := marchYear_spec z2
  unfold civilFromDays at h
  generalize (marchYear z).1 = Y at *
  generalize (marchYear z).2 = doy at *
  generalize (marchYear z2).1 = Y2 at *
  generalize (marchYear z2).2 = doy2 at *
  simp only at h
  have hmp : 0 ≤ (5 * doy + 2) / 153 ∧ (5 * doy + 2) / 153 ≤ 11 := by omega
  have hmpd : 153 * ((5 * doy + 2) / 153) ≤ 5 * doy + 2 ∧
      5 * doy + 2 < 153 * ((5 * doy + 2) / 153) + 153 := by omega
  generalize (5 * doy + 2) / 153 = mp at *
  have hdiv : 5 * ((153 * mp + 2) / 5) ≤ 153 * mp + 2 ∧
      153 * mp + 2 < 5 * ((153 * mp + 2) / 5) + 5 := by omega
  generalize (153 * mp + 2) / 5 = off at *
  have hmp2 : 0 ≤ (5 * doy2 + 2) / 153 ∧ (5 * doy2 + 2) / 153 ≤ 11 := by omega
  have hmpd2 : 153 * ((5 * doy2 + 2) / 153) ≤ 5 * doy2 + 2 ∧
      5 * doy2 + 2 < 153 * ((5 * doy2 + 2) / 153) + 153 := by omega
  generalize (5 * doy2 + 2) / 153 = mp2 at *
  have hdiv2 : 5 * ((153 * mp2 + 2) / 5) ≤ 153 * mp2 + 2 ∧
      153 * mp2 + 2 < 5 * ((153 * mp2 + 2) / 5) + 5 := by omega
  generalize (153 * mp2 + 2) / 5 = off2 at *
  have key : Y = Y2 ∧ doy = doy2 := by
    split_ifs at h <;> simp only [Prod.mk.injEq] at h <;> omega
  obtain ⟨rfl, rfl⟩ := key
  omega

theorem Date_civilDay (y m d : Nat) : (Date y m d).civilDay = daysFromCivil y m d := by
  unfold Date Time.civilDay nanosPerDay
  simp only
  omega

/-- Between days at most 106751 days apart, `DaysBetween` is the difference of the
day numbers. -/
theorem DaysBetween_of_near (a b : Time) (h1 : -106751 ≤ b.civilDay - a.civilDay)
    (h2 : b.civilDay - a.civilDay ≤ 106751) :
    DaysBetween a b = b.civilDay - a.civilDay := by
  unfold DaysBetween schedule.Sub midnightUTC nanosPerDay maxInt minInt
  simp only
  rw [if_neg (by omega), if_neg (by omega)]
  have : b.civilDay * 86400000000000 - a.civilDay * 86400000000000
      = (b.civilDay - a.civilDay) * 86400000000000 := by ring
  rw [this]
  exact Int.mul_tdiv_cancel _ (by decide)

/-- Within the days that fit a `time.Duration`, `DaysBetween` counts calendar days: it
depends only on the year, month and day of its arguments; it is zero between a time
and itself; it changes sign when the arguments are exchanged; and it is `k` from any
day to the day `k` days later, as long as `k` is at most 106751 in absolute value. -/
theorem DaysBetween_calendar (a b : Time) :
    (∀ a2 b2 : Time, a2.Year = a.Year → a2.Month = a.Month → a2.Day = a.Day →
      b2.Year = b.Year → b2.Month = b.Month → b2.Day = b.Day →
      DaysBetween a2 b2 = DaysBetween a b) ∧
    DaysBetween a a = 0 ∧ DaysBetween a b = -DaysBetween b a ∧
    (∀ k : Int, -106751 ≤ k → k ≤ 106751 → b.civilDay = a.civilDay + k →
      DaysBetween a b = k) := by
  refine ⟨?_, ?_, ?_, ?_⟩
  · intro a2 b2 e1 e2 e3 e4 e5 e6
    have ha : a2.civilDay = a.civilDay := by
      apply civilFromDays_inj
      unfold Time.Year at e1
      unfold Time.Month at e2
      unfold Time.Day at e3
      exact Prod.ext e1 (Prod.ext e2 e3)
    have hb : b2.civilDay = b.civilDay := by
      apply civilFromDays_inj
      unfold Time.Year at e4
      unfold Time.Month at e5
      unfold Time.Day at e6
      exact Prod.ext e4 (Prod.ext e5 e6)
    unfold DaysBetween midnightUTC
    rw [ha, hb]
  · rw [DaysBetween_of_near a a (by omega) (by omega)]
    omega
  · unfold DaysBetween schedule.Sub midnightUTC nanosPerDay maxInt minInt
    simp only
    generalize a.civilDay = x
    generalize b.civilDay = y
    have e1 : y * 86400000000000 - x * 86400000000000 = (y - x) * 86400000000000 := by ring
    have e2 : x * 86400000000000 - y * 86400000000000 = (x - y) * 86400000000000 := by ring
    split_ifs
    all_goals first
      | omega
      | decide
      | (rw [e1, e2, Int.mul_tdiv_cancel _ (by decide), Int.mul_tdiv_cancel _ (by decide)]
         omega)
  · intro k hk1 hk2 hb
    rw [DaysBetween_of_near a b (by omega) (by omega)]
    omega

/-- C24 fails on the code beyond 106751 days: from the first of January 1700 to the
first of January 2026 there are 119069 days, and `DaysBetween` returns 106751, the
whole days of the largest `time.Duration`. -/
theorem DaysBetween_far :
    DaysBetween (Date 1700 1 1) (Date 2026 1 1) = 106751 ∧
      (Date 2026 1 1).civilDay - (Date 1700 1 1).civilDay = 119069 ∧
      (Date 1700 1 1).Year = 1700 ∧ (Date 1700 1 1).Month = 1 ∧ (Date 1700 1 1).Day = 1 ∧
      (Date 2026 1 1).Year = 2026 ∧ (Date 2026 1 1).Month = 1 ∧ (Date 2026 1 1).Day = 1 := by
  decide

/-! ## The tagged record of `Calculate` -/

/-- The fields of one entry, case by case, when the differences of the frequency and
the days since the last completion fit an `int`. -/
theorem status_invariant (chore : Chore) (lookup : Option Time) (now : Time) :
    ((status chore lookup now).LastDone = none ↔ lookup = none) ∧
    (lookup = none → (status chore lookup now).Status = StatusOverdue ∧
      (status chore lookup now).DaysOverdue = NeverDoneSentinel ∧
      (status chore lookup now).DaysUntil = 0) ∧
    (minInt + 106752 ≤ chore.FrequencyDays → chore.FrequencyDays ≤ maxInt - 106751 →
      ((status chore lookup now).Status = StatusOverdue →
        1 ≤ (status chore lookup now).DaysOverdue ∧ (status chore lookup now).DaysUntil = 0) ∧
      ((status chore lookup now).Status = StatusDueToday →
        (status chore lookup now).DaysOverdue = 0 ∧ (status chore lookup now).DaysUntil = 0) ∧
      ((status chore lookup now).Status = StatusUpcoming →
        1 ≤ (status chore lookup now).DaysUntil ∧ (status chore lookup now).DaysUntil ≤ 7 ∧
          (status chore lookup now).DaysOverdue = 0) ∧
      ((status chore lookup now).Status = StatusClear →
        8 ≤ (status chore lookup now).DaysUntil ∧
          (status chore lookup now).DaysOverdue = 0) ∧
      ((status chore lookup now).Status = StatusOverdue ∨
        (status chore lookup now).Status = StatusDueToday ∨
        (status chore lookup now).Status = StatusUpcoming ∨
        (status chore lookup now).Status = StatusClear)) := by
  cases lookup with
  | none =>
    unfold status StatusOverdue StatusDueToday StatusUpcoming StatusClear NeverDoneSentinel
    simp
  | some lastDone =>
    obtain ⟨b1, b2⟩ := DaysBetween_bounds lastDone now
    refine ⟨(by rw [status_LastDone]), (fun h => by cases h), ?_⟩
    intro h1 h2
    unfold minInt at h1
    unfold maxInt at h2
    have w1 : wrapInt (DaysBetween lastDone now - chore.FrequencyDays)
        = DaysBetween lastDone now - chore.FrequencyDays :=
      wrapInt_of_range (by unfold minInt; omega) (by unfold maxInt; omega)
    have w2 : wrapInt (chore.FrequencyDays - DaysBetween lastDone now)
        = chore.FrequencyDays - DaysBetween lastDone now :=
      wrapInt_of_range (by unfold minInt; omega) (by unfold maxInt; omega)
    unfold status StatusOverdue StatusDueToday StatusUpcoming StatusClear
    simp only [w1, w2]
    split_ifs <;> simp <;> omega

/-- The tagged record of an entry, away from the ends of the range of `int`: an entry
of `Calculate` has no `LastDone` only if it is Overdue with the sentinel, whatever
the inputs; and the fields of the entry obey the tagged record as long as the
frequency of the chore is further than 106751 from both ends of the range of `int`,
so that neither `daysSince - freq` nor `freq - daysSince` wraps around. -/
theorem Calculate_invariant_of_fits (lower : Str → Str) (chores : List Chore)
    (completions : List Completion) (now : Time) (e : ChoreStatus)
    (he : e ∈ Calculate lower chores completions now) :
    (e.LastDone = none → e.Status = StatusOverdue ∧ e.DaysOverdue = NeverDoneSentinel) ∧
    (minInt + 106752 ≤ e.Chore.FrequencyDays → e.Chore.FrequencyDays ≤ maxInt - 106751 →
      (e.Status = StatusOverdue → 1 ≤ e.DaysOverdue ∧ e.DaysUntil = 0) ∧
      (e.Status = StatusDueToday → e.DaysOverdue = 0 ∧ e.DaysUntil = 0) ∧
      (e.Status = StatusUpcoming → 1 ≤ e.DaysUntil ∧ e.DaysUntil ≤ 7 ∧ e.DaysOverdue = 0) ∧
      (e.Status = StatusClear → 8 ≤ e.DaysUntil ∧ e.DaysOverdue = 0) ∧
      (e.Status = StatusOverdue ∨ e.Status = StatusDueToday ∨ e.Status = StatusUpcoming ∨
        e.Status = StatusClear)) := by
  rw [Calculate_eq_map] at he
  obtain ⟨chore, -, rfl⟩ := List.mem_map.mp he
  obtain ⟨a1, a2, a3⟩ :=
    status_invariant chore (completionMap lower completions (lower chore.Name)) now
  refine ⟨fun h => ?_, ?_⟩
  · obtain ⟨b1, b2, -⟩ := a2 (a1.mp h)
    exact ⟨b1, b2⟩
  · rw [status_Chore]
    exact a3

/-- C29 fails on the code at the ends of the range of `int`: a chore to be done every
9223372036854775807 days, done on the day after `now`, is Upcoming with
`DaysUntil = -9223372036854775808`, because `freq - daysSince` wraps around. -/
theorem Calculate_invariant_overflow :
    Parse asciiLower "## A\n> 9223372036854775807d\n2026-01-02 A\n".toList
      = .ok ⟨[⟨"A".toList, 9223372036854775807, "9223372036854775807d".toList, 0, [], [], 1⟩],
          [⟨Date 2026 1 2, "A".toList, 3⟩], []⟩ ∧
    Calculate asciiLower
        [⟨"A".toList, 9223372036854775807, "9223372036854775807d".toList, 0, [], [], 1⟩]
        [⟨Date 2026 1 2, "A".toList, 3⟩] (Date 2026 1 1)
      = [⟨⟨"A".toList, 9223372036854775807, "9223372036854775807d".toList, 0, [], [], 1⟩,
          StatusUpcoming, 0, -9223372036854775808, some (Date 2026 1 2)⟩] ∧
    ¬ (1 ≤ (-9223372036854775808 : Int)) :=
  ⟨rfl, by decide, by decide⟩

/-! ## The order of the completions -/

/-- The completion map of a list and of a permutation of it agree at every key, as
long as two completions of a key at the same instant carry the same date. -/
theorem completionMap_perm (lower : Str → Str) (cs cs2 : List Completion)
    (hperm : cs.Perm cs2)
    (htie : ∀ c1 ∈ cs, ∀ c2 ∈ cs, lower c1.ChoreName = lower c2.ChoreName →
      c1.Date.unixNano = c2.Date.unixNano → c1.Date = c2.Date) (k : Str) :
    completionMap lower cs k = completionMap lower cs2 k := by
  unfold completionMap
  obtain ⟨a1, a2⟩ := foldl_recordCompletion_bounds lower k cs (fun _ => none)
  obtain ⟨b1, b2⟩ := foldl_recordCompletion_bounds lower k cs2 (fun _ => none)
  cases h1 : (cs.foldl (recordCompletion lower) (fun _ => none)) k with
  | none =>
    obtain ⟨-, hno⟩ := a1.mp h1
    exact (b1.mpr ⟨rfl, fun c hc => hno c (hperm.mem_iff.mpr hc)⟩).symm
  | some d =>
    cases h2 : (cs2.foldl (recordCompletion lower) (fun _ => none)) k with
    | none =>
      obtain ⟨-, hno⟩ := b1.mp h2
      obtain ⟨hd, -, -⟩ := a2 d h1
      rcases hd with hd | ⟨c, hc, hk, -⟩
      · cases hd
      · exact absurd hk (hno c (hperm.mem_iff.mp hc))
    | some d2 =>
      obtain ⟨hd, -, hmax⟩ := a2 d h1
      obtain ⟨hd2, -, hmax2⟩ := b2 d2 h2
      rcases hd with hd | ⟨c, hc, hk, rfl⟩
      · cases hd
      rcases hd2 with hd2 | ⟨c2, hc2, hk2, rfl⟩
      · cases hd2
      have e1 := hmax c2 (hperm.mem_iff.mpr hc2) hk2
      have e2 := hmax2 c (hperm.mem_iff.mp hc) hk
      rw [htie c hc c2 (hperm.mem_iff.mpr hc2) (hk.trans hk2.symm) (by omega)]

/-- C30 (amended): `Calculate` returns equal results on two completion lists that are
permutations of one another, for every list of chores and every now, as long as two
completions of one chore that fall on the same instant carry the same date value; so
it is for the completions that `Parse` returns, whose dates are all midnight UTC of a
day, also when several completions of a chore share the latest date. -/
theorem Calculate_completion_order (lower : Str → Str) (chores : List Chore)
    (cs cs2 : List Completion) (now : Time) (hperm : cs.Perm cs2)
    (htie : ∀ c1 ∈ cs, ∀ c2 ∈ cs, lower c1.ChoreName = lower c2.ChoreName →
      c1.Date.unixNano = c2.Date.unixNano → c1.Date = c2.Date) :
    Calculate lower chores cs now = Calculate lower chores cs2 now ∧
    ((∀ c ∈ cs, c.Date.offset = 0) →
      ∀ c1 ∈ cs, ∀ c2 ∈ cs, lower c1.ChoreName = lower c2.ChoreName →
        c1.Date.unixNano = c2.Date.unixNano → c1.Date = c2.Date) := by
  constructor
  · rw [Calculate_eq_map, Calculate_eq_map]
    apply List.map_congr_left
    intro c _
    rw [completionMap_perm lower cs cs2 hperm htie]
  · intro hoff c1 h1 c2 h2 _ hn
    have o1 := hoff c1 h1
    have o2 := hoff c2 h2
    cases hd1 : c1.Date with
    | mk n1 f1 =>
      cases hd2 : c2.Date with
      | mk n2 f2 =>
        rw [hd1] at hn o1
        rw [hd2] at hn o2
        simp only at hn o1 o2
        rw [hn, o1, o2]

/-- A use of `Calculate_completion_order`: two completions of one chore on the same
day and one on an earlier day, in two orders. -/
theorem Calculate_completion_order_witness :
    Calculate asciiLower [⟨"Test".toList, 7, [], 0, [], [], 1⟩]
        [⟨Date 2026 1 31, "test".toList, 3⟩, ⟨Date 2026 1 20, "Test".toList, 4⟩,
          ⟨Date 2026 1 31, "TEST".toList, 5⟩] (Date 2026 2 10)
      = Calculate asciiLower [⟨"Test".toList, 7, [], 0, [], [], 1⟩]
        [⟨Date 2026 1 31, "TEST".toList, 5⟩, ⟨Date 2026 1 20, "Test".toList, 4⟩,
          ⟨Date 2026 1 31, "test".toList, 3⟩] (Date 2026 2 10) :=
  (Calculate_completion_order asciiLower [⟨"Test".toList, 7, [], 0, [], [], 1⟩]
    [⟨Date 2026 1 31, "test".toList, 3⟩, ⟨Date 2026 1 20, "Test".toList, 4⟩,
      ⟨Date 2026 1 31, "TEST".toList, 5⟩]
    [⟨Date 2026 1 31, "TEST".toList, 5⟩, ⟨Date 2026 1 20, "Test".toList, 4⟩,
      ⟨Date 2026 1 31, "test".toList, 3⟩] (Date 2026 2 10)
    (by decide) (by decide)).1

/-- C30 as stated fails: two completions of one chore at the same instant, one in UTC
(where it is the first of January, 23:00) and one in a zone two hours east (where it is
the second of January, 01:00); `Calculate` keeps the one that comes first in the list,
and the chore is Overdue in one order and DueToday in the other. -/
theorem Calculate_completion_order_counterexample :
    List.Perm
      [(⟨⟨1767308400000000000, 0⟩, "A".toList, 3⟩ : Completion),
        ⟨⟨1767308400000000000, 7200⟩, "A".toList, 4⟩]
      [⟨⟨1767308400000000000, 7200⟩, "A".toList, 4⟩,
        ⟨⟨1767308400000000000, 0⟩, "A".toList, 3⟩] ∧
    Calculate asciiLower [⟨"A".toList, 1, "1d".toList, 0, [], [], 1⟩]
        [⟨⟨1767308400000000000, 0⟩, "A".toList, 3⟩,
          ⟨⟨1767308400000000000, 7200⟩, "A".toList, 4⟩] (Date 2026 1 3)
      = [⟨⟨"A".toList, 1, "1d".toList, 0, [], [], 1⟩, StatusOverdue, 1, 0,
          some ⟨1767308400000000000, 0⟩⟩] ∧
    Calculate asciiLower [⟨"A".toList, 1, "1d".toList, 0, [], [], 1⟩]
        [⟨⟨1767308400000000000, 7200⟩, "A".toList, 4⟩,
          ⟨⟨1767308400000000000, 0⟩, "A".toList, 3⟩] (Date 2026 1 3)
      = [⟨⟨"A".toList, 1, "1d".toList, 0, [], [], 1⟩, StatusDueToday, 0, 0,
          some ⟨1767308400000000000, 7200⟩⟩] :=
  ⟨List.Perm.swap _ _ _, by decide, by decide⟩

/-! ## Determinism of the urgency order -/

/-- Two ordered lists with the same members are equal, when two members that are not
before one another are equal. -/
theorem sorted_perm_unique {α : Type} (r : α → α → Prop) :
    ∀ (l1 l2 : List α), l1.Perm l2 → l1.Pairwise r → l2.Pairwise r →
      (∀ a ∈ l1, ∀ b ∈ l1, r a b → r b a → a = b) → l1 = l2 := by
  intro l1
  induction l1 with
  | nil =>
    intro l2 hp _ _ _
    exact hp.nil_eq
  | cons a t1 ih =>
    intro l2 hp hs1 hs2 hanti
    cases l2 with
    | nil => exact absurd hp.symm.nil_eq (by simp)
    | cons b t2 =>
      obtain ⟨ha1, hs1t⟩ := List.pairwise_cons.mp hs1
      obtain ⟨hb2, hs2t⟩ := List.pairwise_cons.mp hs2
      have hab : a = b := by
        by_contra hne
        have hb : b ∈ t1 := by
          have : b ∈ a :: t1 := hp.mem_iff.mpr (List.mem_cons_self _ _)
          rcases List.mem_cons.mp this with h | h
          · exact absurd h.symm hne
          · exact h
        have ha : a ∈ t2 := by
          have : a ∈ b :: t2 := hp.mem_iff.mp (List.mem_cons_self _ _)
          rcases List.mem_cons.mp this with h | h
          · exact absurd h hne
          · exact h
        exact hne (hanti a (List.mem_cons_self _ _) b (List.mem_cons_of_mem _ hb)
          (ha1 b hb) (hb2 a ha))
      subst hab
      rw [ih t2 (List.Perm.cons_inv hp) hs1t hs2t
        (fun x hx y hy => hanti x (List.mem_cons_of_mem _ hx) y (List.mem_cons_of_mem _ hy))]

/-- Two entries neither of which is before the other have the same lower-cased
name. -/
theorem less_tie_name (lower : Str → Str) (a b : ChoreStatus)
    (h1 : less lower a b = false) (h2 : less lower b a = false) :
    lower a.Chore.Name = lower b.Chore.Name := by
  rw [less_false_iff, less_iff] at h1 h2
  push_neg at h1 h2
  obtain ⟨a1, a2⟩ := h1
  obtain ⟨b1, b2⟩ := h2
  have e1 : a.Status = b.Status := by omega
  obtain ⟨a3, a4⟩ := a2 e1
  obtain ⟨b3, b4⟩ := b2 e1.symm
  have e2 : sentinelKey a = sentinelKey b := by omega
  obtain ⟨a5, a6⟩ := a4 e2
  obtain ⟨b5, b6⟩ := b4 e2.symm
  have e3 : numericKey a = numericKey b := by omega
  have s1 := a6 e3
  have s2 := b6 e3.symm
  exact strLess_connected _ _ (by simpa using s1) (by simpa using s2)

/-- C27 (amended): for chores whose lower-cased names are pairwise distinct,
`SortByUrgency` applied to the result of `Calculate` yields the same sequence for
every permutation of the chores and every permutation of the completions, as long as
two completions of one chore that fall on the same instant carry the same date value
(as the completions of `Parse` do, all at midnight UTC). -/
theorem SortByUrgency_deterministic (lower : Str → Str) (chores chores2 : List Chore)
    (cs cs2 : List Completion) (now : Time)
    (hnodup : (chores.map (fun c => lower c.Name)).Nodup)
    (hchores : chores.Perm chores2) (hperm : cs.Perm cs2)
    (htie : ∀ c1 ∈ cs, ∀ c2 ∈ cs, lower c1.ChoreName = lower c2.ChoreName →
      c1.Date.unixNano = c2.Date.unixNano → c1.Date = c2.Date) :
    SortByUrgency lower (Calculate lower chores cs now)
      = SortByUrgency lower (Calculate lower chores2 cs2 now) := by
  have hcalc : Calculate lower chores2 cs2 now = Calculate lower chores2 cs now := by
    rw [Calculate_eq_map, Calculate_eq_map]
    apply List.map_congr_left
    intro c _
    rw [completionMap_perm lower cs cs2 hperm htie]
  rw [hcalc]
  have hp : (Calculate lower chores cs now).Perm (Calculate lower chores2 cs now) := by
    rw [Calculate_eq_map, Calculate_eq_map]
    exact hchores.map _
  apply sorted_perm_unique (fun a b => less lower b a = false)
  · exact (SortByUrgency_perm lower _).trans (hp.trans (SortByUrgency_perm lower _).symm)
  · exact SortByUrgency_sorted lower _
  · exact SortByUrgency_sorted lower _
  · intro a ha b hb hab hba
    have ha2 := (SortByUrgency_perm lower _).mem_iff.mp ha
    have hb2 := (SortByUrgency_perm lower _).mem_iff.mp hb
    rw [Calculate_eq_map] at ha2 hb2
    obtain ⟨ca, hca, rfl⟩ := List.mem_map.mp ha2
    obtain ⟨cb, hcb, rfl⟩ := List.mem_map.mp hb2
    have hname := less_tie_name lower _ _ hba hab
    rw [status_Chore, status_Chore] at hname
    have : ca = cb := List.inj_on_of_nodup_map hnodup hca hcb hname
    rw [this]

/-- A use of `SortByUrgency_deterministic` on the two chores of the test
`two_chores`, in both orders, with their completions in both orders. -/
theorem SortByUrgency_deterministic_witness :
    SortByUrgency asciiLower (Calculate asciiLower
        [⟨"Kitchen".toList, 7, "1w".toList, 0, [], [], 1⟩,
          ⟨"Bathroom".toList, 14, "2w".toList, 0, [], [], 4⟩]
        [⟨Date 2026 2 1, "Kitchen".toList, 7⟩, ⟨Date 2026 2 3, "bathroom".toList, 8⟩]
        (Date 2026 2 10))
      = SortByUrgency asciiLower (Calculate asciiLower
        [⟨"Bathroom".toList, 14, "2w".toList, 0, [], [], 4⟩,
          ⟨"Kitchen".toList, 7, "1w".toList, 0, [], [], 1⟩]
        [⟨Date 2026 2 3, "bathroom".toList, 8⟩, ⟨Date 2026 2 1, "Kitchen".toList, 7⟩]
        (Date 2026 2 10)) :=
  SortByUrgency_deterministic asciiLower
    [⟨"Kitchen".toList, 7, "1w".toList, 0, [], [], 1⟩,
      ⟨"Bathroom".toList, 14, "2w".toList, 0, [], [], 4⟩]
    [⟨"Bathroom".toList, 14, "2w".toList, 0, [], [], 4⟩,
      ⟨"Kitchen".toList, 7, "1w".toList, 0, [], [], 1⟩]
    [⟨Date 2026 2 1, "Kitchen".toList, 7⟩, ⟨Date 2026 2 3, "bathroom".toList, 8⟩]
    [⟨Date 2026 2 3, "bathroom".toList, 8⟩, ⟨Date 2026 2 1, "Kitchen".toList, 7⟩]
    (Date 2026 2 10) (by decide) (List.Perm.swap _ _ _) (List.Perm.swap _ _ _) (by decide)

/-- C27 as stated fails: with two completions of the chore `Z` at the same instant,
one in UTC and one in a zone two hours east, the order of these two completions
decides whether `Z` is Overdue and stands first, or DueToday and stands after `B`. -/
theorem SortByUrgency_deterministic_counterexample :
    (List.map (fun c => asciiLower c.Name)
      [(⟨"Z".toList, 1, "1d".toList, 0, [], [], 1⟩ : Chore),
        ⟨"B".toList, 1, "1d".toList, 0, [], [], 3⟩]).Nodup ∧
    List.Perm
      [(⟨⟨1767308400000000000, 0⟩, "Z".toList, 5⟩ : Completion),
        ⟨⟨1767308400000000000, 7200⟩, "Z".toList, 6⟩, ⟨Date 2026 1 2, "B".toList, 7⟩]
      [⟨⟨1767308400000000000, 7200⟩, "Z".toList, 6⟩,
        ⟨⟨1767308400000000000, 0⟩, "Z".toList, 5⟩, ⟨Date 2026 1 2, "B".toList, 7⟩] ∧
    (SortByUrgency asciiLower (Calculate asciiLower
        [⟨"Z".toList, 1, "1d".toList, 0, [], [], 1⟩, ⟨"B".toList, 1, "1d".toList, 0, [], [], 3⟩]
        [⟨⟨1767308400000000000, 0⟩, "Z".toList, 5⟩,
          ⟨⟨1767308400000000000, 7200⟩, "Z".toList, 6⟩, ⟨Date 2026 1 2, "B".toList, 7⟩]
        (Date 2026 1 3))).map (fun e => e.Chore.Name) = ["Z".toList, "B".toList] ∧
    (SortByUrgency asciiLower (Calculate asciiLower
        [⟨"Z".toList, 1, "1d".toList, 0, [], [], 1⟩, ⟨"B".toList, 1, "1d".toList, 0, [], [], 3⟩]
        [⟨⟨1767308400000000000, 7200⟩, "Z".toList, 6⟩,
          ⟨⟨1767308400000000000, 0⟩, "Z".toList, 5⟩, ⟨Date 2026 1 2, "B".toList, 7⟩]
        (Date 2026 1 3))).map (fun e => e.Chore.Name) = ["B".toList, "Z".toList] :=
  ⟨by decide, List.Perm.swap _ _ _, by decide, by decide⟩

/-! ## Marking a chore done -/

/-- C26: when the file parses and the requested name matches no chore of the result
ignoring case (`DoneCmd` compares the lower-cased names, after trimming the white
space around the requested one), `DoneCmd` returns the error `chore not found` with
the name as requested, and the world is as before: nothing is appended to the file and
nothing is written to `out`. It returns that error in no other case; and for a
requested name without white space around it, matching is equality of the lower-cased
names. -/
theorem DoneCmd_not_found (lower quote : Str → Str) (choreName : Str) (date : Time)
    (w : World) (r : ParseResult) (hparse : ParseFile lower w.file = .ok r) :
    ((∀ c ∈ r.Chores, lower c.Name ≠ lower (TrimSpace choreName)) →
      DoneCmd lower quote choreName date w = (w, some (.notFound choreName))) ∧
    ((DoneCmd lower quote choreName date w).2 = some (.notFound choreName) →
      ∀ c ∈ r.Chores, lower c.Name ≠ lower (TrimSpace choreName)) ∧
    (TrimSpace choreName = choreName → (∀ c ∈ r.Chores, lower c.Name ≠ lower choreName) →
      DoneCmd lower quote choreName date w = (w, some (.notFound choreName))) ∧
    (DoneError.notFound choreName).text quote
      = "chore not found: ".toList ++ quote choreName := by
  have hfind : (∀ c ∈ r.Chores, lower c.Name ≠ lower (TrimSpace choreName)) →
      DoneCmd lower quote choreName date w = (w, some (.notFound choreName)) := by
    intro hno
    unfold DoneCmd
    rw [hparse]
    simp only
    have hnone : r.Chores.find?
        (fun chore => decide (lower chore.Name = lower (TrimSpace choreName))) = none := by
      rw [List.find?_eq_none]
      intro c hc
      simpa using hno c hc
    rw [hnone]
  refine ⟨hfind, ?_, ?_, rfl⟩
  · intro herr c hc hmatch
    unfold DoneCmd at herr
    rw [hparse] at herr
    simp only at herr
    cases hf : r.Chores.find?
        (fun chore => decide (lower chore.Name = lower (TrimSpace choreName))) with
    | none =>
      have := List.find?_eq_none.mp hf c hc
      simp [hmatch] at this
    | some c2 =>
      rw [hf] at herr
      simp at herr
  · intro htrim hno
    apply hfind
    rw [htrim]
    exact hno

/-- A use of `DoneCmd_not_found` on the file and the name of the test
`unknown_chore`. -/
theorem DoneCmd_not_found_witness :
    DoneCmd asciiLower plainQuote "Nonexistent Chore".toList (Date 2026 2 10)
        ⟨"## Kitchen Clean\n> 1w\n\n## Bathroom Clean\n> 2w\n".toList, []⟩
      = (⟨"## Kitchen Clean\n> 1w\n\n## Bathroom Clean\n> 2w\n".toList, []⟩,
          some (.notFound "Nonexistent Chore".toList)) :=
  (DoneCmd_not_found asciiLower plainQuote "Nonexistent Chore".toList (Date 2026 2 10)
    ⟨"## Kitchen Clean\n> 1w\n\n## Bathroom Clean\n> 2w\n".toList, []⟩
    ⟨[⟨"Kitchen Clean".toList, 7, "1w".toList, 0, [], [], 1⟩,
      ⟨"Bathroom Clean".toList, 14, "2w".toList, 0, [], [], 4⟩], [], []⟩
    rfl).2.2.1 (by decide) (by decide)

/-! ## The layout of a date -/

/-- A number below a power of ten has at most that many digits. -/
theorem natToStr_length (w : Nat) : ∀ n : Nat, n < 10 ^ (w + 1) → (natToStr n).length ≤ w + 1 := by
  induction w with
  | zero =>
    intro n h
    rw [natToStr_lt n (by simpa using h)]
    simp
  | succ w ih =>
    intro n h
    by_cases h10 : n < 10
    · rw [natToStr_lt n h10]
      simp
    · rw [natToStr_ge n (by omega)]
      have : n / 10 < 10 ^ (w + 1) := by
        rw [pow_succ] at h
        omega
      have := ih (n / 10) this
      simp only [List.length_append, List.length_singleton]
      omega

/-- Zeros in front do not change the value of a run of digits. -/
theorem digitsVal_zeros (k : Nat) (ds : Str) :
    digitsVal (List.replicate k '0' ++ ds) = digitsVal ds := by
  have key : ∀ k, List.foldl (fun acc c => acc * 10 + digitVal c) 0 (List.replicate k '0') = 0 := by
    intro k
    induction k with
    | zero => rfl
    | succ k ih =>
      rw [List.replicate_succ, List.foldl_cons]
      exact ih
  unfold digitsVal
  rw [List.foldl_append, key]

/-- A number that fits the width is rendered as exactly that many digits, of the value
of the number. -/
theorem padInt_spec (x : Int) (w : Nat) (h0 : 0 ≤ x) (h1 : x.toNat < 10 ^ (w + 1)) :
    (padInt x (w + 1)).length = w + 1 ∧ (∀ c ∈ padInt x (w + 1), isDigit c = true) ∧
      digitsVal (padInt x (w + 1)) = x.toNat := by
  obtain ⟨a, b, -, -⟩ := natToStr_spec x.toNat
  have hlen := natToStr_length w x.toNat h1
  have habs : x.natAbs = x.toNat := by omega
  unfold padInt
  rw [if_neg (by omega), habs]
  simp only [List.nil_append]
  refine ⟨?_, ?_, ?_⟩
  · simp only [List.length_append, List.length_replicate]
    omega
  · intro c hc
    rcases List.mem_append.mp hc with hc | hc
    · rw [(List.mem_replicate.mp hc).2]
      decide
    · exact a c hc
  · rw [digitsVal_zeros, b]

/-- The characters of a rendered number are digits or the sign. -/
theorem padInt_chars (x : Int) (w : Nat) :
    ∀ c ∈ padInt x w, isDigit c = true ∨ c = '-' := by
  obtain ⟨a, -, -, -⟩ := natToStr_spec x.natAbs
  intro c hc
  unfold padInt at hc
  rcases List.mem_append.mp hc with hc | hc
  · split_ifs at hc
    · right
      simpa using hc
    · simp at hc
  · left
    rcases List.mem_append.mp hc with hc | hc
    · rw [(List.mem_replicate.mp hc).2]
      decide
    · exact a c hc

/-- The characters of a formatted date are digits or `-`. -/
theorem formatDate_chars (t : Time) : ∀ c ∈ formatDate t, isDigit c = true ∨ c = '-' := by
  intro c hc
  unfold formatDate at hc
  simp only [List.mem_append, List.mem_cons] at hc
  rcases hc with hc | hc | hc | hc | hc
  · exact padInt_chars _ _ c hc
  · exact Or.inr hc
  · exact padInt_chars _ _ c hc
  · exact Or.inr hc
  · exact padInt_chars _ _ c hc

theorem length_four {α : Type} (l : List α) (h : l.length = 4) :
    ∃ a b c d, l = [a, b, c, d] := by
  match l, h with
  | [a, b, c, d], _ => exact ⟨a, b, c, d, rfl⟩

theorem length_two {α : Type} (l : List α) (h : l.length = 2) : ∃ a b, l = [a, b] := by
  match l, h with
  | [a, b], _ => exact ⟨a, b, rfl⟩

/-- The date of a time with a year of at most four digits is formatted as
`YYYY-MM-DD`, and the parser reads it back as midnight UTC of the same day. -/
theorem formatDate_spec (t : Time) (h0 : 0 ≤ t.Year) (h1 : t.Year ≤ 9999) :
    (formatDate t).length = 10 ∧ isDateShape (formatDate t) = true ∧
      parseDate (formatDate t) = some (midnightUTC t) := by
  obtain ⟨m1, m2, d1, d2, hrt⟩ := civilFromDays_spec t.civilDay h0
  have hm : t.Month = (civilFromDays t.civilDay).2.1 := rfl
  have hd : t.Day = (civilFromDays t.civilDay).2.2 := rfl
  have hy : t.Year = (civilFromDays t.civilDay).1 := rfl
  rw [← hm, ← hd, ← hy] at hrt
  rw [← hm] at m1 m2 d2
  rw [← hd] at d1 d2
  rw [← hy] at d2
  have hday : t.Day ≤ 31 := by
    unfold daysIn at d2
    split_ifs at d2 <;> omega
  obtain ⟨y1, y2, y3⟩ := padInt_spec t.Year 3 h0 (by norm_num; omega)
  obtain ⟨n1, n2, n3⟩ := padInt_spec (t.Month : Int) 1 (by omega) (by norm_num; omega)
  obtain ⟨e1, e2, e3⟩ := padInt_spec (t.Day : Int) 1 (by omega) (by norm_num; omega)
  simp only [Int.toNat_ofNat] at n3 e3
  unfold formatDate
  generalize padInt t.Year (3 + 1) = Y at y1 y2 y3
  generalize padInt (t.Month : Int) (1 + 1) = M at n1 n2 n3
  generalize padInt (t.Day : Int) (1 + 1) = D at e1 e2 e3
  obtain ⟨a, b, c, d, rfl⟩ := length_four Y y1
  obtain ⟨f, g, rfl⟩ := length_two M n1
  obtain ⟨i, j, rfl⟩ := length_two D e1
  refine ⟨rfl, ?_, ?_⟩
  · simp only [List.mem_cons, List.mem_singleton, List.not_mem_nil, or_false, forall_eq_or_imp,
      forall_eq] at y2 n2 e2
    simp [isDateShape, y2, n2, e2]
  · unfold parseDate
    simp only [List.cons_append, List.nil_append, List.take, List.drop]
    rw [y3, n3, e3, if_pos ⟨m1, m2, d1, d2⟩]
    unfold Date midnightUTC
    rw [hrt]

/-! ## The lines of a text -/

theorem Split_ne_nil : ∀ s : Str, Split s ≠ [] := by
  intro s
  induction s with
  | nil => simp [Split]
  | cons c cs ih =>
    unfold Split
    split_ifs
    · simp
    · cases h : Split cs with
      | nil => simp
      | cons l ls => simp

/-- Cutting a text at a newline cuts its lines in two runs. -/
theorem Split_append_newline (a b : Str) : Split (a ++ '\n' :: b) = Split a ++ Split b := by
  induction a with
  | nil =>
    have e : Split ([] : Str) = [[]] := rfl
    rw [List.nil_append, e]
    conv_lhs => rw [Split, if_pos (by decide)]
    rfl
  | cons c cs ih =>
    rw [List.cons_append]
    by_cases hc : c.toNat = 10
    · rw [Split, if_pos hc, ih]
      conv_rhs => rw [Split, if_pos hc]
      rfl
    · rw [Split, if_neg hc, ih]
      conv_rhs => rw [Split, if_neg hc]
      cases h : Split cs with
      | nil => exact absurd h (Split_ne_nil cs)
      | cons l ls => rfl

/-- A line holds no newline. -/
theorem Split_no_newline : ∀ (s : Str), ∀ l ∈ Split s, ∀ c ∈ l, c.toNat ≠ 10 := by
  intro s
  induction s with
  | nil =>
    intro l hl c hc
    simp only [Split, List.mem_singleton] at hl
    subst hl
    cases hc
  | cons x xs ih =>
    intro l hl c hc
    unfold Split at hl
    split_ifs at hl with hx
    · rcases List.mem_cons.mp hl with h | h
      · subst h; cases hc
      · exact ih l h c hc
    · cases h : Split xs with
      | nil => exact absurd h (Split_ne_nil xs)
      | cons l0 ls =>
        rw [h] at hl ih
        simp only at hl
        rcases List.mem_cons.mp hl with h1 | h1
        · subst h1
          rcases List.mem_cons.mp hc with h2 | h2
          · rw [h2]; exact hx
          · exact ih l0 (List.mem_cons_self _ _) c h2
        · exact ih l (List.mem_cons_of_mem _ h1) c hc

/-- A text without a newline is one line. -/
theorem Split_of_no_newline : ∀ (s : Str), (∀ c ∈ s, c.toNat ≠ 10) → Split s = [s] := by
  intro s
  induction s with
  | nil => intro _; rfl
  | cons x xs ih =>
    intro h
    rw [Split, if_neg (h x (List.mem_cons_self _ _)),
      ih (fun c hc => h c (List.mem_cons_of_mem _ hc))]

/-- A text that ends in a newline, cut before it. -/
theorem getLast_newline (s : Str) (h : s.getLast? = some '\n') : ∃ f, s = f ++ ['\n'] := by
  refine ⟨s.dropLast, ?_⟩
  have hne : s ≠ [] := by
    intro h0
    rw [h0] at h
    cases h
  have := List.dropLast_append_getLast hne
  rw [List.getLast?_eq_getLast _ hne] at h
  simp only [Option.some.injEq] at h
  rw [h] at this
  exact this.symm

/-- The lines of a text to which a line and a newline are appended, on a line of its
own: the lines of the text, where the empty line after a final newline (and the one
line of the empty text) gives way, then the new line and an empty line. -/
theorem Split_appended (file entry : Str) (hentry : ∀ c ∈ entry, c.toNat ≠ 10) :
    ∃ ls, Split (file ++ ((if file ≠ [] ∧ file.getLast? ≠ some '\n' then ['\n'] else [])
        ++ (entry ++ ['\n']))) = ls ++ [entry, []] ∧
      (if file ≠ [] ∧ file.getLast? ≠ some '\n' then Split file = ls
        else Split file = ls ++ [[]]) := by
  have hE : Split (entry ++ ['\n']) = [entry, []] := by
    rw [Split_append_newline, Split_of_no_newline entry hentry]
    rfl
  by_cases h : file ≠ [] ∧ file.getLast? ≠ some '\n'
  · simp only [if_pos h]
    refine ⟨Split file, ?_, rfl⟩
    rw [List.singleton_append, Split_append_newline, hE]
  · simp only [if_neg h, List.nil_append]
    by_cases h0 : file = []
    · subst h0
      exact ⟨[], by rw [List.nil_append, hE]; rfl, rfl⟩
    · have hl : file.getLast? = some '\n' := by
        by_contra hc
        exact h ⟨h0, hc⟩
      obtain ⟨f, rfl⟩ := getLast_newline file hl
      refine ⟨Split f, ?_, ?_⟩
      · rw [List.append_assoc, List.singleton_append, Split_append_newline, hE]
      · rw [Split_append_newline]
        rfl

/-! ## The names of the chores, and `DoneCmd` on a name that matches -/

theorem TrimSpace_mem (s : Str) (x : Char) (h : x ∈ TrimSpace s) : x ∈ s := by
  unfold TrimSpace at h
  rw [List.mem_reverse] at h
  have h1 := dropWhile_mem _ _ _ h
  rw [List.mem_reverse] at h1
  exact dropWhile_mem _ _ _ h1

theorem TrimRightCR_mem (s : Str) (x : Char) (h : x ∈ TrimRightCR s) : x ∈ s := by
  unfold TrimRightCR at h
  rw [List.mem_reverse] at h
  have h1 := dropWhile_mem _ _ _ h
  rwa [List.mem_reverse] at h1

theorem headerRegex_mem (line m : Str) (h : headerRegex line = some m) (x : Char)
    (hx : x ∈ m) : x ∈ line := by
  unfold headerRegex at h
  repeat' split at h
  all_goals first
    | (cases h; done)
    | (cases h
       exact List.mem_cons_of_mem _ (List.mem_cons_of_mem _ (dropWhile_mem _ _ _ hx)))
    | (cases h
       exact List.mem_cons_of_mem _ (List.mem_cons_of_mem _ (List.mem_of_mem_drop hx)))

/-- A text that neither begins nor ends with white space is its own trimming. -/
theorem TrimSpace_of_ends (s : Str) (h1 : ∀ x, s.head? = some x → isSpace x = false)
    (h2 : ∀ x, s.getLast? = some x → isSpace x = false) : TrimSpace s = s := by
  have e : ∀ t : Str, (∀ x, t.head? = some x → isSpace x = false) →
      t.dropWhile isSpace = t := by
    intro t ht
    cases t with
    | nil => rfl
    | cons a as => simp [List.dropWhile, ht a rfl]
  unfold TrimSpace
  rw [e s h1, e s.reverse (by rw [List.head?_reverse]; exact h2), List.reverse_reverse]

/-- The name that a header line declares is made of characters of the line. -/
theorem headerName_mem (l name : Str) (h : headerName l = some name) (x : Char)
    (hx : x ∈ name) : x ∈ l := by
  obtain ⟨m1, hm, rfl⟩ := (headerName_eq_some l name).mp h
  exact TrimRightCR_mem _ _ (headerRegex_mem _ _ hm x (TrimSpace_mem _ _ hx))

/-- The chores of a successful parse have pairwise different keys, and names that are
trimmed and hold no newline. -/
theorem Parse_chores_wf (lower : Str → Str) (content : Str) (r : ParseResult)
    (hparse : Parse lower content = .ok r) :
    r.Chores.Pairwise (fun a b => lower a.Name ≠ lower b.Name) ∧
    ∀ c ∈ r.Chores, (∀ x ∈ c.Name, x.toNat ≠ 10) ∧ TrimSpace c.Name = c.Name ∧
      (∀ x, c.Name.head? = some x → isSpace x = false) ∧
      (∀ x, c.Name.getLast? = some x → isSpace x = false) ∧ c.FrequencyDays ≠ 0 := by
  unfold Parse at hparse
  cases hrun : parseLines lower 1 (Split content) State.init with
  | error e => rw [hrun] at hparse; cases hparse
  | ok st =>
    rw [hrun] at hparse
    simp only at hparse
    obtain ⟨hr, hfreq⟩ := validate_ok _ _ hparse
    subst hr
    obtain ⟨-, g2, -, g4⟩ := parseLines_names lower (Split content) [] State.init st hrun
      (by simp [State.init, State.flush])
    simp only [List.nil_append] at g2
    refine ⟨by rw [List.pairwise_map] at g4; exact g4, ?_⟩
    intro c hc
    obtain ⟨-, -, l, a3, a4⟩ := g2 (c.Name, c.Line) (List.mem_map.mpr ⟨c, hc, rfl⟩)
    simp only at a3 a4
    have hl : l ∈ Split content := List.getElem?_mem a3
    obtain ⟨m1, -, hm⟩ := (headerName_eq_some l c.Name).mp a4
    have hends := TrimSpace_ends m1
    rw [hm] at hends
    refine ⟨fun x hx => Split_no_newline content l hl x (headerName_mem l _ a4 x hx), ?_,
      hends.1, hends.2, hfreq c hc⟩
    exact TrimSpace_of_ends _ hends.1 hends.2

theorem ParseFile_ok (lower : Str → Str) (content : Str) (r : ParseResult)
    (h : ParseFile lower content = .ok r) :
    Parse lower (scannedText content) = .ok r ∧
      (scanPieces content).any (fun l => decide (MaxScanTokenSize ≤ byteLen l)) = false := by
  unfold ParseFile at h
  split_ifs at h with hlong
  cases hp : Parse lower (scannedText content) with
  | error e => rw [hp] at h; cases h
  | ok r2 =>
    rw [hp] at h
    cases h
    exact ⟨rfl, by simpa using hlong⟩

/-- The first element that a test picks, when all elements that pass it are one. -/
theorem find?_unique {α : Type} (p : α → Bool) (l : List α) (c : α) (hc : c ∈ l)
    (hp : p c = true) (hu : ∀ a ∈ l, p a = true → a = c) : l.find? p = some c := by
  cases h : l.find? p with
  | none => exact absurd hp (by simpa using List.find?_eq_none.mp h c hc)
  | some a => rw [hu a (List.mem_of_find?_eq_some h) (List.find?_some h)]

/-- The chore that `DoneCmd` picks for a requested name that matches the chore `c` of
the result is `c`, which is the first and only chore of the result that matches. -/
theorem DoneCmd_find (lower : Str → Str) (content choreName : Str) (r : ParseResult)
    (c : Chore) (hparse : Parse lower content = .ok r) (hc : c ∈ r.Chores)
    (hmatch : lower c.Name = lower (TrimSpace choreName)) :
    r.Chores.find? (fun chore => decide (lower chore.Name = lower (TrimSpace choreName)))
      = some c ∧
    ∃ before after, r.Chores = before ++ c :: after ∧
      (∀ b ∈ before, lower b.Name ≠ lower (TrimSpace choreName)) ∧
      ∀ b ∈ after, lower b.Name ≠ lower (TrimSpace choreName) := by
  obtain ⟨hpair, -⟩ := Parse_chores_wf lower content r hparse
  constructor
  · apply find?_unique _ _ c hc (by simpa using hmatch)
    intro a ha hpa
    by_contra hne
    have hsym : Symmetric (fun a b : Chore => lower a.Name ≠ lower b.Name) :=
      fun x y h => Ne.symm h
    have := List.Pairwise.forall hsym hpair ha hc hne
    apply this
    rw [hmatch]
    simpa using hpa
  · obtain ⟨before, after, hsplit⟩ := List.append_of_mem hc
    refine ⟨before, after, hsplit, ?_, ?_⟩
    · intro b hb
      rw [hsplit, List.pairwise_append] at hpair
      rw [← hmatch]
      exact hpair.2.2 b hb c (List.mem_cons_self _ _)
    · intro b hb he
      rw [hsplit, List.pairwise_append, List.pairwise_cons] at hpair
      exact hpair.2.1.1 b hb (hmatch.trans he.symm)

/-- C25 (amended): when the file parses and the requested name, trimmed and
lower-cased, equals the lower-cased name of a chore `c` of the result, `DoneCmd`
returns no error, leaves the existing content as a prefix and appends the date as
`t.Format("2006-01-02")` writes it, a blank, the name of `c` as its header writes it,
and a newline, with one newline in front exactly when the existing content is not
empty and does not end in a newline; `c` is the first chore of the result that matches
(and the only one); the new content ends in a newline, and its lines are those of the
old content, then the entry on a line of its own, then an empty line. For a year from
0 to 9999 the date has the shape `YYYY-MM-DD` and reads back as the day of `date`. -/
theorem DoneCmd_appends (lower quote : Str → Str) (choreName : Str) (date : Time) (w : World)
    (r : ParseResult) (c : Chore) (hparse : ParseFile lower w.file = .ok r)
    (hc : c ∈ r.Chores) (hmatch : lower c.Name = lower (TrimSpace choreName)) :
    DoneCmd lower quote choreName date w
      = (⟨w.file ++ ((if w.file ≠ [] ∧ w.file.getLast? ≠ some '\n' then ['\n'] else [])
            ++ (formatDate date ++ ' ' :: (c.Name ++ ['\n']))),
          w.out ++ ("Done: ".toList ++ quote c.Name ++ " (".toList ++ formatDate date
            ++ ")\n".toList)⟩, none) ∧
    (∃ before after, r.Chores = before ++ c :: after ∧
      (∀ b ∈ before, lower b.Name ≠ lower (TrimSpace choreName)) ∧
      ∀ b ∈ after, lower b.Name ≠ lower (TrimSpace choreName)) ∧
    (w.file ++ ((if w.file ≠ [] ∧ w.file.getLast? ≠ some '\n' then ['\n'] else [])
      ++ (formatDate date ++ ' ' :: (c.Name ++ ['\n'])))).getLast? = some '\n' ∧
    (∃ ls, Split (w.file ++ ((if w.file ≠ [] ∧ w.file.getLast? ≠ some '\n' then ['\n'] else [])
        ++ (formatDate date ++ ' ' :: (c.Name ++ ['\n']))))
        = ls ++ [formatDate date ++ ' ' :: c.Name, []] ∧
      (if w.file ≠ [] ∧ w.file.getLast? ≠ some '\n' then Split w.file = ls
        else Split w.file = ls ++ [[]])) ∧
    (0 ≤ date.Year → date.Year ≤ 9999 →
      (formatDate date).length = 10 ∧ isDateShape (formatDate date) = true ∧
        parseDate (formatDate date) = some (midnightUTC date)) := by
  obtain ⟨hp, -⟩ := ParseFile_ok lower w.file r hparse
  obtain ⟨hfind, hfirst⟩ := DoneCmd_find lower _ choreName r c hp hc hmatch
  obtain ⟨-, hwf⟩ := Parse_chores_wf lower _ r hp
  obtain ⟨hnl, -⟩ := hwf c hc
  have hentry : ∀ x ∈ formatDate date ++ ' ' :: c.Name, x.toNat ≠ 10 := by
    intro x hx
    rcases List.mem_append.mp hx with hx | hx
    · rcases formatDate_chars date x hx with hd | hd
      · unfold isDigit at hd
        simp only [Bool.and_eq_true, decide_eq_true_eq] at hd
        omega
      · rw [hd]; decide
    · rcases List.mem_cons.mp hx with hx | hx
      · rw [hx]; decide
      · exact hnl x hx
  have happ : formatDate date ++ ' ' :: (c.Name ++ ['\n'])
      = (formatDate date ++ ' ' :: c.Name) ++ ['\n'] := by simp
  refine ⟨?_, hfirst, ?_, ?_, fun h0 h1 => formatDate_spec date h0 h1⟩
  · unfold DoneCmd
    rw [hparse]
    simp only
    rw [hfind]
  · rw [happ, ← List.append_assoc, ← List.append_assoc, List.getLast?_append]
    rfl
  · rw [happ]
    exact Split_appended w.file _ hentry

/-- A use of `DoneCmd_appends` on the test `case_insensitive`: the name is written as
the header writes it. -/
theorem DoneCmd_appends_witness :
    DoneCmd asciiLower plainQuote "kitchen clean".toList (Date 2026 2 10)
        ⟨"## Kitchen Clean\n> 1w\n\n## Bathroom Clean\n> 2w\n".toList, []⟩
      = (⟨"## Kitchen Clean\n> 1w\n\n## Bathroom Clean\n> 2w\n2026-02-10 Kitchen Clean\n".toList,
          "Done: \"Kitchen Clean\" (2026-02-10)\n".toList⟩, none) :=
  ((DoneCmd_appends asciiLower plainQuote "kitchen clean".toList (Date 2026 2 10)
    ⟨"## Kitchen Clean\n> 1w\n\n## Bathroom Clean\n> 2w\n".toList, []⟩
    ⟨[⟨"Kitchen Clean".toList, 7, "1w".toList, 0, [], [], 1⟩,
      ⟨"Bathroom Clean".toList, 14, "2w".toList, 0, [], [], 4⟩], [], []⟩
    ⟨"Kitchen Clean".toList, 7, "1w".toList, 0, [], [], 1⟩
    rfl (by decide) (by decide)).1).trans (by decide)

/-- C25 as stated fails for a year of five digits: for the first day of the year 10000
`DoneCmd` appends `10000-01-01 A`, whose date has eleven characters and is not of the
form `YYYY-MM-DD`; the parser takes the entry for a line of the description. -/
theorem DoneCmd_appends_counterexample :
    (Date 10000 1 1).Year = 10000 ∧
    DoneCmd asciiLower plainQuote "A".toList (Date 10000 1 1) ⟨"## A\n> 1w\n".toList, []⟩
      = (⟨"## A\n> 1w\n10000-01-01 A\n".toList, "Done: \"A\" (10000-01-01)\n".toList⟩,
          none) ∧
    formatDate (Date 10000 1 1) = "10000-01-01".toList ∧
    (formatDate (Date 10000 1 1)).length = 11 ∧
    isDateShape (formatDate (Date 10000 1 1)) = false ∧
    completionRegex "10000-01-01 A".toList = none ∧
    Parse asciiLower "## A\n> 1w\n10000-01-01 A\n".toList
      = .ok ⟨[⟨"A".toList, 7, "1w".toList, 0, [], "10000-01-01 A".toList, 1⟩], [], []⟩ :=
  ⟨by decide, by decide, by decide, by decide, by decide, by decide, rfl⟩

/-! ## `ParseFile` and `Parse` -/

theorem dropCR_cases (l : Str) : dropCR l = l ∨ l = dropCR l ++ ['\r'] := by
  unfold dropCR
  split_ifs with h
  · right
    have hne : l ≠ [] := by
      intro h0
      rw [h0] at h
      cases h
    have := List.dropLast_append_getLast hne
    rw [List.getLast?_eq_getLast _ hne] at h
    simp only [Option.some.injEq] at h
    rw [h] at this
    exact this.symm
  · left; rfl

theorem dropCR_mem (l : Str) (x : Char) (h : x ∈ dropCR l) : x ∈ l := by
  rcases dropCR_cases l with e | e
  · rwa [e] at h
  · rw [e]
    exact List.mem_append_left _ h

/-- The loop of `Parse` trims every carriage return at the end of a line, so the one
that the scanner drops makes no difference. -/
theorem TrimRightCR_dropCR (l : Str) : TrimRightCR (dropCR l) = TrimRightCR l := by
  rcases dropCR_cases l with e | e
  · rw [e]
  · conv_rhs => rw [e]
    unfold TrimRightCR
    rw [List.reverse_append]
    simp [List.dropWhile]

theorem parseLines_dropCR (lower : Str → Str) :
    ∀ (ls : List Str) (n : Nat) (st : State),
      parseLines lower n (ls.map dropCR) st = parseLines lower n ls st := by
  intro ls
  induction ls with
  | nil => intro n st; rfl
  | cons l ls ih =>
    intro n st
    simp only [List.map_cons, parseLines, TrimRightCR_dropCR]
    cases parseLine lower n (TrimRightCR l) st with
    | error e => rfl
    | ok st1 => exact ih (n + 1) st1

/-- An empty line at the end changes nothing. -/
theorem parseLines_trailing_empty (lower : Str → Str) (ls : List Str) (n : Nat) (st : State) :
    parseLines lower n (ls ++ [[]]) st = parseLines lower n ls st := by
  rw [parseLines_append]
  cases parseLines lower n ls st with
  | error e => rfl
  | ok st1 =>
    simp only [parseLines]
    rw [parseLine_empty]

/-- The lines of the text that `ParseFile` builds. -/
theorem Split_scanned : ∀ (pieces : List Str), (∀ l ∈ pieces, ∀ c ∈ l, c.toNat ≠ 10) →
    Split (pieces.foldr (fun l acc => dropCR l ++ '\n' :: acc) [])
      = pieces.map dropCR ++ [[]] := by
  intro pieces
  induction pieces with
  | nil => intro _; rfl
  | cons l ls ih =>
    intro h
    rw [List.foldr_cons, Split_append_newline,
      ih (fun l' hl' => h l' (List.mem_cons_of_mem _ hl')),
      Split_of_no_newline _ (fun c hc => h l (List.mem_cons_self _ _) c (dropCR_mem l c hc))]
    rfl

theorem scanPieces_cases (content : Str) :
    Split content = scanPieces content ∨ Split content = scanPieces content ++ [[]] := by
  unfold scanPieces
  split_ifs with h
  · right
    have hne := Split_ne_nil content
    have := List.dropLast_append_getLast hne
    rw [List.getLast?_eq_getLast _ hne] at h
    simp only [Option.some.injEq] at h
    rw [h] at this
    exact this.symm
  · left; rfl

theorem scanPieces_mem (content : Str) (l : Str) (h : l ∈ scanPieces content) :
    l ∈ Split content := by
  rcases scanPieces_cases content with e | e
  · rwa [e]
  · rw [e]
    exact List.mem_append_left _ h

/-- The text that `ParseFile` hands to `Parse` parses as the content of the file. -/
theorem Parse_scannedText (lower : Str → Str) (content : Str) :
    Parse lower (scannedText content) = Parse lower content := by
  have hlines : parseLines lower 1 (Split (scannedText content)) State.init
      = parseLines lower 1 (Split content) State.init := by
    unfold scannedText
    rw [Split_scanned _ (fun l hl => Split_no_newline content l (scanPieces_mem content l hl)),
      parseLines_trailing_empty, parseLines_dropCR]
    rcases scanPieces_cases content with e | e
    · rw [e]
    · conv_rhs => rw [e, parseLines_trailing_empty]
  unfold Parse
  rw [hlines]

/-- `ParseFile` accepts a file exactly when `Parse` accepts its content and every line
fits the buffer of the scanner; the results are the same. -/
theorem ParseFile_iff (lower : Str → Str) (content : Str) (r : ParseResult) :
    ParseFile lower content = .ok r ↔
      Parse lower content = .ok r ∧ ∀ l ∈ scanPieces content, byteLen l < MaxScanTokenSize := by
  unfold ParseFile
  rw [Parse_scannedText]
  constructor
  · intro h
    split_ifs at h with hlong
    cases hp : Parse lower content with
    | error e => rw [hp] at h; cases h
    | ok r2 =>
      rw [hp] at h
      cases h
      refine ⟨rfl, ?_⟩
      intro l hl
      by_contra hc
      apply hlong
      rw [List.any_eq_true]
      exact ⟨l, hl, by simpa using hc⟩
  · rintro ⟨hp, hshort⟩
    rw [if_neg, hp]
    rw [List.any_eq_true]
    rintro ⟨l, hl, hc⟩
    have := hshort l hl
    simp only [decide_eq_true_eq] at hc
    omega

/-! ## Parsing the entry that `DoneCmd` appends -/

theorem isReSpace_isSpace (c : Char) (h : isReSpace c = true) : isSpace c = true := by
  unfold isReSpace at h
  unfold isSpace
  simp only [Bool.or_eq_true, beq_iff_eq] at h
  simp only [Bool.or_eq_true, Bool.and_eq_true, decide_eq_true_eq, beq_iff_eq]
  omega

/-- A text without `#` is taken whole by the lazy capture, and is no comment. -/
theorem lazyName_plain : ∀ cs : Str, '#' ∉ cs →
    lazyName cs = cs ∧ (cs ≠ [] → commentTail cs = false) := by
  intro cs
  induction cs with
  | nil => intro _; exact ⟨rfl, fun h => absurd rfl h⟩
  | cons c t ih =>
    intro h
    have ht : '#' ∉ t := fun hx => h (List.mem_cons_of_mem _ hx)
    obtain ⟨ih1, ih2⟩ := ih ht
    have hct : commentTail (c :: t) = false := by
      unfold commentTail
      simp only
      cases hd : (c :: t).dropWhile isReSpace with
      | nil => rfl
      | cons x xs =>
        simp only [decide_eq_false_iff_not]
        intro hx
        have : x ∈ c :: t := dropWhile_mem _ _ _ (by rw [hd]; exact List.mem_cons_self _ _)
        rw [hx] at this
        exact h this
    refine ⟨?_, fun _ => hct⟩
    simp only [lazyName]
    cases t with
    | nil => simp [commentTail]
    | cons d ds =>
      rw [if_neg (by rw [ih2 (by simp)]; simp), ih1]

/-- A name without `#` after its first character is taken whole by the lazy capture. -/
theorem lazyName_full (name : Str) (h : '#' ∉ name.tail) : lazyName name = name := by
  cases name with
  | nil => rfl
  | cons c t =>
    simp only [List.tail_cons] at h
    obtain ⟨h1, h2⟩ := lazyName_plain t h
    simp only [lazyName]
    cases t with
    | nil => simp [commentTail]
    | cons d ds =>
      rw [if_neg (by rw [h2 (by simp)]; simp), h1]

/-- A date, a blank and a trimmed name without `#` after its first character are a
completion line with that date and that name. -/
theorem completionRegex_entry (F name : Str) (hlen : F.length = 10)
    (hshape : isDateShape F = true) (hne : name ≠ [])
    (hhead : ∀ x, name.head? = some x → isSpace x = false) (hhash : '#' ∉ name.tail) :
    completionRegex (F ++ ' ' :: name) = some (F, name) := by
  have htake : (F ++ ' ' :: name).take 10 = F := by
    rw [← hlen, List.take_left]
  have hdrop : (F ++ ' ' :: name).drop 10 = ' ' :: name := by
    rw [← hlen, List.drop_left]
  have hdw : (' ' :: name).dropWhile isReSpace = name := by
    have h1 : isReSpace ' ' = true := by decide
    simp only [List.dropWhile, h1]
    cases name with
    | nil => rfl
    | cons x xs =>
      have hx : isReSpace x = false := by
        cases hr : isReSpace x with
        | false => rfl
        | true =>
          have := isReSpace_isSpace x hr
          rw [hhead x rfl] at this
          cases this
      simp [List.dropWhile, hx]
  unfold completionRegex
  rw [htake, if_pos hshape, hdrop]
  simp only
  rw [if_pos (by decide), hdw, if_pos hne, lazyName_full name hhash]

theorem TrimRightCR_of_last (s : Str) (h : ∀ x, s.getLast? = some x → isSpace x = false) :
    TrimRightCR s = s := by
  unfold TrimRightCR
  cases hr : s.reverse with
  | nil =>
    have : s = [] := List.reverse_eq_nil_iff.mp hr
    subst this
    rfl
  | cons a as =>
    have ha : s.getLast? = some a := by
      rw [← List.head?_reverse, hr]
      rfl
    have hsp := h a ha
    have h13 : (a.toNat == 13) = false := by
      cases h13 : a.toNat == 13 with
      | false => rfl
      | true =>
        have : isSpace a = true := by
          unfold isSpace
          simp only [beq_iff_eq] at h13
          simp [h13]
        rw [hsp] at this
        cases this
    simp only [List.dropWhile, h13]
    rw [← hr, List.reverse_reverse]

/-- One turn of the loop on the entry that `DoneCmd` writes adds its completion and
nothing else. -/
theorem parseLine_entry (lower : Str → Str) (n : Nat) (F name : Str) (date : Time)
    (st : State) (hlen : F.length = 10) (hshape : isDateShape F = true)
    (hdate : parseDate F = some date) (hne : name ≠ [])
    (hhead : ∀ x, name.head? = some x → isSpace x = false)
    (hlast : ∀ x, name.getLast? = some x → isSpace x = false) (hhash : '#' ∉ name.tail) :
    parseLine lower n (TrimRightCR (F ++ ' ' :: name)) st
      = .ok { st with result := { st.result with
          Completions := st.result.Completions ++ [⟨date, name, n⟩] } } := by
  have hl : ∀ x, (F ++ ' ' :: name).getLast? = some x → isSpace x = false := by
    intro x hx
    apply hlast x
    cases name with
    | nil => exact absurd rfl hne
    | cons y ys =>
      rw [List.getLast?_append, List.getLast?_cons_cons] at hx
      rw [List.getLast?_eq_getLast _ (by simp)] at hx ⊢
      simpa using hx
  have hF : ∃ a rest, F = a :: rest ∧ isDigit a = true := by
    unfold isDateShape at hshape
    split at hshape
    · rename_i y1 y2 y3 y4 s1 m1 m2 s2 d1 d2
      simp only [Bool.and_eq_true] at hshape
      exact ⟨y1, _, rfl, hshape.1.1.1.1.1.1.1.1.1⟩
    · cases hshape
  obtain ⟨a, rest, rfl, ha⟩ := hF
  have ha1 : a ≠ '#' := by
    intro h; rw [h] at ha; revert ha; decide
  have ha2 : a ≠ '>' := by
    intro h; rw [h] at ha; revert ha; decide
  rw [TrimRightCR_of_last _ hl]
  have hh : headerRegex (a :: rest ++ ' ' :: name) = none := by
    cases hx : headerRegex (a :: rest ++ ' ' :: name) with
    | none => rfl
    | some m =>
      obtain ⟨r, hr⟩ := headerRegex_first _ m hx
      simp only [List.cons_append, List.cons.injEq] at hr
      exact absurd hr.1 ha1
  have hf : parser.frequencyRegex (a :: rest ++ ' ' :: name) = none := by
    cases hx : parser.frequencyRegex (a :: rest ++ ' ' :: name) with
    | none => rfl
    | some m =>
      obtain ⟨r, hr⟩ := frequencyRegex_first _ m hx
      simp only [List.cons_append, List.cons.injEq] at hr
      exact absurd hr.1 ha2
  rw [parseLine_other lower n _ st hh (fun _ _ _ => hf)]
  unfold completionOrDescription
  rw [completionRegex_entry _ name hlen hshape hne hhead hhash]
  simp only
  rw [hdate, TrimSpace_of_ends name hhead hlast]

/-! ## Appending a completion and parsing again -/

/-- The state at the end of the lines does not change when the entry and an empty line
follow, except for the completion of the entry. -/
theorem parseLines_entry (lower : Str → Str) (ls : List Str) (F name : Str) (date : Time)
    (st : State) (hrun : parseLines lower 1 ls State.init = .ok st)
    (hlen : F.length = 10) (hshape : isDateShape F = true)
    (hdate : parseDate F = some date) (hne : name ≠ [])
    (hhead : ∀ x, name.head? = some x → isSpace x = false)
    (hlast : ∀ x, name.getLast? = some x → isSpace x = false) (hhash : '#' ∉ name.tail) :
    parseLines lower 1 (ls ++ [F ++ ' ' :: name, []]) State.init
      = .ok { st with result := { st.result with
          Completions := st.result.Completions ++ [⟨date, name, 1 + ls.length⟩] } } := by
  have e : ls ++ [F ++ ' ' :: name, []] = (ls ++ [F ++ ' ' :: name]) ++ [[]] := by simp
  rw [e, parseLines_trailing_empty, parseLines_append, hrun]
  simp only [parseLines]
  rw [parseLine_entry lower _ F name date st hlen hshape hdate hne hhead hlast hhash]

/-- The round trip where it does hold: for a file that `ParseFile` accepts (its
content is accepted by `Parse`, with the same result), a chore of the result
whose name is not empty and holds no `#` after its first character, a requested name
that matches it, and a date with a year from 0 to 9999, `DoneCmd` succeeds, and
`Parse` of the content that it leaves succeeds with the same chores and warnings and
with the completions of before followed by one completion, for the line of the entry,
with the name of the chore as its header writes it and midnight UTC of the day of
`date`; on these chores and completions `Calculate` reports for the chore a `LastDone`
that is not before that day. -/
theorem DoneCmd_roundtrip (lower quote : Str → Str) (choreName : Str) (date : Time)
    (w : World) (r : ParseResult) (c : Chore) (hparse : ParseFile lower w.file = .ok r)
    (hc : c ∈ r.Chores) (hmatch : lower c.Name = lower (TrimSpace choreName))
    (hname : c.Name ≠ []) (hhash : '#' ∉ c.Name.tail)
    (hy0 : 0 ≤ date.Year) (hy1 : date.Year ≤ 9999) :
    Parse lower w.file = .ok r ∧
    (DoneCmd lower quote choreName date w).2 = none ∧
    ∃ n, Parse lower (DoneCmd lower quote choreName date w).1.file
        = .ok ⟨r.Chores, r.Completions ++ [⟨midnightUTC date, c.Name, n⟩], r.Warnings⟩ ∧
      1 ≤ n ∧
      (Split (DoneCmd lower quote choreName date w).1.file)[n - 1]?
        = some (formatDate date ++ ' ' :: c.Name) ∧
      ∀ now, ∃ e t,
        e ∈ Calculate lower r.Chores
          (r.Completions ++ [⟨midnightUTC date, c.Name, n⟩]) now ∧
        e.Chore = c ∧ e.LastDone = some t ∧ (midnightUTC date).unixNano ≤ t.unixNano := by
  obtain ⟨hp, -⟩ := (ParseFile_iff lower w.file r).mp hparse
  obtain ⟨hfind, -⟩ := DoneCmd_find lower _ choreName r c hp hc hmatch
  obtain ⟨-, hwf⟩ := Parse_chores_wf lower _ r hp
  obtain ⟨hnl, -, hhead, hlast, -⟩ := hwf c hc
  obtain ⟨hlen, hshape, hdate⟩ := formatDate_spec date hy0 hy1
  have hentry : ∀ x ∈ formatDate date ++ ' ' :: c.Name, x.toNat ≠ 10 := by
    intro x hx
    rcases List.mem_append.mp hx with hx | hx
    · rcases formatDate_chars date x hx with hd | hd
      · unfold isDigit at hd
        simp only [Bool.and_eq_true, decide_eq_true_eq] at hd
        omega
      · rw [hd]; decide
    · rcases List.mem_cons.mp hx with hx | hx
      · rw [hx]; decide
      · exact hnl x hx
  have hdone : DoneCmd lower quote choreName date w
      = (⟨w.file ++ ((if w.file ≠ [] ∧ w.file.getLast? ≠ some '\n' then ['\n'] else [])
            ++ ((formatDate date ++ ' ' :: c.Name) ++ ['\n'])),
          w.out ++ ("Done: ".toList ++ quote c.Name ++ " (".toList ++ formatDate date
            ++ ")\n".toList)⟩, none) := by
    unfold DoneCmd
    rw [hparse]
    simp only
    rw [hfind]
    simp
  obtain ⟨ls, hls, hold⟩ := Split_appended w.file _ hentry
  -- the loop on the old content
  have hp2 := hp
  unfold Parse at hp2
  cases hrun : parseLines lower 1 (Split w.file) State.init with
  | error e => rw [hrun] at hp2; cases hp2
  | ok st =>
    rw [hrun] at hp2
    simp only at hp2
    obtain ⟨hr, -⟩ := validate_ok _ _ hp2
    have hrun2 : parseLines lower 1 ls State.init = .ok st := by
      split_ifs at hold
      · rw [← hold]; exact hrun
      · rw [hold, parseLines_trailing_empty] at hrun
        exact hrun
    have hnew := parseLines_entry lower ls (formatDate date) c.Name (midnightUTC date) st hrun2
      hlen hshape hdate hname hhead hlast hhash
    rw [hdone]
    refine ⟨hp, rfl, 1 + ls.length, ?_, by omega, ?_, ?_⟩
    · simp only
      unfold Parse
      rw [hls, hnew]
      simp only
      have hflush : State.flush { st with result := { st.result with
          Completions := st.result.Completions
            ++ [⟨midnightUTC date, c.Name, 1 + ls.length⟩] } }
          = ⟨st.flush.Chores,
              st.flush.Completions ++ [⟨midnightUTC date, c.Name, 1 + ls.length⟩],
              st.flush.Warnings⟩ := by
        unfold State.flush
        cases st.currentChore <;> rfl
      rw [hflush, ← hr]
      rw [← hr] at hp2
      exact (validate_core r ⟨r.Chores, r.Completions
        ++ [⟨midnightUTC date, c.Name, 1 + ls.length⟩], r.Warnings⟩ rfl).2 r hp2
    · simp only
      rw [hls]
      have : 1 + ls.length - 1 = ls.length := by omega
      rw [this, List.getElem?_append_right (le_refl _)]
      simp
    · intro now
      obtain ⟨b1, b2⟩ := foldl_recordCompletion_bounds lower (lower c.Name)
        (r.Completions ++ [⟨midnightUTC date, c.Name, 1 + ls.length⟩]) (fun _ => none)
      cases hm : completionMap lower
          (r.Completions ++ [⟨midnightUTC date, c.Name, 1 + ls.length⟩]) (lower c.Name) with
      | none =>
        unfold completionMap at hm
        exact absurd rfl ((b1.mp hm).2 ⟨midnightUTC date, c.Name, 1 + ls.length⟩ (by simp))
      | some t =>
        refine ⟨status c (some t) now, t, ?_, status_Chore _ _ _, status_LastDone _ _ _, ?_⟩
        · rw [Calculate_eq_map]
          exact List.mem_map.mpr ⟨c, hc, by rw [hm]⟩
        · unfold completionMap at hm
          exact (b2 t hm).2.2 ⟨midnightUTC date, c.Name, 1 + ls.length⟩ (by simp) rfl

/-- A use of `DoneCmd_roundtrip` on the file of the test `appends_entry`. -/
theorem DoneCmd_roundtrip_witness :
    Parse asciiLower "## Kitchen Clean\n> 1w\n\n## Bathroom Clean\n> 2w\n".toList
      = .ok ⟨[⟨"Kitchen Clean".toList, 7, "1w".toList, 0, [], [], 1⟩,
          ⟨"Bathroom Clean".toList, 14, "2w".toList, 0, [], [], 4⟩], [], []⟩ :=
  (DoneCmd_roundtrip asciiLower plainQuote "Kitchen Clean".toList (Date 2026 2 10)
    ⟨"## Kitchen Clean\n> 1w\n\n## Bathroom Clean\n> 2w\n".toList, []⟩
    ⟨[⟨"Kitchen Clean".toList, 7, "1w".toList, 0, [], [], 1⟩,
      ⟨"Bathroom Clean".toList, 14, "2w".toList, 0, [], [], 4⟩], [], []⟩
    ⟨"Kitchen Clean".toList, 7, "1w".toList, 0, [], [], 1⟩
    rfl (by decide) (by decide) (by decide) (by decide) (by decide) (by decide)).1

/-- C28 fails on the code for a chore whose name holds a `#`: `Parse` accepts the
header `## Clean #2`, `DoneCmd` reports success and writes `2026-02-10 Clean #2`, and
the same parser reads that entry back as a completion of `Clean` with the comment
`#2`, which matches no chore, so `Calculate` still reports the chore as never done.
It also fails for the chore with the empty name that the header `##` followed by two
blanks declares: its entry is no completion line and ends up in the description. -/
theorem DoneCmd_roundtrip_lost :
    (Parse asciiLower "## Clean #2\n> 1w\n".toList
        = .ok ⟨[⟨"Clean #2".toList, 7, "1w".toList, 0, [], [], 1⟩], [], []⟩ ∧
      DoneCmd asciiLower plainQuote "Clean #2".toList (Date 2026 2 10)
          ⟨"## Clean #2\n> 1w\n".toList, []⟩
        = (⟨"## Clean #2\n> 1w\n2026-02-10 Clean #2\n".toList,
            "Done: \"Clean #2\" (2026-02-10)\n".toList⟩, none) ∧
      Parse asciiLower "## Clean #2\n> 1w\n2026-02-10 Clean #2\n".toList
        = .ok ⟨[⟨"Clean #2".toList, 7, "1w".toList, 0, [], [], 1⟩],
            [⟨Date 2026 2 10, "Clean".toList, 3⟩], []⟩ ∧
      Calculate asciiLower [⟨"Clean #2".toList, 7, "1w".toList, 0, [], [], 1⟩]
          [⟨Date 2026 2 10, "Clean".toList, 3⟩] (Date 2026 2 10)
        = [⟨⟨"Clean #2".toList, 7, "1w".toList, 0, [], [], 1⟩, StatusOverdue,
            NeverDoneSentinel, 0, none⟩]) ∧
    (Parse asciiLower "##  \n> 1w\n".toList
        = .ok ⟨[⟨[], 7, "1w".toList, 0, [], [], 1⟩], [], []⟩ ∧
      DoneCmd asciiLower plainQuote [] (Date 2026 2 10) ⟨"##  \n> 1w\n".toList, []⟩
        = (⟨"##  \n> 1w\n2026-02-10 \n".toList, "Done: \"\" (2026-02-10)\n".toList⟩, none) ∧
      Parse asciiLower "##  \n> 1w\n2026-02-10 \n".toList
        = .ok ⟨[⟨[], 7, "1w".toList, 0, [], "2026-02-10".toList, 1⟩], [], []⟩) :=
  ⟨⟨rfl, by decide, rfl, by decide⟩, rfl, by decide, rfl⟩

/-! ## Descriptions -/

theorem Segment_congr (lines : List Str) (c c2 : Chore) (body post : List Str)
    (hn : c2.Name = c.Name) (hl : c2.Line = c.Line) (h : Segment lines c body post) :
    Segment lines c2 body post := by
  obtain ⟨pre, hdr, mid, fl, h1, h2, h3, h4⟩ := h
  exact ⟨pre, hdr, mid, fl, h1, hl.trans h2, hn ▸ h3, h4⟩

/-- A further line after the lines of a chore. -/
theorem Segment_post (lines : List Str) (c : Chore) (body post : List Str) (l : Str)
    (h : Segment lines c body post) : Segment (lines ++ [l]) c body (post ++ [l]) := by
  obtain ⟨pre, hdr, mid, fl, h1, h2⟩ := h
  refine ⟨pre, hdr, mid, fl, ?_, h2⟩
  rw [h1]
  simp

/-- A further line among the lines of a chore. -/
theorem Segment_body (lines : List Str) (c : Chore) (body : List Str) (l : Str)
    (hl : headerName l = none) (h : Segment lines c body []) :
    Segment (lines ++ [l]) c (body ++ [l]) [] := by
  obtain ⟨pre, hdr, mid, fl, h1, h2, h3, h4, h5, h6, h7⟩ := h
  refine ⟨pre, hdr, mid, fl, ?_, h2, h3, h4, h5, h6, ?_⟩
  · rw [h1]
    simp
  · intro x hx
    rcases List.mem_append.mp hx with hx | hx
    · exact h7 x hx
    · simp only [List.mem_singleton] at hx
      rw [hx]
      exact hl

theorem descriptionLines_append (body : List Str) (l : Str) :
    descriptionLines (body ++ [l])
      = descriptionLines body ++ (if isDescriptionLine l = true then [TrimRightCR l] else []) := by
  unfold descriptionLines
  rw [List.filter_append, List.map_append]
  congr 1
  by_cases h : isDescriptionLine l = true
  · simp [h]
  · simp [h]

/-- What the last step of the loop body gathers for an open chore with a positive
frequency. -/
theorem completionOrDescription_gathers (n : Nat) (l : Str) (st : State) (cur : Chore)
    (hc : st.currentChore = some cur) (hf : 0 < cur.FrequencyDays) :
    (completionOrDescription n (TrimRightCR l) st).descLines
      = st.descLines ++ (if isDescriptionLine l = true then [TrimRightCR l] else []) := by
  unfold completionOrDescription isDescriptionLine
  cases hm : completionRegex (TrimRightCR l) with
  | some p =>
    obtain ⟨d, g⟩ := p
    simp only [Option.isNone_some, Bool.and_false, Bool.false_eq_true, if_false,
      List.append_nil]
    split <;> rfl
  | none =>
    simp only [hc, Option.isNone_none, Bool.and_true, decide_eq_true_eq]
    by_cases ht : TrimSpace (TrimRightCR l) ≠ []
    · rw [if_pos ⟨hf, ht⟩, if_pos ht]
    · rw [if_neg (fun h => ht h.2), if_neg ht]
      simp

/-- One turn of the loop keeps the descriptions in agreement with the lines read. -/
theorem parseLine_Described (lower : Str → Str) (done : List Str) (l : Str) (st st1 : State)
    (hd : Described done st)
    (h : parseLine lower (done.length + 1) (TrimRightCR l) st = .ok st1) :
    Described (done ++ [l]) st1 := by
  obtain ⟨I1, I2, I3⟩ := hd
  -- the chores handed over before stay described
  have hold : ∀ c ∈ st.result.Chores, 0 < c.FrequencyDays →
      ∃ body h t, Segment (done ++ [l]) c body (h :: t) ∧ headerName h ≠ none ∧
        c.Description = TrimSpace (Join (descriptionLines body)) := by
    intro c hc hf
    obtain ⟨body, h0, t, hseg, hh, hdesc⟩ := I1 c hc hf
    exact ⟨body, h0, t ++ [l], Segment_post _ _ _ _ l hseg, hh, hdesc⟩
  -- the chores of the state once a header is met
  have hflush : headerName l ≠ none → ∀ c ∈ st.flush.Chores, 0 < c.FrequencyDays →
      ∃ body h t, Segment (done ++ [l]) c body (h :: t) ∧ headerName h ≠ none ∧
        c.Description = TrimSpace (Join (descriptionLines body)) := by
    intro hl c hc hf
    rw [flush_Chores] at hc
    rcases List.mem_append.mp hc with hc | hc
    · exact hold c hc hf
    · cases hcur : st.currentChore with
      | none => rw [hcur] at hc; cases hc
      | some cur =>
        rw [hcur] at hc
        simp only [List.mem_singleton] at hc
        subst hc
        obtain ⟨body, hseg, hdl⟩ := I2 cur hcur hf
        refine ⟨body, l, [], ?_, hl, ?_⟩
        · have := Segment_post _ _ _ _ l hseg
          exact Segment_congr _ cur _ _ _ rfl rfl this
        · simp only
          rw [hdl]
  rcases parseLine_cases lower _ _ st st1 h with
    ⟨m1, hh, hk, rfl⟩ | ⟨m1, hh, hk, rfl⟩ | ⟨hh, c, tok, rest, c1, hc, h0, hm, hfl, rfl⟩ |
    ⟨hh, hf, rfl⟩
  · have hl : headerName l ≠ none := by
      rw [(headerName_eq_some l _).mpr ⟨m1, hh, rfl⟩]
      simp
    refine ⟨fun c hc hf => hflush hl c hc hf, (fun cur hcur => by cases hcur),
      (fun cur hcur => by cases hcur)⟩
  · have hl : headerName l = some (TrimSpace m1) := (headerName_eq_some l _).mpr ⟨m1, hh, rfl⟩
    refine ⟨fun c hc hf => hflush (by rw [hl]; simp) c hc hf, ?_, ?_⟩
    · intro cur hcur hf
      simp only [Option.some.injEq] at hcur
      subst hcur
      simp at hf
    · intro cur hcur _
      simp only [Option.some.injEq] at hcur
      subst hcur
      exact ⟨done, l, [], rfl, rfl, hl, by simp, rfl⟩
  · have hl : headerName l = none := (headerName_eq_none l).mpr hh
    obtain ⟨he, hn1, hl1, hd1, -, -⟩ := frequencyLine_ok _ tok rest c c1 hfl
    refine ⟨hold, ?_, ?_⟩
    · intro cur hcur hf
      simp only [Option.some.injEq] at hcur
      subst hcur
      obtain ⟨pre, hdr, mid, e1, e2, e3, e4, e5⟩ := I3 c hc h0
      refine ⟨[], ⟨pre, hdr, mid, l, ?_, hl1.trans e2, hn1 ▸ e3, e4, hl, ?_, by simp⟩, ?_⟩
      · rw [e1]
        simp
      · unfold frequencyShape
        rw [hm]
        simp
      · exact e5
    · intro cur hcur hf
      simp only [Option.some.injEq] at hcur
      subst hcur
      rw [hd1] at hf
      exact absurd hf (ParseFrequency_days_ne_zero tok he)
  · have hl : headerName l = none := (headerName_eq_none l).mpr hh
    refine ⟨by rw [completionOrDescription_Chores]; exact hold, ?_, ?_⟩
    · intro cur hcur hfreq
      rw [completionOrDescription_currentChore] at hcur
      obtain ⟨body, hseg, hdl⟩ := I2 cur hcur hfreq
      refine ⟨body ++ [l], Segment_body _ _ _ l hl hseg, ?_⟩
      rw [completionOrDescription_gathers _ l st cur hcur hfreq, descriptionLines_append, hdl]
    · intro cur hcur hfreq
      rw [completionOrDescription_currentChore] at hcur
      obtain ⟨pre, hdr, mid, e1, e2, e3, e4, e5⟩ := I3 cur hcur hfreq
      refine ⟨pre, hdr, mid ++ [l], ?_, e2, e3, ?_, ?_⟩
      · rw [e1]
        simp
      · intro x hx
        rcases List.mem_append.mp hx with hx | hx
        · exact e4 x hx
        · simp only [List.mem_singleton] at hx
          rw [hx]
          exact ⟨hl, hf cur hcur hfreq⟩
      · rw [completionOrDescription_descLines _ _ _
          (fun c hc => by rw [hcur] at hc; cases hc; omega), e5]

/-- The descriptions agree with the lines all along the loop. -/
theorem parseLines_Described (lower : Str → Str) :
    ∀ (ls done : List Str) (st st1 : State), Described done st →
      parseLines lower (done.length + 1) ls st = .ok st1 → Described (done ++ ls) st1 := by
  intro ls
  induction ls with
  | nil =>
    intro done st st1 hd h
    simp only [parseLines] at h
    cases h
    simpa using hd
  | cons l ls ih =>
    intro done st st1 hd h
    simp only [parseLines] at h
    cases hl : parseLine lower (done.length + 1) (TrimRightCR l) st with
    | error e => rw [hl] at h; cases h
    | ok st2 =>
      rw [hl] at h
      have hlen : (done ++ [l]).length + 1 = done.length + 1 + 1 := by simp
      have happ : done ++ l :: ls = (done ++ [l]) ++ ls := by simp
      rw [happ]
      exact ih (done ++ [l]) st2 st1 (parseLine_Described lower done l st st2 hd hl)
        (by rw [hlen]; exact h)

/-- The description of a chore with a positive frequency: on a successful parse,
such a chore has as its description the trimmed join, by newlines, of the description
lines (not blank, not of completion-line shape, freed of trailing carriage returns)
among the lines `body` that lie between its frequency line and the next header line,
or the end of the input, in their order; blank lines among them are passed over, and
the lines between the header and the frequency line are not among them. -/
theorem Parse_description (lower : Str → Str) (content : Str) (r : ParseResult) (c : Chore)
    (hparse : Parse lower content = .ok r) (hc : c ∈ r.Chores) (hf : 0 < c.FrequencyDays) :
    ∃ body post, Segment (Split content) c body post ∧
      (post = [] ∨ ∃ h t, post = h :: t ∧ headerName h ≠ none) ∧
      c.Description = TrimSpace (Join (descriptionLines body)) := by
  unfold Parse at hparse
  cases hrun : parseLines lower 1 (Split content) State.init with
  | error e => rw [hrun] at hparse; cases hparse
  | ok st =>
    rw [hrun] at hparse
    simp only at hparse
    obtain ⟨hr, -⟩ := validate_ok _ _ hparse
    subst hr
    have hinit : Described [] State.init :=
      ⟨fun c hc => by simp [State.init] at hc, (fun cur hcur => by simp [State.init] at hcur),
        (fun cur hcur => by simp [State.init] at hcur)⟩
    obtain ⟨I1, I2, -⟩ := parseLines_Described lower (Split content) [] State.init st hinit hrun
    simp only [List.nil_append] at I1 I2
    rw [flush_Chores] at hc
    rcases List.mem_append.mp hc with hc | hc
    · obtain ⟨body, h, t, hseg, hh, hdesc⟩ := I1 c hc hf
      exact ⟨body, h :: t, hseg, Or.inr ⟨h, t, rfl, hh⟩, hdesc⟩
    · cases hcur : st.currentChore with
      | none => rw [hcur] at hc; cases hc
      | some cur =>
        rw [hcur] at hc
        simp only [List.mem_singleton] at hc
        subst hc
        obtain ⟨body, hseg, hdl⟩ := I2 cur hcur hf
        refine ⟨body, [], Segment_congr _ cur _ _ _ rfl rfl hseg, Or.inl rfl, ?_⟩
        simp only
        rw [hdl]

/-- C23 fails on the code for a frequency that wraps around to a negative number of
days: the line after the frequency line is not blank and has not the shape of a
completion line, and the description of the chore stays empty, because the loop only
gathers lines while `FrequencyDays > 0`. With a frequency that fits, the same line is
the description. -/
theorem Parse_description_lost :
    Parse asciiLower "## A\n> 4611686018427387904w\nWipe the table\n".toList
      = .ok ⟨[⟨"A".toList, -4611686018427387904, "4611686018427387904w".toList, 0, [], [], 1⟩],
          [], []⟩ ∧
    isDescriptionLine "Wipe the table".toList = true ∧
    Parse asciiLower "## A\n> 1w\nWipe the table\n".toList
      = .ok ⟨[⟨"A".toList, 7, "1w".toList, 0, [], "Wipe the table".toList, 1⟩], [], []⟩ :=
  ⟨rfl, by decide, rfl⟩

/-! ## Parsing a formatted duration -/

/-- A text of one of the three duration shapes is made of digits, `h` and `m`. -/
theorem durationParts_chars (s : Str) (p : Nat × Nat) (h : durationParts s = some p) :
    ∀ c ∈ s, isDigit c = true ∨ c = 'h' ∨ c = 'm' := by
  unfold durationParts at h
  cases h1 : durationHM s with
  | some q =>
    obtain ⟨hs, ms⟩ := q
    obtain ⟨rfl, -, -, d1, d2⟩ := (durationHM_eq_some_iff s hs ms).mp h1
    intro c hc
    simp only [List.mem_append, List.mem_cons, List.mem_singleton, List.not_mem_nil,
      or_false] at hc
    rcases hc with hc | hc | hc | hc
    · exact Or.inl (d1 c hc)
    · exact Or.inr (Or.inl hc)
    · exact Or.inl (d2 c hc)
    · exact Or.inr (Or.inr hc)
  | none =>
    rw [h1] at h
    simp only at h
    cases h2 : durationH s with
    | some hs =>
      obtain ⟨rfl, -, d1⟩ := (durationH_eq_some_iff s hs).mp h2
      intro c hc
      simp only [List.mem_append, List.mem_singleton] at hc
      rcases hc with hc | hc
      · exact Or.inl (d1 c hc)
      · exact Or.inr (Or.inl hc)
    | none =>
      rw [h2] at h
      simp only at h
      cases h3 : durationM s with
      | some ms =>
        obtain ⟨rfl, -, d1⟩ := (durationM_eq_some_iff s ms).mp h3
        intro c hc
        simp only [List.mem_append, List.mem_singleton] at hc
        rcases hc with hc | hc
        · exact Or.inl (d1 c hc)
        · exact Or.inr (Or.inr hc)
      | none =>
        rw [h3] at h
        cases h

/-- A text that holds a blank has none of the three duration shapes. -/
theorem durationParts_blank (s : Str) (h : ' ' ∈ s) : durationParts s = none := by
  cases hp : durationParts s with
  | none => rfl
  | some p =>
    rcases durationParts_chars s p hp ' ' h with h1 | h1 | h1
    · exact absurd h1 (by decide)
    · exact absurd h1 (by decide)
    · exact absurd h1 (by decide)

/-- The rendering of a number followed by `m` is that many minutes. -/
theorem durationParts_minutes (n : Nat) :
    durationParts (natToStr n ++ ['m']) = some (0, n) := by
  obtain ⟨hd, hv, hne, -⟩ := natToStr_spec n
  have h1 : durationHM (natToStr n ++ ['m']) = none := by
    cases hx : durationHM (natToStr n ++ ['m']) with
    | none => rfl
    | some q =>
      obtain ⟨hs, ms⟩ := q
      obtain ⟨e, -, -, -, -⟩ := (durationHM_eq_some_iff _ hs ms).mp hx
      have hmem : 'h' ∈ natToStr n ++ ['m'] := by
        rw [e]
        simp
      rcases List.mem_append.mp hmem with hm | hm
      · exact absurd (hd 'h' hm) (by decide)
      · simp at hm
  have h2 : durationH (natToStr n ++ ['m']) = none := by
    cases hx : durationH (natToStr n ++ ['m']) with
    | none => rfl
    | some hs =>
      obtain ⟨e, -, -⟩ := (durationH_eq_some_iff _ hs).mp hx
      have := (List.append_inj' e rfl).2
      simp at this
  have h3 : durationM (natToStr n ++ ['m']) = some (natToStr n) :=
    (durationM_eq_some_iff _ _).mpr ⟨rfl, hne, hd⟩
  unfold durationParts
  rw [h1]
  simp only [h2, h3, hv]

/-- The rendering of a number followed by `h` is that many hours. -/
theorem durationParts_hours (n : Nat) :
    durationParts (natToStr n ++ ['h']) = some (n, 0) := by
  obtain ⟨hd, hv, hne, -⟩ := natToStr_spec n
  have h1 : durationHM (natToStr n ++ ['h']) = none := by
    cases hx : durationHM (natToStr n ++ ['h']) with
    | none => rfl
    | some q =>
      obtain ⟨hs, ms⟩ := q
      obtain ⟨e, -, -, -, -⟩ := (durationHM_eq_some_iff _ hs ms).mp hx
      have e2 : natToStr n ++ ['h'] = (hs ++ 'h' :: ms) ++ ['m'] := by
        rw [e]
        simp
      have := (List.append_inj' e2 rfl).2
      simp at this
  have h2 : durationH (natToStr n ++ ['h']) = some (natToStr n) :=
    (durationH_eq_some_iff _ _).mpr ⟨rfl, hne, hd⟩
  unfold durationParts
  rw [h1]
  simp only [h2, hv]

/-- C31: for every `int` `m`, `ParseDuration (FormatDuration m)` succeeds and returns
`m` if and only if `m > 0` and (`m < 60` or `m` is a multiple of 60), and then the raw
text is the formatted one; for every other `m` it is rejected: for `m <= 0` the text
is `0m`, rejected as not positive, and for `m >= 60` with a remainder the text holds a
blank and is rejected for its format. -/
theorem ParseDuration_FormatDuration (m : Int) (hmax : m ≤ maxInt) :
    (((ParseDuration (FormatDuration m)).err = none ∧
        (ParseDuration (FormatDuration m)).minutes = m) ↔
      (0 < m ∧ (m < 60 ∨ m % 60 = 0))) ∧
    (¬ (0 < m ∧ (m < 60 ∨ m % 60 = 0)) → (ParseDuration (FormatDuration m)).err ≠ none) ∧
    (0 < m → (m < 60 ∨ m % 60 = 0) →
      ParseDuration (FormatDuration m) = ⟨m, FormatDuration m, none⟩) ∧
    (m ≤ 0 → FormatDuration m = "0m".toList ∧
      ParseDuration (FormatDuration m) = ⟨0, [], some (.notPositive 0)⟩) ∧
    (60 ≤ m → m % 60 ≠ 0 → ' ' ∈ FormatDuration m ∧
      ParseDuration (FormatDuration m) = ⟨0, [], some (.format (FormatDuration m))⟩) := by
  have hneg : m ≤ 0 → FormatDuration m = "0m".toList ∧
      ParseDuration (FormatDuration m) = ⟨0, [], some (.notPositive 0)⟩ := by
    intro h
    have e : FormatDuration m = "0m".toList := by
      unfold FormatDuration
      rw [if_pos h]
    rw [e]
    exact ⟨rfl, by decide⟩
  have hgood : 0 < m → (m < 60 ∨ m % 60 = 0) →
      ParseDuration (FormatDuration m) = ⟨m, FormatDuration m, none⟩ := by
    intro hpos hsingle
    have e1 : Int.tdiv m 60 = m / 60 := Int.tdiv_eq_ediv (by omega) (by decide)
    have e2 : Int.tmod m 60 = m % 60 := Int.tmod_eq_emod (by omega) (by omega)
    by_cases hq : 0 < m / 60
    · have hr : m % 60 = 0 := by omega
      have hF : FormatDuration m = natToStr (m / 60).toNat ++ ['h'] := by
        unfold FormatDuration
        rw [if_neg (by omega), e1, e2, if_neg (by omega), if_pos hq,
          Itoa_of_nonneg _ (by omega)]
        rfl
      rw [hF]
      have hp := (ParseDuration_of_fits (natToStr (m / 60).toNat ++ ['h'])).2
        (m / 60).toNat 0 (durationParts_hours _) (by unfold maxInt at hmax ⊢; omega)
      rw [hp, if_neg (by omega)]
      congr 1
      omega
    · have hF : FormatDuration m = natToStr (m % 60).toNat ++ ['m'] := by
        unfold FormatDuration
        rw [if_neg (by omega), e1, e2, if_neg (by omega), if_neg hq,
          Itoa_of_nonneg _ (by omega)]
        rfl
      rw [hF]
      have hp := (ParseDuration_of_fits (natToStr (m % 60).toNat ++ ['m'])).2
        0 (m % 60).toNat (durationParts_minutes _) (by unfold maxInt at hmax ⊢; omega)
      rw [hp, if_neg (by omega)]
      congr 1
      omega
  have hblank : 60 ≤ m → m % 60 ≠ 0 → ' ' ∈ FormatDuration m ∧
      ParseDuration (FormatDuration m) = ⟨0, [], some (.format (FormatDuration m))⟩ := by
    intro h60 hr
    have e1 : Int.tdiv m 60 = m / 60 := Int.tdiv_eq_ediv (by omega) (by decide)
    have e2 : Int.tmod m 60 = m % 60 := Int.tmod_eq_emod (by omega) (by omega)
    have hmem : ' ' ∈ FormatDuration m := by
      unfold FormatDuration
      rw [if_neg (by omega), e1, e2, if_pos ⟨by omega, by omega⟩]
      simp
    exact ⟨hmem, (ParseDuration_of_fits _).1 (durationParts_blank _ hmem)⟩
  refine ⟨⟨?_, ?_⟩, ?_, hgood, hneg, hblank⟩
  · rintro ⟨herr, -⟩
    by_cases hpos : 0 < m
    · refine ⟨hpos, ?_⟩
      by_contra hc
      push_neg at hc
      rw [(hblank (by omega) hc.2).2] at herr
      cases herr
    · rw [(hneg (by omega)).2] at herr
      cases herr
  · rintro ⟨hpos, hsingle⟩
    rw [hgood hpos hsingle]
    exact ⟨rfl, rfl⟩
  · intro hnot herr
    by_cases hpos : 0 < m
    · have hc : ¬ (m < 60 ∨ m % 60 = 0) := fun h => hnot ⟨hpos, h⟩
      push_neg at hc
      rw [(hblank (by omega) hc.2).2] at herr
      cases herr
    · rw [(hneg (by omega)).2] at herr
      cases herr

/-- A use of `ParseDuration_FormatDuration` on two hours, which parse back, where
ninety minutes, formatted as `1h 30m`, do not. -/
theorem ParseDuration_FormatDuration_witness :
    (120 : Int) ≤ maxInt ∧
      ParseDuration (FormatDuration 120) = ⟨120, "2h".toList, none⟩ ∧
      (ParseDuration (FormatDuration 90)).err ≠ none :=
  ⟨by decide,
    ((ParseDuration_FormatDuration 120 (by decide)).2.2.1 (by decide) (by decide)).trans
      (by decide),
    (ParseDuration_FormatDuration 90 (by decide)).2.1 (by decide)⟩

/-- C1 fails on the code where `freq - daysSince` leaves the range of `int`: for a
chore to be done every 9223372036854775807 days whose latest completion is the day
after `now`, `daysSince = -1` is below `freq` and `freq - daysSince` is
9223372036854775808, above 7, so the entry should be Clear with that `DaysUntil`;
`Calculate` returns Upcoming with `DaysUntil = -9223372036854775808`. -/
theorem Calculate_classifies_overflow :
    Parse asciiLower "## Roof\n> 9223372036854775807d\n2026-03-02 roof\n".toList
      = .ok ⟨[⟨"Roof".toList, 9223372036854775807, "9223372036854775807d".toList, 0, [], [],
            1⟩], [⟨Date 2026 3 2, "roof".toList, 3⟩], []⟩ ∧
    DaysBetween (Date 2026 3 2) (Date 2026 3 1) = -1 ∧
    DaysBetween (Date 2026 3 2) (Date 2026 3 1) < 9223372036854775807 ∧
    9223372036854775807 - DaysBetween (Date 2026 3 2) (Date 2026 3 1) = 9223372036854775808 ∧
    7 < 9223372036854775807 - DaysBetween (Date 2026 3 2) (Date 2026 3 1) ∧
    ∃ e, Calculate asciiLower
          [⟨"Roof".toList, 9223372036854775807, "9223372036854775807d".toList, 0, [], [], 1⟩]
          [⟨Date 2026 3 2, "roof".toList, 3⟩] (Date 2026 3 1) = [e] ∧
      e.LastDone = some (Date 2026 3 2) ∧ e.Status = StatusUpcoming ∧
      e.Status ≠ StatusClear ∧ e.DaysUntil = -9223372036854775808 ∧
      e.DaysUntil ≠ 9223372036854775807 - DaysBetween (Date 2026 3 2) (Date 2026 3 1) :=
  ⟨rfl, by decide, by decide, by decide, by decide,
    ⟨⟨"Roof".toList, 9223372036854775807, "9223372036854775807d".toList, 0, [], [], 1⟩,
      StatusUpcoming, 0, -9223372036854775808, some (Date 2026 3 2)⟩,
    by decide, rfl, rfl, by decide, rfl, by decide⟩

end Chores
